import Mathlib

/-!
# Search server: shallow embedding

A model of the in-process document search index (`search_server.h`,
`search_server.cpp`, `string_processing.cpp`, `concurrent_map.h`).

Modelling conventions
* `std::string` / `std::string_view` are lists of characters, compared by value.
  The keys of the inverted index are `string_view`s into the stored texts;
  `SearchServer` holds them by the characters they had when inserted, which is what
  the source reads as long as the text a key views is alive. `TrackedServer` records
  which text each key views: `RemoveDocument` destroys the text of the record it
  erases and keeps the keys (`TrackedServer.dangling`), and from then on the lookups
  of the source read freed memory.
* `std::map` is an association list kept in strictly ascending key order
  (`OMap`); iteration is list order.
* `double` is replaced by exact arithmetic: term frequencies are rationals,
  relevances live in a linear ordered field `K` and the natural logarithm is a
  parameter `ln : ℚ → K` (for `K = ℝ` it is `Real.log`).
* A C++ exception is an `Except.error`; a mutating method returns the outcome
  together with the state the object is left in.
* `std::sort` is described for comparators that meet its requirement, a strict weak
  ordering on the sorted range (`strictWeakOrderOn`); outside of it the source has
  undefined behaviour.
* Container sizes are taken to fit `int`: `static_cast<int>(v.size())` and the `int`
  returned by `GetDocumentCount` are the size itself.
-/

set_option autoImplicit false
set_option linter.unusedSectionVars false

/-- Strings and string views, by value. -/
abbrev Str := List Char

/-- The exceptions the server raises. -/
inductive Error where
  | invalid_argument
  | out_of_range
  deriving DecidableEq, Repr

/-- Document status enumeration (`document.h`). -/
inductive DocumentStatus where
  | ACTUAL
  | IRRELEVANT
  | BANNED
  | REMOVED
  deriving DecidableEq, Repr

/-- Ordered map: the model of `std::map`, an association list in ascending key order. -/
abbrev OMap (α β : Type) := List (α × β)

namespace OMap

variable {α β : Type}

/-- Lookup of a key (`find`). -/
def find? [DecidableEq α] : OMap α β → α → Option β
  | [], _ => none
  | (k', v) :: t, k => if k' = k then some v else find? t k

/-- Number of entries with the key, 0 or 1 (`count`). -/
def count [DecidableEq α] (m : OMap α β) (k : α) : Nat :=
  if (m.find? k).isSome then 1 else 0

/-- Checked access, `std::map::at`: raises `out_of_range` on a missing key. -/
def at_ [DecidableEq α] (m : OMap α β) (k : α) : Except Error β :=
  match m.find? k with
  | some v => .ok v
  | none => .error .out_of_range

/-- Insert or overwrite the entry of a key, keeping ascending order. -/
def insert [LinearOrder α] (k : α) (v : β) : OMap α β → OMap α β
  | [] => [(k, v)]
  | (k', v') :: t =>
    if k < k' then (k, v) :: (k', v') :: t
    else if k = k' then (k, v) :: t
    else (k', v') :: insert k v t

/-- Insert only when the key is absent (`emplace`). -/
def emplace [LinearOrder α] (k : α) (v : β) (m : OMap α β) : OMap α β :=
  if m.count k > 0 then m else m.insert k v

/-- Remove the entry of a key, if any (`erase`). -/
def erase [DecidableEq α] (k : α) (m : OMap α β) : OMap α β :=
  m.filter (fun p => decide (p.1 ≠ k))

/-- Number of entries (`size`). -/
def size (m : OMap α β) : Nat := m.length

/-- Value-initialising access, `operator[]`: the value at the key, or the default. -/
def index [DecidableEq α] (m : OMap α β) (k : α) (dflt : β) : β :=
  (m.find? k).getD dflt

/-- Statement `m[k] += x`: the entry is created with value 0 when absent. -/
def addAt {V : Type} [Zero V] [Add V] [LinearOrder α] (m : OMap α V) (k : α) (x : V) : OMap α V :=
  m.insert k (m.index k 0 + x)

/-- The keys in iteration order. -/
def keys (m : OMap α β) : List α := m.map Prod.fst

/-- Well-formedness: keys strictly ascending. -/
def WF [LinearOrder α] (m : OMap α β) : Prop := (m.keys).Sorted (· < ·)

end OMap

/-! ## string_processing.cpp -/

/-- The owning-string tokenizer `SplitIntoWords`: state is (finished words, current word). -/
def SplitIntoWords.step (st : List Str × Str) (c : Char) : List Str × Str :=
  if c = ' ' then
    if !st.2.isEmpty then (st.1 ++ [st.2], []) else st
  else (st.1, st.2 ++ [c])

/-- Tokenizer on owned strings, `SplitIntoWords`. -/
def SplitIntoWords (text : Str) : List Str :=
  let st := text.foldl SplitIntoWords.step ([], [])
  if !st.2.isEmpty then st.1 ++ [st.2] else st.1

/-- The `while (!str.empty())` loop of `SplitIntoWordsView`; each round consumes at
least one character, the first argument bounds the number of rounds. -/
def SplitIntoWordsView.loop : Nat → Str → List Str
  | 0, _ => []
  | fuel + 1, str =>
    if str.isEmpty then []
    else
      -- `space = str.find(' ')`: the word is `str.substr(0, space)`
      let word := str.takeWhile (fun c => decide (c ≠ ' '))
      match str.dropWhile (fun c => decide (c ≠ ' ')) with
      | [] => [word]
      | rest => word :: SplitIntoWordsView.loop fuel (rest.dropWhile (fun c => decide (c = ' ')))

/-- Tokenizer on views, `SplitIntoWordsView`. -/
def SplitIntoWordsView (str : Str) : List Str :=
  SplitIntoWordsView.loop (str.length + 1) (str.dropWhile (fun c => decide (c = ' ')))

/-! ## Standard algorithms used by the server -/

/-- Insertion of one element for `std_sort`: before the first element that does not
come before it. -/
def std_sort.ins {α : Type} (comp : α → α → Bool) (x : α) : List α → List α
  | [] => [x]
  | y :: t => if comp y x then y :: std_sort.ins comp x t else x :: y :: t

/-- Model of `std::sort(first, last, comp)` for a comparator that is a strict weak
ordering on the range (`strictWeakOrderOn`, the requirement of `std::sort`): a sorted
arrangement of the range, the one produced by insertion (`std::sort` leaves the order of
equivalent elements open). Where the comparator is not a strict weak ordering on the range
the behaviour of `std::sort` is undefined. libstdc++ sorts a range of at most 16 elements
by insertion alone, which ends for every comparator, and this function gives its result
on the six near-tied documents of `SearchServer.nearTieStore`; on longer ranges libstdc++
scans without the bound checks that only a strict weak ordering makes unnecessary, and
this function does not describe the source there. -/
def std_sort {α : Type} (comp : α → α → Bool) : List α → List α
  | [] => []
  | x :: t => std_sort.ins comp x (std_sort comp t)

/-- Model of `std::unique` followed by `erase`: drops consecutive duplicates. -/
def std_unique {α : Type} [DecidableEq α] : List α → List α
  | [] => []
  | x :: t =>
    match std_unique t with
    | [] => [x]
    | y :: r => if x = y then y :: r else x :: y :: r

/-! ## search_server.h / search_server.cpp -/

structure DocumentData where
  rating : Int
  status : DocumentStatus
  text : Str
  deriving DecidableEq, Repr

/-- Search result (`document.h`): id, relevance, rating. -/
structure Document (K : Type) where
  id : Int
  relevance : K
  rating : Int

structure QueryWord where
  data : Str
  is_minus : Bool
  is_stop : Bool
  deriving DecidableEq, Repr

structure Query where
  plus_words : List Str
  minus_words : List Str
  deriving DecidableEq, Repr

/-- The private state of `class SearchServer`. -/
structure SearchServer where
  stop_words_ : List Str
  doc_to_word_freq : OMap Int (OMap Str ℚ)
  word_to_document_freqs_ : OMap Str (OMap Int ℚ)
  documents_ : OMap Int DocumentData
  document_ids_ : OMap Int Unit

def MAX_RESULT_DOCUMENT_COUNT : Nat := 5

/-- Two's complement wrap-around of `int`. -/
def wrap32 (x : Int) : Int := (x + 2 ^ 31) % 2 ^ 32 - 2 ^ 31

namespace SearchServer

/-- A freshly constructed server: the stop words, no documents. -/
def init (stop_words : List Str) : SearchServer :=
  { stop_words_ := stop_words, doc_to_word_freq := [], word_to_document_freqs_ := [],
    documents_ := [], document_ids_ := [] }

def IsStopWord (s : SearchServer) (word : Str) : Bool :=
  decide (word ∈ s.stop_words_)

/-- No character with code in [0, 32). -/
def IsValidWord (word : Str) : Bool :=
  !(word.any (fun c => decide (0 ≤ c.toNat) && decide (c.toNat < (' ' : Char).toNat)))

def SplitIntoWordsNoStop.loop (s : SearchServer) : List Str → List Str → Except Error (List Str)
  | [], words => .ok words
  | word :: rest, words =>
    if !IsValidWord word then .error .invalid_argument
    else if !s.IsStopWord word then SplitIntoWordsNoStop.loop s rest (words ++ [word])
    else SplitIntoWordsNoStop.loop s rest words

def SplitIntoWordsNoStop (s : SearchServer) (text : Str) : Except Error (List Str) :=
  SplitIntoWordsNoStop.loop s (SplitIntoWordsView text) []

def ComputeAverageRating (ratings : List Int) : Int :=
  if ratings.isEmpty then 0
  else
    let rating_sum := ratings.foldl (fun acc r => wrap32 (acc + r)) 0
    Int.tdiv rating_sum (ratings.length : Int)

def ParseQueryWord (s : SearchServer) (text : Str) : Except Error QueryWord :=
  if text.isEmpty then .error .invalid_argument
  else
    let is_minus : Bool := decide (text.head? = some '-')
    let word : Str := if is_minus then text.drop 1 else text
    if word.isEmpty || decide (word.head? = some '-') || !IsValidWord word then
      .error .invalid_argument
    else .ok { data := word, is_minus := is_minus, is_stop := s.IsStopWord word }

def ParseQuery.loop (s : SearchServer) : List Str → Query → Except Error Query
  | [], query => .ok query
  | word :: rest, query =>
    match s.ParseQueryWord word with
    | .error e => .error e
    | .ok query_word =>
      if !query_word.is_stop then
        if query_word.is_minus then
          ParseQuery.loop s rest { query with minus_words := query.minus_words ++ [query_word.data] }
        else
          ParseQuery.loop s rest { query with plus_words := query.plus_words ++ [query_word.data] }
      else ParseQuery.loop s rest query

def ParseQuery (s : SearchServer) (text : Str) (is_sorted : Bool) : Except Error Query :=
  match ParseQuery.loop s (SplitIntoWordsView text) { plus_words := [], minus_words := [] } with
  | .error e => .error e
  | .ok query =>
    if !is_sorted then
      .ok { plus_words := std_unique (std_sort (fun a b => decide (a < b)) query.plus_words),
            minus_words := std_unique (std_sort (fun a b => decide (a < b)) query.minus_words) }
    else .ok query

def GetDocumentCount (s : SearchServer) : Nat := s.documents_.size

/-- Iteration `begin() .. end()` over the live ids. -/
def ids (s : SearchServer) : List Int := s.document_ids_.keys

def GetWordFrequencies (s : SearchServer) (document_id : Int) : OMap Str ℚ :=
  if s.doc_to_word_freq.count document_id = 0 then []
  else
    match s.doc_to_word_freq.find? document_id with
    | some freqs => freqs
    | none => []

/-- The inverted index has a posting of the word for the document: the document
contains the word. -/
def hasWord (s : SearchServer) (word : Str) (document_id : Int) : Bool :=
  decide (document_id ∈ (s.word_to_document_freqs_.index word []).keys)

/-- One round of the loop of `AddDocument`: both indices get `+= inv_word_count`. -/
def AddDocument.step (document_id : Int) (inv_word_count : ℚ) (s : SearchServer) (word : Str) :
    SearchServer :=
  { s with
    word_to_document_freqs_ :=
      s.word_to_document_freqs_.insert word
        ((s.word_to_document_freqs_.index word []).addAt document_id inv_word_count)
    doc_to_word_freq :=
      s.doc_to_word_freq.insert document_id
        ((s.doc_to_word_freq.index document_id []).addAt word inv_word_count) }

/-- Model of `AddDocument`: the outcome and the state the server is left in. -/
def AddDocument (s : SearchServer) (document_id : Int) (document : Str) (status : DocumentStatus)
    (ratings : List Int) : Except Error Unit × SearchServer :=
  if document_id < 0 then (.error .invalid_argument, s)
  else if s.documents_.count document_id > 0 then (.error .invalid_argument, s)
  else
    let s1 : SearchServer :=
      { s with documents_ := s.documents_.emplace document_id
                  { rating := ComputeAverageRating ratings, status := status, text := document } }
    match s1.documents_.at_ document_id with
    | .error e => (.error e, s1)
    | .ok data =>
      match s1.SplitIntoWordsNoStop data.text with
      | .error e => (.error e, s1)
      | .ok words =>
        let inv_word_count : ℚ := 1 / (words.length : ℚ)
        let s2 := words.foldl (AddDocument.step document_id inv_word_count) s1
        (.ok (), { s2 with document_ids_ := s2.document_ids_.insert document_id () })

/-- The loop of the sequential `RemoveDocument`: `word_to_document_freqs_[str].erase(id)`. -/
def RemoveDocument.loop (document_id : Int) :
    List (Str × ℚ) → OMap Str (OMap Int ℚ) → OMap Str (OMap Int ℚ)
  | [], index => index
  | (str, _) :: rest, index =>
    RemoveDocument.loop document_id rest
      (index.insert str ((index.index str []).erase document_id))

/-- Sequential `RemoveDocument`. The keys of the inverted index stay, with an empty posting
map where the document was the only one. They are held by value here; in the source the
keys inserted for this document view the text that `documents_.erase` destroys
(`TrackedServer.RemoveDocument`, `TrackedServer.dangling`). -/
def RemoveDocument (s : SearchServer) (document_id : Int) : Except Error Unit × SearchServer :=
  if s.document_ids_.count document_id = 0 then (.ok (), s)
  else
    match s.doc_to_word_freq.at_ document_id with
    | .error e => (.error e, s)
    | .ok search_doc =>
      (.ok (),
        { s with
          word_to_document_freqs_ :=
            RemoveDocument.loop document_id search_doc s.word_to_document_freqs_
          doc_to_word_freq := s.doc_to_word_freq.erase document_id
          documents_ := s.documents_.erase document_id
          document_ids_ := s.document_ids_.erase document_id })

/-- The tasks of `for_each(execution::par, words, ...)` in `RemoveDocument`, in the order
they take effect: `word_to_document_freqs_.at(word).erase(id)`. The second component is
the index as the tasks have left it. -/
def RemoveDocumentPar.loop (document_id : Int) :
    List Str → OMap Str (OMap Int ℚ) → Except Error Unit × OMap Str (OMap Int ℚ)
  | [], index => (.ok (), index)
  | word :: rest, index =>
    match index.at_ word with
    | .error e => (.error e, index)
    | .ok posting =>
      RemoveDocumentPar.loop document_id rest (index.insert word (posting.erase document_id))

/-- Parallel `RemoveDocument`; `order` is the order in which the per-word tasks take effect,
a permutation of the words recorded for the document. As in the sequential variant the
keys of the inverted index stay and are held by value; in the source those that view the
erased text dangle (`TrackedServer.RemoveDocumentPar`, `TrackedServer.dangling`). -/
def RemoveDocumentPar (s : SearchServer) (document_id : Int) (order : List Str) :
    Except Error Unit × SearchServer :=
  if s.document_ids_.count document_id = 0 then (.ok (), s)
  else
    match s.doc_to_word_freq.at_ document_id with
    | .error e => (.error e, s)
    | .ok _ =>
      match RemoveDocumentPar.loop document_id order s.word_to_document_freqs_ with
      | (.error e, index) => (.error e, { s with word_to_document_freqs_ := index })
      | (.ok _, index) =>
        (.ok (),
          { s with
            word_to_document_freqs_ := index
            doc_to_word_freq := s.doc_to_word_freq.erase document_id
            documents_ := s.documents_.erase document_id
            document_ids_ := s.document_ids_.erase document_id })

/-- The words the parallel `RemoveDocument` collects for a document. -/
def removalWords (s : SearchServer) (document_id : Int) : List Str :=
  (s.doc_to_word_freq.index document_id []).keys

/-- First loop of `MatchDocument`: `true` when a minus-word hits the document. -/
def MatchDocument.minusLoop (s : SearchServer) (document_id : Int) : List Str → Except Error Bool
  | [] => .ok false
  | word :: rest =>
    if s.word_to_document_freqs_.count word = 0 then MatchDocument.minusLoop s document_id rest
    else
      match s.word_to_document_freqs_.at_ word with
      | .error e => .error e
      | .ok posting =>
        if posting.count document_id ≠ 0 then .ok true
        else MatchDocument.minusLoop s document_id rest

/-- Second loop of `MatchDocument`: collects the plus-words of the document. -/
def MatchDocument.plusLoop (s : SearchServer) (document_id : Int) :
    List Str → List Str → Except Error (List Str)
  | [], matched_words => .ok matched_words
  | word :: rest, matched_words =>
    if s.word_to_document_freqs_.count word = 0 then
      MatchDocument.plusLoop s document_id rest matched_words
    else
      match s.word_to_document_freqs_.at_ word with
      | .error e => .error e
      | .ok posting =>
        if posting.count document_id ≠ 0 then
          MatchDocument.plusLoop s document_id rest (matched_words ++ [word])
        else MatchDocument.plusLoop s document_id rest matched_words

/-- Sequential `MatchDocument`. -/
def MatchDocument (s : SearchServer) (raw_query : Str) (document_id : Int) :
    Except Error (List Str × DocumentStatus) :=
  if document_id < 0 ∨ s.documents_.count document_id = 0 then .error .out_of_range
  else
    match s.ParseQuery raw_query false with
    | .error e => .error e
    | .ok query =>
      match MatchDocument.minusLoop s document_id query.minus_words with
      | .error e => .error e
      | .ok true =>
        match s.documents_.at_ document_id with
        | .error e => .error e
        | .ok data => .ok ([], data.status)
      | .ok false =>
        match MatchDocument.plusLoop s document_id query.plus_words [] with
        | .error e => .error e
        | .ok matched_words =>
          match s.documents_.at_ document_id with
          | .error e => .error e
          | .ok data => .ok (matched_words, data.status)

/-- The predicate of `any_of` / `copy_if` in the parallel `MatchDocument`:
`word_to_document_freqs_.at(word).count(document_id)`, no existence check. -/
def MatchDocumentPar.hit (s : SearchServer) (document_id : Int) (word : Str) : Except Error Bool :=
  match s.word_to_document_freqs_.at_ word with
  | .error e => .error e
  | .ok posting => .ok (decide (posting.count document_id ≠ 0))

/-- Model of `any_of(execution::par, ...)`, the predicate evaluated in list order. -/
def MatchDocumentPar.anyOf (s : SearchServer) (document_id : Int) : List Str → Except Error Bool
  | [] => .ok false
  | word :: rest =>
    match MatchDocumentPar.hit s document_id word with
    | .error e => .error e
    | .ok true => .ok true
    | .ok false => MatchDocumentPar.anyOf s document_id rest

/-- Model of `copy_if(execution::par, ...)` followed by `erase(last, end)`. -/
def MatchDocumentPar.copyIf (s : SearchServer) (document_id : Int) :
    List Str → Except Error (List Str)
  | [] => .ok []
  | word :: rest =>
    match MatchDocumentPar.hit s document_id word with
    | .error e => .error e
    | .ok b =>
      match MatchDocumentPar.copyIf s document_id rest with
      | .error e => .error e
      | .ok matched => .ok (if b then word :: matched else matched)

/-- Parallel `MatchDocument`. An exception of `at` inside a parallel algorithm ends the
program; the model reports it as the exception. -/
def MatchDocumentPar (s : SearchServer) (raw_query : Str) (document_id : Int) :
    Except Error (List Str × DocumentStatus) :=
  if document_id < 0 ∨ s.documents_.count document_id = 0 then .error .out_of_range
  else
    match s.ParseQuery raw_query true with
    | .error e => .error e
    | .ok query =>
      match MatchDocumentPar.anyOf s document_id query.minus_words with
      | .error e => .error e
      | .ok true =>
        match s.documents_.at_ document_id with
        | .error e => .error e
        | .ok data => .ok ([], data.status)
      | .ok false =>
        match MatchDocumentPar.copyIf s document_id query.plus_words with
        | .error e => .error e
        | .ok matched_words =>
          match s.documents_.at_ document_id with
          | .error e => .error e
          | .ok data =>
            .ok (std_unique (std_sort (fun a b => decide (a < b)) matched_words), data.status)

/-- A small store for the worked examples: stop word "in", document 1 "cat dog" and
document 2 "cat in hat", both added successfully. -/
def demo : SearchServer :=
  (((init ["in".toList]).AddDocument 1 "cat dog".toList .ACTUAL [3]).2.AddDocument 2
    "cat in hat".toList .BANNED [4, 5]).2

end SearchServer

/-! ## concurrent_map.h -/

/-- The sharded map `ConcurrentMap<int, Value>`: the sub-maps of the parts (the mutexes
are not part of the sequential semantics). -/
structure ConcurrentMap (V : Type) where
  parts_ : List (OMap Int V)

namespace ConcurrentMap

variable {V : Type}

/-- Constructor `ConcurrentMap(part_count)`. -/
def create (part_count : Nat) : ConcurrentMap V :=
  { parts_ := List.replicate part_count [] }

/-- Index of the part of a key: `static_cast<uint64_t>(key) % parts_.size()`. -/
def part (cm : ConcurrentMap V) (key : Int) : Nat :=
  (key % 2 ^ 64).toNat % cm.parts_.length

/-- Apply a function to the sub-map of one part. -/
def onPart (f : OMap Int V → OMap Int V) : Nat → List (OMap Int V) → List (OMap Int V)
  | _, [] => []
  | 0, m :: rest => f m :: rest
  | i + 1, m :: rest => m :: onPart f i rest

/-- Statement `cm[key].ref_to_value += x` under the lock of the part. -/
def add [Zero V] [Add V] (cm : ConcurrentMap V) (key : Int) (x : V) : ConcurrentMap V :=
  { parts_ := onPart (fun m => m.addAt key x) (cm.part key) cm.parts_ }

/-- Method `Remove(key)`. -/
def Remove (cm : ConcurrentMap V) (key : Int) : ConcurrentMap V :=
  { parts_ := onPart (fun m => m.erase key) (cm.part key) cm.parts_ }

/-- Range insertion `result.insert(map.begin(), map.end())`: present keys are kept. -/
def insertRange (result : OMap Int V) : List (Int × V) → OMap Int V
  | [] => result
  | (k, v) :: rest => insertRange (result.emplace k v) rest

/-- Method `BuildOrdinaryMap()`. -/
def BuildOrdinaryMap (cm : ConcurrentMap V) : OMap Int V :=
  cm.parts_.foldl insertRange []

end ConcurrentMap

namespace SearchServer

variable {K : Type} [LinearOrderedField K]

/-- The document predicate, `(document_id, status, rating) -> bool`. -/
abbrev DocumentPredicate := Int → DocumentStatus → Int → Bool

/-- Inverse document frequency of a word, `log(GetDocumentCount() * 1.0 / postings.size())`.
With an empty posting map the quotient is unused: no document receives the value. -/
def ComputeWordInverseDocumentFreq (s : SearchServer) (ln : ℚ → K) (word : Str) :
    Except Error K :=
  match s.word_to_document_freqs_.at_ word with
  | .error e => .error e
  | .ok posting => .ok (ln ((s.GetDocumentCount : ℚ) * 1 / (posting.size : ℚ)))

/-- Inner loop over the postings of a plus-word (sequential). -/
def FindAllDocuments.plusInner (s : SearchServer) (document_predicate : DocumentPredicate)
    (inverse_document_freq : K) : List (Int × ℚ) → OMap Int K → Except Error (OMap Int K)
  | [], document_to_relevance => .ok document_to_relevance
  | (document_id, term_freq) :: rest, document_to_relevance =>
    match s.documents_.at_ document_id with
    | .error e => .error e
    | .ok document_data =>
      if document_predicate document_id document_data.status document_data.rating then
        FindAllDocuments.plusInner s document_predicate inverse_document_freq rest
          (document_to_relevance.addAt document_id ((term_freq : K) * inverse_document_freq))
      else
        FindAllDocuments.plusInner s document_predicate inverse_document_freq rest
          document_to_relevance

/-- Loop over the plus-words (sequential). -/
def FindAllDocuments.plusLoop (s : SearchServer) (ln : ℚ → K)
    (document_predicate : DocumentPredicate) :
    List Str → OMap Int K → Except Error (OMap Int K)
  | [], document_to_relevance => .ok document_to_relevance
  | word :: rest, document_to_relevance =>
    if s.word_to_document_freqs_.count word = 0 then
      FindAllDocuments.plusLoop s ln document_predicate rest document_to_relevance
    else
      match s.ComputeWordInverseDocumentFreq ln word with
      | .error e => .error e
      | .ok inverse_document_freq =>
        match s.word_to_document_freqs_.at_ word with
        | .error e => .error e
        | .ok posting =>
          match FindAllDocuments.plusInner s document_predicate inverse_document_freq posting
              document_to_relevance with
          | .error e => .error e
          | .ok acc => FindAllDocuments.plusLoop s ln document_predicate rest acc

/-- Loop over the minus-words (sequential): every posting is erased from the accumulator. -/
def FindAllDocuments.minusLoop (s : SearchServer) :
    List Str → OMap Int K → Except Error (OMap Int K)
  | [], document_to_relevance => .ok document_to_relevance
  | word :: rest, document_to_relevance =>
    if s.word_to_document_freqs_.count word = 0 then
      FindAllDocuments.minusLoop s rest document_to_relevance
    else
      match s.word_to_document_freqs_.at_ word with
      | .error e => .error e
      | .ok posting =>
        FindAllDocuments.minusLoop s rest
          (posting.foldl (fun acc p => acc.erase p.1) document_to_relevance)

/-- Final loop: one `Document` per accumulator entry, with the stored rating. -/
def FindAllDocuments.collect (s : SearchServer) :
    List (Int × K) → List (Document K) → Except Error (List (Document K))
  | [], matched_documents => .ok matched_documents
  | (document_id, relevance) :: rest, matched_documents =>
    match s.documents_.at_ document_id with
    | .error e => .error e
    | .ok data =>
      FindAllDocuments.collect s rest
        (matched_documents ++ [{ id := document_id, relevance := relevance, rating := data.rating }])

/-- Sequential `FindAllDocuments`. -/
def FindAllDocuments (s : SearchServer) (ln : ℚ → K) (query : Query)
    (document_predicate : DocumentPredicate) : Except Error (List (Document K)) :=
  match FindAllDocuments.plusLoop s ln document_predicate query.plus_words [] with
  | .error e => .error e
  | .ok acc =>
    match FindAllDocuments.minusLoop s query.minus_words acc with
    | .error e => .error e
    | .ok document_to_relevance => FindAllDocuments.collect s document_to_relevance []

/-- First `for_each(execution::par, ...)` of the parallel `FindAllDocuments`: the
minus-word tasks, taking effect in list order. -/
def FindAllDocumentsPar.minusLoop (s : SearchServer) :
    List Str → ConcurrentMap K → Except Error (ConcurrentMap K)
  | [], document_to_relevance => .ok document_to_relevance
  | word :: rest, document_to_relevance =>
    if s.word_to_document_freqs_.count word ≠ 0 then
      match s.word_to_document_freqs_.at_ word with
      | .error e => .error e
      | .ok posting =>
        FindAllDocumentsPar.minusLoop s rest
          (posting.foldl (fun acc p => acc.Remove p.1) document_to_relevance)
    else FindAllDocumentsPar.minusLoop s rest document_to_relevance

/-- Inner loop over the postings of a plus-word (parallel). -/
def FindAllDocumentsPar.plusInner (s : SearchServer) (document_predicate : DocumentPredicate)
    (inverse_document_freq : K) :
    List (Int × ℚ) → ConcurrentMap K → Except Error (ConcurrentMap K)
  | [], document_to_relevance => .ok document_to_relevance
  | (document_id, term_freq) :: rest, document_to_relevance =>
    match s.documents_.at_ document_id with
    | .error e => .error e
    | .ok document_data =>
      if document_predicate document_id document_data.status document_data.rating then
        FindAllDocumentsPar.plusInner s document_predicate inverse_document_freq rest
          (document_to_relevance.add document_id ((term_freq : K) * inverse_document_freq))
      else
        FindAllDocumentsPar.plusInner s document_predicate inverse_document_freq rest
          document_to_relevance

/-- Second `for_each(execution::par, ...)` of the parallel `FindAllDocuments`: the
plus-word tasks, taking effect in list order. -/
def FindAllDocumentsPar.plusLoop (s : SearchServer) (ln : ℚ → K)
    (document_predicate : DocumentPredicate) :
    List Str → ConcurrentMap K → Except Error (ConcurrentMap K)
  | [], document_to_relevance => .ok document_to_relevance
  | word :: rest, document_to_relevance =>
    if s.word_to_document_freqs_.count word ≠ 0 then
      match s.ComputeWordInverseDocumentFreq ln word with
      | .error e => .error e
      | .ok inverse_document_freq =>
        match s.word_to_document_freqs_.at_ word with
        | .error e => .error e
        | .ok posting =>
          match FindAllDocumentsPar.plusInner s document_predicate inverse_document_freq posting
              document_to_relevance with
          | .error e => .error e
          | .ok acc => FindAllDocumentsPar.plusLoop s ln document_predicate rest acc
    else FindAllDocumentsPar.plusLoop s ln document_predicate rest document_to_relevance

/-- Parallel `FindAllDocuments`: removals first, then the additions. -/
def FindAllDocumentsPar (s : SearchServer) (ln : ℚ → K) (query : Query)
    (document_predicate : DocumentPredicate) : Except Error (List (Document K)) :=
  let parts := s.word_to_document_freqs_.size
  match FindAllDocumentsPar.minusLoop s query.minus_words (ConcurrentMap.create parts) with
  | .error e => .error e
  | .ok cm1 =>
    match FindAllDocumentsPar.plusLoop s ln document_predicate query.plus_words cm1 with
    | .error e => .error e
    | .ok cm2 => FindAllDocuments.collect s cm2.BuildOrdinaryMap []

/-- Machine epsilon of `double`, 2^-52. -/
def epsilon : K := 1 / 2 ^ 52

/-- The comparator handed to `std::sort` in `FindTopDocuments`. -/
def before (lhs rhs : Document K) : Bool :=
  decide (lhs.relevance > rhs.relevance) ||
    (decide (|lhs.relevance - rhs.relevance| < epsilon) && decide (lhs.rating > rhs.rating))

/-- Execution policy tag. -/
inductive ExecutionPolicy where
  | seq
  | par
  deriving DecidableEq, Repr

/-- Method `FindTopDocuments(policy, raw_query, document_predicate)`. -/
def FindTopDocuments (s : SearchServer) (ln : ℚ → K) (policy : ExecutionPolicy)
    (raw_query : Str) (document_predicate : DocumentPredicate) :
    Except Error (List (Document K)) :=
  match s.ParseQuery raw_query false with
  | .error e => .error e
  | .ok query =>
    match (match policy with
           | .seq => s.FindAllDocuments ln query document_predicate
           | .par => s.FindAllDocumentsPar ln query document_predicate) with
    | .error e => .error e
    | .ok matched_documents =>
      let sorted := std_sort before matched_documents
      if sorted.length > MAX_RESULT_DOCUMENT_COUNT then
        .ok (sorted.take MAX_RESULT_DOCUMENT_COUNT)
      else .ok sorted

end SearchServer

/-! ## Store states and observations used in the statements -/

namespace SearchServer

/-- The store states a caller can produce: construction, then any sequence of
`AddDocument` and `RemoveDocument` calls (sequential or parallel), whether they succeed
or fail; the keys of the inverted index are read by value. The source is in this state
as long as none of the calls has left a dangling key (`TrackedServer.dangling`). -/
inductive Reachable : SearchServer → Prop where
  | init (stop_words : List Str) : Reachable (init stop_words)
  | add (s : SearchServer) (document_id : Int) (document : Str) (status : DocumentStatus)
      (ratings : List Int) :
      Reachable s → Reachable (s.AddDocument document_id document status ratings).2
  | remove (s : SearchServer) (document_id : Int) :
      Reachable s → Reachable (s.RemoveDocument document_id).2
  | remove_par (s : SearchServer) (document_id : Int) (order : List Str) :
      Reachable s → order.Perm (s.removalWords document_id) →
      Reachable (s.RemoveDocumentPar document_id order).2

/-- Term frequency of a word in a document, as recorded in the inverted index. -/
def termFreq (s : SearchServer) (word : Str) (document_id : Int) : ℚ :=
  (s.word_to_document_freqs_.index word []).index document_id 0

/-- Number of documents that contain the word: the size of its posting map. -/
def docFreq (s : SearchServer) (word : Str) : Nat :=
  (s.word_to_document_freqs_.index word []).size

/-- The document predicate applied to the stored record of an id (false without record). -/
def accepts (s : SearchServer) (document_predicate : DocumentPredicate) (document_id : Int) :
    Bool :=
  match s.documents_.find? document_id with
  | some data => document_predicate document_id data.status data.rating
  | none => false

/-- Every posting map of the inverted index has strictly ascending ids. -/
def PostingsWF (index : OMap Str (OMap Int ℚ)) : Prop :=
  ∀ w posting, index.find? w = some posting → posting.WF

/-- Every posting word -> id of the inverted index has its word recorded for the id in
the reverse index. -/
def Mirrored (index : OMap Str (OMap Int ℚ)) (reverse : OMap Int (OMap Str ℚ)) : Prop :=
  ∀ w posting d, index.find? w = some posting → d ∈ posting.keys →
    w ∈ (reverse.index d []).keys

/-- Consistency of the indices that every reachable store has. -/
structure Inv (s : SearchServer) : Prop where
  posting_wf : PostingsWF s.word_to_document_freqs_
  mirrored : Mirrored s.word_to_document_freqs_ s.doc_to_word_freq
  rev_live : ∀ d, d ∈ s.doc_to_word_freq.keys → d ∈ s.document_ids_.keys
  live_doc : ∀ d, d ∈ s.document_ids_.keys → d ∈ s.documents_.keys

end SearchServer

/-! ## Specification of the tokenizer -/

/-- Specification of the tokenizer, following the words of the specification: the
maximal runs of non-space characters of the text, that is the non-empty pieces between
its spaces, in order. -/
def maximalRuns (text : Str) : List Str :=
  (text.splitOnP (fun c => c == ' ')).filter (fun t => !t.isEmpty)

namespace SearchServer

/-- The posting of a word for a document in the inverted index, if any. -/
def posting? (s : SearchServer) (word : Str) (document_id : Int) : Option ℚ :=
  (s.word_to_document_freqs_.index word []).find? document_id

/-- The entry of a word for a document in the reverse index, if any. -/
def reverse? (s : SearchServer) (document_id : Int) (word : Str) : Option ℚ :=
  (s.doc_to_word_freq.index document_id []).find? word

/-- Second part of the consistency of reachable stores: all maps are in key order, the
two indices agree entry by entry, and the reverse index of a live document holds the
frequencies of the words of its text. -/
structure Coherent (s : SearchServer) : Prop where
  docs_wf : s.documents_.WF
  ids_wf : s.document_ids_.WF
  index_wf : s.word_to_document_freqs_.WF
  reverse_wf : s.doc_to_word_freq.WF
  inner_wf : ∀ d freqs, s.doc_to_word_freq.find? d = some freqs → freqs.WF
  same : ∀ w d, s.posting? w d = s.reverse? d w
  text : ∀ d, d ∈ s.document_ids_.keys → ∃ data words,
    s.documents_.find? d = some data ∧ s.SplitIntoWordsNoStop data.text = .ok words ∧
    ∀ w, s.reverse? d w =
      if w ∈ words then some ((words.count w : ℚ) / (words.length : ℚ)) else none

end SearchServer

namespace ConcurrentMap

variable {V : Type}

/-- The operations a caller runs on the accumulator, one at a time. -/
inductive Op (V : Type) where
  /-- Statement `cm[key].ref_to_value += x`: the entry is created with value 0 first. -/
  | add (key : Int) (x : V)
  /-- Call `cm.Remove(key)`. -/
  | remove (key : Int)

/-- The key an operation addresses. -/
def Op.key : Op V → Int
  | .add key _ => key
  | .remove key => key

/-- One operation on the sharded map. -/
def apply [Zero V] [Add V] (cm : ConcurrentMap V) : Op V → ConcurrentMap V
  | .add key x => cm.add key x
  | .remove key => cm.Remove key

/-- A sequence of operations on the sharded map, in order. -/
def run [Zero V] [Add V] (cm : ConcurrentMap V) (ops : List (Op V)) : ConcurrentMap V :=
  ops.foldl apply cm

/-- The same operation on a single unsharded `std::map`. -/
def applyOrdinary [Zero V] [Add V] (m : OMap Int V) : Op V → OMap Int V
  | .add key x => m.addAt key x
  | .remove key => m.erase key

/-- The same sequence of operations on a single unsharded `std::map`. -/
def runOrdinary [Zero V] [Add V] (m : OMap Int V) (ops : List (Op V)) : OMap Int V :=
  ops.foldl applyOrdinary m

end ConcurrentMap

namespace ConcurrentMap

/-- The relation kept between the sharded map with `N` parts and the unsharded map that
received the same operations. -/
structure Agrees {V : Type} (N : Nat) (cm : ConcurrentMap V) (m : OMap Int V) : Prop where
  parts_length : cm.parts_.length = N
  part_ok : ∀ i p, cm.parts_[i]? = some p →
    p.WF ∧ ∀ k ∈ p.keys, (0 ≤ k ∧ k < 2 ^ 64) ∧ k.toNat % N = i
  map_wf : m.WF
  same : ∀ k, 0 ≤ k → k < 2 ^ 64 →
    (match cm.parts_[k.toNat % N]? with
      | some p => OMap.find? p k
      | none => none) = m.find? k
  map_keys : ∀ k ∈ m.keys, 0 ≤ k ∧ k < 2 ^ 64

end ConcurrentMap

namespace SearchServer

/-- A run of `AddDocument` calls with status ACTUAL, in list order: (id, text, ratings). -/
def addDocuments (s : SearchServer) (docs : List (Int × Str × List Int)) : SearchServer :=
  docs.foldl (fun s d => (s.AddDocument d.1 d.2.1 .ACTUAL d.2.2).2) s

/-- The text "w f f ... f" with n tokens "f" after the token "w". -/
def nearTieText (n : Nat) : Str :=
  'w' :: (List.replicate n [' ', 'f']).flatten

/-- A store whose documents 1 to 6 hold the word "w" once among n + 1, ..., n + 6 tokens;
document 1 has rating 0 and the others rating 5; document 7 is "f". For large n the
relevances of documents 1 to 6 for the query "w" are distinct and closer than epsilon. -/
def nearTieStore (n : Nat) : SearchServer :=
  (init []).addDocuments
    [(1, nearTieText n, []), (2, nearTieText (n + 1), [5]), (3, nearTieText (n + 2), [5]),
      (4, nearTieText (n + 3), [5]), (5, nearTieText (n + 4), [5]),
      (6, nearTieText (n + 5), [5]), (7, ['f'], [5])]

end SearchServer

/-! ## The texts that the keys of the inverted index view -/

/-- The server together with the texts that the keys of its inverted index view. In the
source the keys of `word_to_document_freqs_` are `std::string_view`s: a key views the text
of the record (`documents_.at(id).text`) of the call that inserted it. `SearchServer` holds
the keys by the characters they had when they were inserted; `key_text_` records, for each
key, the id of the record whose text the key views. -/
structure TrackedServer where
  server : SearchServer
  key_text_ : OMap Str Int

namespace TrackedServer

/-- The keys a call working on the text of `document_id` has inserted: `operator[]` inserts
a key only for a word that has none, as the view into the text of `document_id` it was
called with; a key that exists is kept, with the text it views. -/
def viewNewKeys (document_id : Int) (keys : List Str) (key_text : OMap Str Int) :
    OMap Str Int :=
  keys.foldl (fun m word => m.emplace word document_id) key_text

/-- A freshly constructed server: no keys. -/
def init (stop_words : List Str) : TrackedServer :=
  { server := SearchServer.init stop_words, key_text_ := [] }

/-- Method `AddDocument`: the words are views into the text just stored for `document_id`. -/
def AddDocument (t : TrackedServer) (document_id : Int) (document : Str)
    (status : DocumentStatus) (ratings : List Int) : Except Error Unit × TrackedServer :=
  let r := t.server.AddDocument document_id document status ratings
  (r.1, { server := r.2
          key_text_ := viewNewKeys document_id r.2.word_to_document_freqs_.keys t.key_text_ })

/-- Sequential `RemoveDocument`: the words are the keys of `doc_to_word_freq.at(id)`, views
into the text of `document_id`; `documents_.erase(document_id)` then destroys that text,
and the keys of the inverted index stay. -/
def RemoveDocument (t : TrackedServer) (document_id : Int) :
    Except Error Unit × TrackedServer :=
  let r := t.server.RemoveDocument document_id
  (r.1, { server := r.2
          key_text_ := viewNewKeys document_id r.2.word_to_document_freqs_.keys t.key_text_ })

/-- Parallel `RemoveDocument`: `at(word)` inserts no key. -/
def RemoveDocumentPar (t : TrackedServer) (document_id : Int) (order : List Str) :
    Except Error Unit × TrackedServer :=
  let r := t.server.RemoveDocumentPar document_id order
  (r.1, { server := r.2, key_text_ := t.key_text_ })

/-- The dangling keys: the keys of the inverted index that view the text of a record that
has been erased. Every lookup in `word_to_document_freqs_` (`count`, `at`, `operator[]`)
compares its argument with keys of the map, so on a store with a dangling key the lookups
of the source read freed memory, and the members of `SearchServer` describe the source
only while this list is empty. -/
def dangling (t : TrackedServer) : List Str :=
  t.server.word_to_document_freqs_.keys.filter (fun word =>
    match t.key_text_.find? word with
    | some document_id => decide (t.server.documents_.count document_id = 0)
    | none => false)

/-- The store after `AddDocument(1, "cat")`, `AddDocument(2, "cat")`, `RemoveDocument(1)`
on a server without stop words. -/
def catStore : TrackedServer :=
  ((((init []).AddDocument 1 "cat".toList .ACTUAL [1]).2.AddDocument 2 "cat".toList
    .ACTUAL [1]).2.RemoveDocument 1).2

end TrackedServer

namespace TrackedServer

/-- The members as the source reads them after `AddDocument(1, "cat")`,
`AddDocument(2, "cat")`, `RemoveDocument(1)`, `AddDocument(3, "dog")` when the allocator
reuses the block of the erased record 1 for record 3: the dangling key now reads "dog",
so the posting of document 2 is found under "dog" and `AddDocument(3, "dog")` has added
its posting to the same entry. -/
def reusedKeyStore : SearchServer :=
  { stop_words_ := []
    doc_to_word_freq := [(2, [("cat".toList, 1)]), (3, [("dog".toList, 1)])]
    word_to_document_freqs_ := [("dog".toList, [(2, 1), (3, 1)])]
    documents_ := [(2, { rating := 1, status := .ACTUAL, text := "cat".toList }),
      (3, { rating := 1, status := .ACTUAL, text := "dog".toList })]
    document_ids_ := [(2, ()), (3, ())] }

end TrackedServer

/-! ## The contract of `std::sort` -/

/-- The requirement of `std::sort` on its comparator, on the elements of the sorted range:
a strict weak ordering (irreflexive, transitive, with transitive incomparability). Outside
of it the behaviour of `std::sort` is undefined; `std_sort` describes the call only where
this holds. -/
def strictWeakOrderOn {α : Type} (comp : α → α → Bool) (l : List α) : Bool :=
  l.all (fun a => !comp a a) &&
    l.all (fun a => l.all (fun b => l.all (fun c => !(comp a b && comp b c) || comp a c))) &&
    l.all (fun a => l.all (fun b => l.all (fun c =>
      !(!comp a b && !comp b a && !comp b c && !comp c b) || (!comp a c && !comp c a))))

namespace SearchServer

/-- The documents of a store with k near-tied matches for the word "w": document i + 1
(for i < k) is "w" followed by n + i tokens "f", without ratings except the last of them,
which has the rating 5; document k + 1 is "f". -/
def nearTieDocuments (n k : Nat) : List (Int × Str × List Int) :=
  (List.range k).map
      (fun i : Nat =>
        (((i : Int) + 1), nearTieText (n + i), if i + 1 = k then [5] else [])) ++
    [(((k : Int) + 1), ['f'], [])]

/-- The store of `nearTieDocuments`, on a server without stop words. -/
def nearTieStoreOf (n k : Nat) : SearchServer :=
  (init []).addDocuments (nearTieDocuments n k)

end SearchServer

/-! # Theorems -/

/-! ## Ordered maps -/

namespace OMap

variable {α β : Type}

theorem find?_insert_self [DecidableEq α] [LinearOrder α] (k : α) (v : β) (m : OMap α β) :
    (m.insert k v).find? k = some v := by
  induction m with
  | nil => simp [insert, find?]
  | cons p t ih =>
    obtain ⟨k', v'⟩ := p
    unfold insert
    split_ifs with h1 h2
    · simp [find?]
    · simp [find?]
    · have : k' ≠ k := fun h => h2 h.symm
      simp [find?, this, ih]

theorem find?_insert_ne [DecidableEq α] [LinearOrder α] {k k' : α} (h : k' ≠ k) (v : β) (m : OMap α β) :
    (m.insert k v).find? k' = m.find? k' := by
  induction m with
  | nil => simp [insert, find?, h.symm]
  | cons p t ih =>
    obtain ⟨k2, v2⟩ := p
    unfold insert
    split_ifs with h1 h2
    · simp [find?, h.symm]
    · subst h2
      simp [find?, h.symm]
    · simp only [find?, ih]

theorem find?_erase_self [DecidableEq α] (k : α) (m : OMap α β) :
    (m.erase k).find? k = none := by
  induction m with
  | nil => simp [erase, find?]
  | cons p t ih =>
    obtain ⟨k', v'⟩ := p
    by_cases h : k' = k
    · simpa [erase, List.filter_cons, h] using ih
    · simpa [erase, List.filter_cons, h, find?] using ih

theorem find?_erase_ne [DecidableEq α] {k k' : α} (h : k' ≠ k) (m : OMap α β) :
    (m.erase k).find? k' = m.find? k' := by
  induction m with
  | nil => simp [erase, find?]
  | cons p t ih =>
    obtain ⟨k2, v2⟩ := p
    by_cases h2 : k2 = k
    · subst h2
      have : ¬ k2 = k' := fun e => h e.symm
      simpa [erase, List.filter_cons, find?, this] using ih
    · by_cases h3 : k2 = k'
      · subst h3
        simp [erase, List.filter_cons, h2, find?]
      · simpa [erase, List.filter_cons, h2, find?, h3] using ih

theorem mem_keys_iff [DecidableEq α] (m : OMap α β) (k : α) :
    k ∈ m.keys ↔ (m.find? k).isSome = true := by
  induction m with
  | nil => simp [keys, find?]
  | cons p t ih =>
    obtain ⟨k', v'⟩ := p
    by_cases h : k' = k
    · simp [keys, find?, h]
    · have h' : ¬ k = k' := fun e => h e.symm
      simpa [keys, find?, h, h'] using ih

theorem count_eq_zero_iff [DecidableEq α] (m : OMap α β) (k : α) :
    m.count k = 0 ↔ m.find? k = none := by
  unfold count
  cases m.find? k <;> simp

theorem count_ne_zero_iff [DecidableEq α] (m : OMap α β) (k : α) :
    m.count k ≠ 0 ↔ k ∈ m.keys := by
  rw [mem_keys_iff, Ne, count_eq_zero_iff]
  cases m.find? k <;> simp

theorem keys_insert_subset [DecidableEq α] [LinearOrder α] (k : α) (v : β) (m : OMap α β) (x : α) :
    x ∈ (m.insert k v).keys ↔ x = k ∨ x ∈ m.keys := by
  rw [mem_keys_iff, mem_keys_iff]
  by_cases h : x = k
  · subst h
    simp [find?_insert_self]
  · simp [find?_insert_ne h, h]

theorem keys_erase [DecidableEq α] (k : α) (m : OMap α β) (x : α) :
    x ∈ (m.erase k).keys ↔ x ≠ k ∧ x ∈ m.keys := by
  rw [mem_keys_iff, mem_keys_iff]
  by_cases h : x = k
  · subst h
    simp [find?_erase_self]
  · simp [find?_erase_ne h, h]

theorem WF_nil [DecidableEq α] [LinearOrder α] : WF ([] : OMap α β) := by
  simp [WF, keys]

theorem WF_insert [DecidableEq α] [LinearOrder α] (k : α) (v : β) {m : OMap α β} (h : m.WF) :
    (m.insert k v).WF := by
  induction m with
  | nil => simp [insert, WF, keys]
  | cons p t ih =>
    obtain ⟨k', v'⟩ := p
    have ht : WF t := by
      unfold WF keys at h ⊢
      exact (List.sorted_cons.mp h).2
    have hk : ∀ x ∈ keys t, k' < x := by
      unfold WF keys at h
      exact (List.sorted_cons.mp h).1
    unfold insert
    split_ifs with h1 h2
    · unfold WF keys at h ⊢
      simp only [List.map_cons]
      refine List.sorted_cons.mpr ⟨?_, h⟩
      intro x hx
      simp only [List.map_cons, List.mem_cons] at hx
      rcases hx with rfl | hx
      · exact h1
      · exact lt_trans h1 (hk x hx)
    · subst h2
      exact h
    · have hlt : k' < k := lt_of_le_of_ne (not_lt.mp h1) (fun e => h2 e.symm)
      have := ih ht
      unfold WF at this ⊢
      have e : keys ((k', v') :: insert k v t) = k' :: keys (insert k v t) := rfl
      rw [e]
      refine List.sorted_cons.mpr ⟨?_, this⟩
      intro x hx
      rcases (keys_insert_subset k v t x).mp hx with rfl | hx
      · exact hlt
      · exact hk x hx

theorem WF_erase [DecidableEq α] [LinearOrder α] (k : α) {m : OMap α β} (h : m.WF) : (m.erase k).WF := by
  unfold WF keys erase at *
  exact List.Pairwise.sublist ((List.filter_sublist _).map _) h

theorem WF_nodup [DecidableEq α] [LinearOrder α] {m : OMap α β} (h : m.WF) : m.keys.Nodup :=
  List.Sorted.nodup h

theorem find?_of_mem [DecidableEq α] [LinearOrder α] {m : OMap α β} (h : m.WF) {k : α} {v : β}
    (hm : (k, v) ∈ m) : m.find? k = some v := by
  induction m with
  | nil => simp at hm
  | cons p t ih =>
    obtain ⟨k', v'⟩ := p
    have ht : WF t := by
      unfold WF keys at h ⊢
      exact (List.sorted_cons.mp h).2
    have hk : ∀ x ∈ keys t, k' < x := by
      unfold WF keys at h
      exact (List.sorted_cons.mp h).1
    rcases List.mem_cons.mp hm with e | hm'
    · cases e
      simp [find?]
    · have : k' ≠ k := by
        have := hk k (List.mem_map_of_mem Prod.fst hm')
        exact ne_of_lt this
      simp [find?, this, ih ht hm']

theorem mem_of_find? [DecidableEq α] {m : OMap α β} {k : α} {v : β}
    (h : m.find? k = some v) : (k, v) ∈ m := by
  induction m with
  | nil => simp [find?] at h
  | cons p t ih =>
    obtain ⟨k', v'⟩ := p
    by_cases e : k' = k
    · subst e
      simp [find?] at h
      simp [h]
    · simp [find?, e] at h
      exact List.mem_cons_of_mem _ (ih h)

end OMap

/-! ## Tokenizer -/

theorem SplitIntoWordsView.loop_ne_nil (fuel : Nat) (str : Str)
    (hd : str.head? ≠ some ' ') : ∀ t ∈ SplitIntoWordsView.loop fuel str, t ≠ [] := by
  induction fuel generalizing str with
  | zero => simp [SplitIntoWordsView.loop]
  | succ n ih =>
    cases str with
    | nil => simp [SplitIntoWordsView.loop]
    | cons c cs =>
      have hc : c ≠ ' ' := by simpa using hd
      have hw : (c :: cs).takeWhile (fun c => decide (c ≠ ' ')) ≠ [] := by
        simp [List.takeWhile_cons, hc]
      have hrest : ∀ rest : Str, (rest.dropWhile (fun c => decide (c = ' '))).head? ≠ some ' ' := by
        intro rest h
        have := List.head?_dropWhile_not (fun c => decide (c = ' ')) rest
        rw [h] at this
        simp at this
      intro t ht
      unfold SplitIntoWordsView.loop at ht
      simp only [List.isEmpty_cons, Bool.false_eq_true, if_false] at ht
      split at ht
      · rw [List.mem_singleton] at ht
        rw [ht]
        exact hw
      · rcases List.mem_cons.mp ht with e | ht'
        · rw [e]
          exact hw
        · exact ih _ (hrest _) t ht'

theorem SplitIntoWordsView_ne_nil (str : Str) : ∀ t ∈ SplitIntoWordsView str, t ≠ [] := by
  apply SplitIntoWordsView.loop_ne_nil
  intro h
  have := List.head?_dropWhile_not (fun c => decide (c = ' ')) str
  rw [h] at this
  simp at this

/-- The bound on the rounds of the tokenizer loop is never reached: any bound above the
length of the remaining text gives the same tokens. -/
theorem SplitIntoWordsView.loop_fuel (n m : Nat) (str : Str) (hn : str.length < n)
    (hm : str.length < m) : SplitIntoWordsView.loop n str = SplitIntoWordsView.loop m str := by
  induction n generalizing m str with
  | zero => exact absurd hn (Nat.not_lt_zero _)
  | succ n ih =>
    cases m with
    | zero => exact absurd hm (Nat.not_lt_zero _)
    | succ m =>
      cases str with
      | nil => simp [SplitIntoWordsView.loop]
      | cons c cs =>
        unfold SplitIntoWordsView.loop
        simp only [List.isEmpty_cons, Bool.false_eq_true, if_false]
        cases hrest : (c :: cs).dropWhile (fun c => decide (c ≠ ' ')) with
        | nil => rfl
        | cons r rs =>
          have hlen : (r :: rs).length ≤ (c :: cs).length := by
            rw [← hrest]
            exact (List.dropWhile_suffix _).length_le
          have hr : r = ' ' := by
            have := List.head?_dropWhile_not (fun c => decide (c ≠ ' ')) (c :: cs)
            rw [hrest] at this
            simpa using this
          have hdrop : ((r :: rs).dropWhile (fun c => decide (c = ' '))).length ≤ rs.length := by
            rw [List.dropWhile_cons_of_pos (by simp [hr])]
            exact (List.dropWhile_suffix _).length_le
          simp only [List.length_cons] at hlen hn hm
          simp only
          rw [ih m _ (by omega) (by omega)]

/-! ## Adding a document: the id checks -/

namespace SearchServer

/-- C7: `AddDocument` with a negative id, or with an id that already has a document
record, fails with `invalid_argument` and leaves every component of the store as it was,
whatever the text, status and ratings. -/
theorem AddDocument_bad_id_unchanged (s : SearchServer) (document_id : Int) (document : Str)
    (status : DocumentStatus) (ratings : List Int)
    (h : document_id < 0 ∨ document_id ∈ s.documents_.keys) :
    s.AddDocument document_id document status ratings = (.error .invalid_argument, s) := by
  unfold AddDocument
  rcases h with h | h
  · simp [h]
  · have : s.documents_.count document_id > 0 :=
      Nat.pos_of_ne_zero ((OMap.count_ne_zero_iff _ _).mpr h)
    simp [this]

theorem AddDocument_bad_id_unchanged_witness :
    ((-1 : Int) < 0 ∨ (-1 : Int) ∈ (init []).documents_.keys) ∧
      (init []).AddDocument (-1) ['a'] .ACTUAL [1, 2] = (.error .invalid_argument, init []) :=
  ⟨Or.inl (by decide), AddDocument_bad_id_unchanged _ _ _ _ _ (Or.inl (by decide))⟩

end SearchServer

/-! ## Sorting and deduplication -/

theorem std_sort.ins_perm {α : Type} (comp : α → α → Bool) (x : α) (l : List α) :
    (std_sort.ins comp x l).Perm (x :: l) := by
  induction l with
  | nil => simp [std_sort.ins]
  | cons y t ih =>
    unfold std_sort.ins
    split_ifs
    · exact (List.Perm.cons y ih).trans (List.Perm.swap x y t)
    · exact List.Perm.refl _

theorem std_sort_perm {α : Type} (comp : α → α → Bool) (l : List α) :
    (std_sort comp l).Perm l := by
  induction l with
  | nil => simp [std_sort]
  | cons x t ih =>
    unfold std_sort
    exact (std_sort.ins_perm comp x _).trans (List.Perm.cons x ih)

/-- Every neighbour pair of an insertion result was decided by the comparator. -/
theorem std_sort.ins_chain {α : Type} (comp : α → α → Bool) (x : α) (l : List α)
    (h : l.Chain' (fun a b => comp a b = true ∨ comp b a = false)) :
    (std_sort.ins comp x l).Chain' (fun a b => comp a b = true ∨ comp b a = false) := by
  induction l with
  | nil => simp [std_sort.ins]
  | cons y t ih =>
    unfold std_sort.ins
    split_ifs with hc
    · have ht := ih (List.Chain'.tail h)
      refine List.Chain'.cons' ht ?_
      intro z hz
      cases t with
      | nil =>
        simp [std_sort.ins] at hz
        subst hz
        exact Or.inl hc
      | cons w t' =>
        unfold std_sort.ins at hz
        split_ifs at hz
        · simp at hz
          subst hz
          exact (List.chain'_cons.mp h).1
        · simp at hz
          subst hz
          exact Or.inl hc
    · exact List.chain'_cons.mpr ⟨Or.inr (by simpa using hc), h⟩

theorem std_sort_chain {α : Type} (comp : α → α → Bool) (l : List α) :
    (std_sort comp l).Chain' (fun a b => comp a b = true ∨ comp b a = false) := by
  induction l with
  | nil => simp [std_sort]
  | cons x t ih =>
    unfold std_sort
    exact std_sort.ins_chain comp x _ ih

theorem std_sort_sorted {α : Type} [LinearOrder α] (comp : α → α → Bool)
    (hcomp : ∀ a b, comp a b = true ↔ a < b) (l : List α) :
    (std_sort comp l).Sorted (· ≤ ·) := by
  have h := std_sort_chain comp l
  rw [List.Sorted, ← List.chain'_iff_pairwise]
  refine List.Chain'.imp ?_ h
  intro a b hab
  rcases hab with hab | hab
  · exact le_of_lt ((hcomp a b).mp hab)
  · refine not_lt.mp (fun hlt => ?_)
    rw [(hcomp b a).mpr hlt] at hab
    cases hab

theorem Str_lt_comp (a b : Str) : (decide (a < b) = true) ↔ a < b := by
  simp

theorem std_unique_mem {α : Type} [DecidableEq α] (l : List α) (x : α) :
    x ∈ std_unique l ↔ x ∈ l := by
  induction l with
  | nil => simp [std_unique]
  | cons y t ih =>
    unfold std_unique
    split
    · next hnil =>
      rw [hnil] at ih
      simp at ih
      simp [ih]
    · next z r hz =>
      rw [hz] at ih
      split_ifs with hyz
      · subst hyz
        rw [ih, List.mem_cons]
        constructor
        · exact Or.inr
        · rintro (h | h)
          · subst h
            exact ih.mp (List.mem_cons_self _ _)
          · exact h
      · rw [List.mem_cons, ih, List.mem_cons]

theorem std_unique_sorted {α : Type} [DecidableEq α] [LinearOrder α] (l : List α) (h : l.Sorted (· ≤ ·)) :
    (std_unique l).Sorted (· < ·) := by
  induction l with
  | nil => simp [std_unique]
  | cons x t ih =>
    have hx : ∀ y ∈ t, x ≤ y := (List.sorted_cons.mp h).1
    have ht := ih (List.sorted_cons.mp h).2
    have hmem := std_unique_mem t
    unfold std_unique
    split
    · simp
    · next z r hz =>
      rw [hz] at ht hmem
      split_ifs with hxz
      · exact ht
      · refine List.sorted_cons.mpr ⟨?_, ht⟩
        have hz' : x < z := lt_of_le_of_ne (hx z ((hmem z).mp (List.mem_cons_self _ _))) hxz
        intro w hw
        rcases List.mem_cons.mp hw with rfl | hw
        · exact hz'
        · exact lt_trans hz' ((List.sorted_cons.mp ht).1 w hw)

theorem std_unique_of_sorted {α : Type} [DecidableEq α] [LinearOrder α] (l : List α) (h : l.Sorted (· < ·)) :
    std_unique l = l := by
  induction l with
  | nil => simp [std_unique]
  | cons x t ih =>
    have hx : ∀ y ∈ t, x < y := (List.sorted_cons.mp h).1
    have ht := ih (List.sorted_cons.mp h).2
    unfold std_unique
    rw [ht]
    cases t with
    | nil => rfl
    | cons y r =>
      have : x ≠ y := ne_of_lt (hx y (List.mem_cons_self _ _))
      simp [this]

/-! ## Query parser -/

namespace SearchServer

theorem IsValidWord_eq_false_iff (word : Str) :
    IsValidWord word = false ↔ ∃ c ∈ word, c.toNat < 32 := by
  unfold IsValidWord
  have h32 : (' ' : Char).toNat = 32 := by decide
  simp [h32]

theorem IsValidWord_eq_true_iff (word : Str) :
    IsValidWord word = true ↔ ∀ c ∈ word, ¬ c.toNat < 32 := by
  rw [← Bool.not_eq_false, IsValidWord_eq_false_iff]
  push_neg
  rfl

theorem ParseQueryWord_minus (s : SearchServer) (cs : Str) :
    s.ParseQueryWord ('-' :: cs) =
      if cs = [] ∨ cs.head? = some '-' ∨ IsValidWord cs = false then .error .invalid_argument
      else .ok { data := cs, is_minus := true, is_stop := s.IsStopWord cs } := by
  unfold ParseQueryWord
  by_cases h1 : cs = []
  · simp [h1]
  · by_cases h2 : cs.head? = some '-'
    · simp [h1, h2]
    · cases hv : IsValidWord cs <;> simp [h1, h2, hv]

theorem ParseQueryWord_plus (s : SearchServer) (c : Char) (cs : Str) (hc : c ≠ '-') :
    s.ParseQueryWord (c :: cs) =
      if IsValidWord (c :: cs) = false then .error .invalid_argument
      else .ok { data := c :: cs, is_minus := false, is_stop := s.IsStopWord (c :: cs) } := by
  unfold ParseQueryWord
  cases hv : IsValidWord (c :: cs) <;> simp [hc, hv]

theorem ParseQueryWord_error (s : SearchServer) (t : Str) (e : Error)
    (h : s.ParseQueryWord t = .error e) : e = .invalid_argument := by
  cases t with
  | nil =>
    simp [ParseQueryWord] at h
    exact h.symm
  | cons c cs =>
    by_cases hc : c = '-'
    · subst hc
      rw [ParseQueryWord_minus] at h
      split_ifs at h
      cases h
      rfl
    · rw [ParseQueryWord_plus s c cs hc] at h
      split_ifs at h
      cases h
      rfl

/-- When `ParseQueryWord` fails on a non-empty token. -/
theorem ParseQueryWord_fails_iff (s : SearchServer) (t : Str) (ht : t ≠ []) :
    s.ParseQueryWord t = .error .invalid_argument ↔
      (t = ['-'] ∨ ['-', '-'] <+: t ∨ ∃ c ∈ t, c.toNat < 32) := by
  cases t with
  | nil => exact absurd rfl ht
  | cons c cs =>
    by_cases hc : c = '-'
    · subst hc
      have hm : ¬ ('-' : Char).toNat < 32 := by decide
      rw [ParseQueryWord_minus]
      have e1 : ('-' :: cs = ['-']) ↔ cs = [] := by simp
      have e2 : (['-', '-'] <+: '-' :: cs) ↔ cs.head? = some '-' := by
        cases cs with
        | nil => simp
        | cons d ds =>
          simp only [List.head?_cons, Option.some.injEq]
          constructor
          · intro hp
            exact ((List.cons_prefix_cons.mp ((List.prefix_cons_inj '-').mp hp)).1).symm
          · intro hd
            subst hd
            exact (List.prefix_cons_inj '-').mpr
              (List.cons_prefix_cons.mpr ⟨rfl, List.nil_prefix⟩)
      have e3 : (∃ c ∈ '-' :: cs, c.toNat < 32) ↔ IsValidWord cs = false := by
        rw [IsValidWord_eq_false_iff]
        constructor
        · rintro ⟨c, hc, hlt⟩
          rcases List.mem_cons.mp hc with rfl | hc
          · exact absurd hlt hm
          · exact ⟨c, hc, hlt⟩
        · rintro ⟨c, hc, hlt⟩
          exact ⟨c, List.mem_cons_of_mem _ hc, hlt⟩
      rw [e1, e2, e3]
      split_ifs with h
      · simp [h]
      · simp [h]
    · rw [ParseQueryWord_plus s c cs hc]
      have e1 : ¬ (c :: cs = ['-']) := fun h => hc (List.cons.inj h).1
      have e2 : ¬ (['-', '-'] <+: c :: cs) := fun hp => hc (List.cons_prefix_cons.mp hp).1.symm
      rw [← IsValidWord_eq_false_iff]
      split_ifs with h
      · simp [h]
      · simp [h, e1, e2]

theorem ParseQuery.loop_error (s : SearchServer) (tokens : List Str) (q : Query) (e : Error)
    (h : ParseQuery.loop s tokens q = .error e) : e = .invalid_argument := by
  induction tokens generalizing q with
  | nil => simp [ParseQuery.loop] at h
  | cons t rest ih =>
    unfold ParseQuery.loop at h
    split at h
    · next e' he =>
      cases h
      exact ParseQueryWord_error s t _ he
    · split_ifs at h <;> exact ih _ h

theorem ParseQuery.loop_fails_iff (s : SearchServer) (tokens : List Str) (q : Query) :
    ParseQuery.loop s tokens q = .error .invalid_argument ↔
      ∃ t ∈ tokens, s.ParseQueryWord t = .error .invalid_argument := by
  induction tokens generalizing q with
  | nil => simp [ParseQuery.loop]
  | cons t rest ih =>
    unfold ParseQuery.loop
    split
    · next e' he =>
      have := ParseQueryWord_error s t _ he
      subst this
      simp [he]
    · next qw hq =>
      have hne : s.ParseQueryWord t ≠ .error .invalid_argument := by
        rw [hq]
        intro h
        cases h
      split_ifs <;> rw [ih] <;> simp [hne]

theorem ParseQuery_eq (s : SearchServer) (text : Str) (is_sorted : Bool) :
    s.ParseQuery text is_sorted =
      match ParseQuery.loop s (SplitIntoWordsView text) { plus_words := [], minus_words := [] } with
      | .error e => .error e
      | .ok query =>
        if is_sorted = false then
          .ok { plus_words := std_unique (std_sort (fun a b => decide (a < b)) query.plus_words),
                minus_words := std_unique (std_sort (fun a b => decide (a < b)) query.minus_words) }
        else .ok query := by
  unfold ParseQuery
  cases is_sorted <;> rfl

/-- C8: for every raw query text and either value of the order flag, `ParseQuery` fails
with `invalid_argument` exactly when some token of the text is a bare "-", starts with
"--", or contains a character with code below 32; in every other case it returns a query
(and it never fails in another way). -/
theorem ParseQuery_fails_iff (s : SearchServer) (text : Str) (keep_input_order : Bool) :
    (s.ParseQuery text keep_input_order = .error .invalid_argument ↔
      ∃ t ∈ SplitIntoWordsView text,
        t = ['-'] ∨ ['-', '-'] <+: t ∨ ∃ c ∈ t, c.toNat < 32) ∧
    ((¬ ∃ t ∈ SplitIntoWordsView text,
        t = ['-'] ∨ ['-', '-'] <+: t ∨ ∃ c ∈ t, c.toNat < 32) →
      ∃ query, s.ParseQuery text keep_input_order = .ok query) := by
  have key : (ParseQuery.loop s (SplitIntoWordsView text) { plus_words := [], minus_words := [] }
        = .error .invalid_argument) ↔
      ∃ t ∈ SplitIntoWordsView text,
        t = ['-'] ∨ ['-', '-'] <+: t ∨ ∃ c ∈ t, c.toNat < 32 := by
    rw [ParseQuery.loop_fails_iff]
    constructor
    · rintro ⟨t, ht, h⟩
      exact ⟨t, ht, (ParseQueryWord_fails_iff s t (SplitIntoWordsView_ne_nil text t ht)).mp h⟩
    · rintro ⟨t, ht, h⟩
      exact ⟨t, ht, (ParseQueryWord_fails_iff s t (SplitIntoWordsView_ne_nil text t ht)).mpr h⟩
  rw [ParseQuery_eq, ← key]
  cases hl : ParseQuery.loop s (SplitIntoWordsView text) { plus_words := [], minus_words := [] } with
  | error e =>
    have := ParseQuery.loop_error s _ _ e hl
    subst this
    simp
  | ok q =>
    refine ⟨by split_ifs <;> simp, fun _ => ?_⟩
    split_ifs <;> exact ⟨_, rfl⟩

end SearchServer

/-! ## The parsed query -/

namespace SearchServer

theorem ParseQueryWord_ok (s : SearchServer) (t : Str) (qw : QueryWord)
    (h : s.ParseQueryWord t = .ok qw) :
    qw.is_minus = decide (t.head? = some '-') ∧
      qw.data = (if t.head? = some '-' then t.drop 1 else t) ∧
      qw.is_stop = s.IsStopWord qw.data := by
  cases t with
  | nil => simp [ParseQueryWord] at h
  | cons c cs =>
    by_cases hc : c = '-'
    · subst hc
      rw [ParseQueryWord_minus] at h
      split_ifs at h
      cases h
      simp
    · rw [ParseQueryWord_plus s c cs hc] at h
      split_ifs at h
      cases h
      simp [hc]

theorem ParseQuery.loop_ok (s : SearchServer) (tokens : List Str) (q q' : Query)
    (h : ParseQuery.loop s tokens q = .ok q') :
    q'.plus_words = q.plus_words ++
        tokens.filter (fun t => !decide (t.head? = some '-') && !s.IsStopWord t) ∧
      q'.minus_words = q.minus_words ++
        ((tokens.filter (fun t => decide (t.head? = some '-'))).map (List.drop 1)).filter
          (fun w => !s.IsStopWord w) := by
  induction tokens generalizing q with
  | nil =>
    simp [ParseQuery.loop] at h
    subst h
    simp
  | cons t rest ih =>
    unfold ParseQuery.loop at h
    split at h
    · cases h
    · next qw hq =>
      obtain ⟨hm, hd, hs⟩ := ParseQueryWord_ok s t qw hq
      by_cases hmin : t.head? = some '-'
      · rw [if_pos hmin, List.drop_one] at hd
        have hm' : qw.is_minus = true := by simp [hm, hmin]
        cases hst : s.IsStopWord t.tail with
        | true =>
          have : qw.is_stop = true := by rw [hs, hd, hst]
          simp only [this, Bool.not_true, Bool.false_eq_true, if_false] at h
          have := ih _ h
          simp [List.filter_cons, hmin, hst, this]
        | false =>
          have : qw.is_stop = false := by rw [hs, hd, hst]
          simp only [this, Bool.not_false, if_true, hm'] at h
          have := ih _ h
          simp [List.filter_cons, hmin, hst, this, hd]
      · rw [if_neg hmin] at hd
        have hm' : qw.is_minus = false := by simp [hm, hmin]
        cases hst : s.IsStopWord t with
        | true =>
          have : qw.is_stop = true := by rw [hs, hd, hst]
          simp only [this, Bool.not_true, Bool.false_eq_true, if_false] at h
          have := ih _ h
          simp [List.filter_cons, hmin, hst, this]
        | false =>
          have : qw.is_stop = false := by rw [hs, hd, hst]
          simp only [this, Bool.not_false, if_true, hm', Bool.false_eq_true, if_false] at h
          have := ih _ h
          simp [List.filter_cons, hmin, hst, this, hd]

/-- C9: for a valid raw query text, `ParseQuery` with `keep_input_order = true` returns, in
input order and with duplicates, the tokens without a leading '-' that are not stop words
as plus-words, and the tokens with a leading '-', stripped of it, that are not stop words
as minus-words; with `keep_input_order = false` it returns the same words, each list
strictly ascending (sorted, no duplicates). -/
theorem ParseQuery_words (s : SearchServer) (text : Str)
    (hvalid : ∃ query, s.ParseQuery text true = .ok query) :
    s.ParseQuery text true = .ok
        { plus_words := (SplitIntoWordsView text).filter
            (fun t => !decide (t.head? = some '-') && !s.IsStopWord t)
          minus_words := (((SplitIntoWordsView text).filter
            (fun t => decide (t.head? = some '-'))).map (List.drop 1)).filter
              (fun w => !s.IsStopWord w) } ∧
      ∃ q, s.ParseQuery text false = .ok q ∧
        q.plus_words.Sorted (· < ·) ∧
        (∀ w, w ∈ q.plus_words ↔ w ∈ (SplitIntoWordsView text).filter
            (fun t => !decide (t.head? = some '-') && !s.IsStopWord t)) ∧
        q.minus_words.Sorted (· < ·) ∧
        (∀ w, w ∈ q.minus_words ↔ w ∈ (((SplitIntoWordsView text).filter
            (fun t => decide (t.head? = some '-'))).map (List.drop 1)).filter
              (fun w => !s.IsStopWord w)) := by
  obtain ⟨q0, h0⟩ := hvalid
  rw [ParseQuery_eq] at h0
  rw [ParseQuery_eq, ParseQuery_eq]
  cases hl : ParseQuery.loop s (SplitIntoWordsView text) { plus_words := [], minus_words := [] } with
  | error e => simp [hl] at h0
  | ok q1 =>
    obtain ⟨hp, hm⟩ := ParseQuery.loop_ok s _ _ _ hl
    simp only [List.nil_append] at hp hm
    refine ⟨?_, _, rfl, std_unique_sorted _ (std_sort_sorted _ Str_lt_comp q1.plus_words), ?_,
      std_unique_sorted _ (std_sort_sorted _ Str_lt_comp q1.minus_words), ?_⟩
    · simp only [Bool.true_eq_false, if_false]
      rw [← hp, ← hm]
    · intro w
      simp only [std_unique_mem]
      rw [(std_sort_perm _ _).mem_iff, hp]
    · intro w
      simp only [std_unique_mem]
      rw [(std_sort_perm _ _).mem_iff, hm]

theorem ParseQuery_words_witness :
    (∃ query, (init [['i', 'n']]).ParseQuery
        ['b', ' ', '-', 'c', ' ', 'i', 'n', ' ', 'a', ' ', 'b'] true = .ok query) ∧
    ((init [['i', 'n']]).ParseQuery ['b', ' ', '-', 'c', ' ', 'i', 'n', ' ', 'a', ' ', 'b'] true =
      .ok
        { plus_words := (SplitIntoWordsView
            ['b', ' ', '-', 'c', ' ', 'i', 'n', ' ', 'a', ' ', 'b']).filter
            (fun t => !decide (t.head? = some '-') && !(init [['i', 'n']]).IsStopWord t)
          minus_words := (((SplitIntoWordsView
            ['b', ' ', '-', 'c', ' ', 'i', 'n', ' ', 'a', ' ', 'b']).filter
            (fun t => decide (t.head? = some '-'))).map (List.drop 1)).filter
              (fun w => !(init [['i', 'n']]).IsStopWord w) } ∧
      ∃ q, (init [['i', 'n']]).ParseQuery
          ['b', ' ', '-', 'c', ' ', 'i', 'n', ' ', 'a', ' ', 'b'] false = .ok q ∧
        q.plus_words.Sorted (· < ·) ∧
        (∀ w, w ∈ q.plus_words ↔ w ∈ (SplitIntoWordsView
            ['b', ' ', '-', 'c', ' ', 'i', 'n', ' ', 'a', ' ', 'b']).filter
            (fun t => !decide (t.head? = some '-') && !(init [['i', 'n']]).IsStopWord t)) ∧
        q.minus_words.Sorted (· < ·) ∧
        (∀ w, w ∈ q.minus_words ↔ w ∈ (((SplitIntoWordsView
            ['b', ' ', '-', 'c', ' ', 'i', 'n', ' ', 'a', ' ', 'b']).filter
            (fun t => decide (t.head? = some '-'))).map (List.drop 1)).filter
              (fun w => !(init [['i', 'n']]).IsStopWord w))) :=
  ⟨⟨{ plus_words := [['b'], ['a'], ['b']], minus_words := [['c']] }, by rfl⟩,
    ParseQuery_words (init [['i', 'n']]) ['b', ' ', '-', 'c', ' ', 'i', 'n', ' ', 'a', ' ', 'b']
      ⟨{ plus_words := [['b'], ['a'], ['b']], minus_words := [['c']] }, by rfl⟩⟩

end SearchServer

/-! ## Matching a document (sequential) -/

namespace SearchServer

theorem hasWord_of_find? (s : SearchServer) (word : Str) (document_id : Int)
    (posting : OMap Int ℚ) (h : s.word_to_document_freqs_.find? word = some posting) :
    s.hasWord word document_id = decide (posting.count document_id ≠ 0) := by
  unfold hasWord OMap.index
  rw [h]
  simp only [Option.getD_some]
  by_cases hk : document_id ∈ posting.keys
  · have := (OMap.count_ne_zero_iff posting document_id).mpr hk
    simp [hk, this]
  · have : ¬ posting.count document_id ≠ 0 :=
      fun h => hk ((OMap.count_ne_zero_iff posting document_id).mp h)
    simp only [hk, decide_False, this]

theorem hasWord_of_find?_none (s : SearchServer) (word : Str) (document_id : Int)
    (h : s.word_to_document_freqs_.find? word = none) :
    s.hasWord word document_id = false := by
  unfold hasWord OMap.index
  rw [h]
  simp [OMap.keys]

theorem MatchDocument.minusLoop_eq (s : SearchServer) (document_id : Int) (ws : List Str) :
    MatchDocument.minusLoop s document_id ws = .ok (ws.any (fun w => s.hasWord w document_id)) := by
  induction ws with
  | nil => simp [MatchDocument.minusLoop]
  | cons w rest ih =>
    unfold MatchDocument.minusLoop
    cases hf : s.word_to_document_freqs_.find? w with
    | none =>
      have hc := (OMap.count_eq_zero_iff _ _).mpr hf
      simp [hc, ih, hasWord_of_find?_none s w document_id hf]
    | some posting =>
      have hc : ¬ (s.word_to_document_freqs_.count w = 0) := by
        rw [OMap.count_eq_zero_iff, hf]
        simp
      have hw := hasWord_of_find? s w document_id posting hf
      simp only [hc, if_false, OMap.at_, hf, List.any_cons, hw]
      by_cases hp : posting.count document_id ≠ 0
      · simp [hp]
      · simp only [hp, if_false, ih, decide_False, Bool.false_or]

theorem MatchDocument.plusLoop_eq (s : SearchServer) (document_id : Int) (ws acc : List Str) :
    MatchDocument.plusLoop s document_id ws acc =
      .ok (acc ++ ws.filter (fun w => s.hasWord w document_id)) := by
  induction ws generalizing acc with
  | nil => simp [MatchDocument.plusLoop]
  | cons w rest ih =>
    unfold MatchDocument.plusLoop
    cases hf : s.word_to_document_freqs_.find? w with
    | none =>
      have hc := (OMap.count_eq_zero_iff _ _).mpr hf
      simp [hc, ih, hasWord_of_find?_none s w document_id hf]
    | some posting =>
      have hc : ¬ (s.word_to_document_freqs_.count w = 0) := by
        rw [OMap.count_eq_zero_iff, hf]
        simp
      have hw := hasWord_of_find? s w document_id posting hf
      simp only [hc, if_false, OMap.at_, hf, List.filter_cons, hw]
      by_cases hp : posting.count document_id ≠ 0
      · simp [hp, ih]
      · simp only [hp, if_false, ih, decide_False, Bool.false_eq_true]

end SearchServer

/-! ## Ranking -/

namespace SearchServer

variable {K : Type} [LinearOrderedField K]

theorem epsilon_pos : (0 : K) < epsilon := by
  unfold epsilon
  positivity

/-- What the comparator says about a pair it placed in this order. -/
theorem before_order (a b : Document K)
    (h : before a b = true ∨ before b a = false) :
    a.relevance > b.relevance ∨
      (|a.relevance - b.relevance| < epsilon ∧ a.rating ≥ b.rating) := by
  rcases h with h | h
  · unfold before at h
    simp only [Bool.or_eq_true, Bool.and_eq_true, decide_eq_true_eq] at h
    rcases h with h | ⟨h1, h2⟩
    · exact Or.inl h
    · exact Or.inr ⟨h1, le_of_lt h2⟩
  · unfold before at h
    simp only [Bool.or_eq_false_iff, Bool.and_eq_false_iff, decide_eq_false_iff_not] at h
    obtain ⟨h1, h2⟩ := h
    rcases lt_or_eq_of_le (not_lt.mp h1) with hlt | heq
    · exact Or.inl hlt
    · right
      have h0 : |a.relevance - b.relevance| < (epsilon : K) := by
        rw [heq, sub_self, abs_zero]
        exact epsilon_pos
      refine ⟨h0, ?_⟩
      rcases h2 with h2 | h2
      · rw [heq, sub_self, abs_zero] at h2
        exact absurd epsilon_pos h2
      · exact not_lt.mp h2

end SearchServer

/-! ## The code at the inputs where it departs from the specification -/

namespace SearchServer

/-- C2, the code at the failing input: on the store `demo` (document 1 is "cat dog") and
the query "cat -dog" with the predicate "status is ACTUAL", the sequential
`FindTopDocuments` returns no document, while the parallel one, which runs the minus-word
removals on the still empty accumulator before the plus-word additions, returns
document 1, a document that contains the minus-word "dog". -/
theorem FindTopDocuments_par_keeps_minus_word {K : Type} [LinearOrderedField K] (ln : ℚ → K) :
    demo.hasWord "dog".toList 1 = true ∧
      demo.FindTopDocuments ln .seq "cat -dog".toList
        (fun _ status _ => decide (status = .ACTUAL)) = .ok [] ∧
      ∃ d, demo.FindTopDocuments ln .par "cat -dog".toList
          (fun _ status _ => decide (status = .ACTUAL)) = .ok [d] ∧ d.id = 1 :=
  ⟨by decide, by rfl, _, by rfl, by rfl⟩

/-- C3, the code at the failing input: on the empty store, `AddDocument(1, "a\x01", ...)`
fails with `invalid_argument` but the document record inserted before the tokens are
validated stays: `GetDocumentCount` is 1 instead of 0, the id is not among the live ids,
and a later `AddDocument(1, "a", ...)`, which succeeds on the empty store, is rejected. -/
theorem AddDocument_invalid_word_leaves_record :
    ((init []).AddDocument 1 ['a', Char.ofNat 1] .ACTUAL []).1 = .error .invalid_argument ∧
      (init []).GetDocumentCount = 0 ∧
      ((init []).AddDocument 1 ['a', Char.ofNat 1] .ACTUAL []).2.GetDocumentCount = 1 ∧
      ((init []).AddDocument 1 ['a', Char.ofNat 1] .ACTUAL []).2.ids = [] ∧
      ((init []).AddDocument 1 ['a'] .ACTUAL []).1 = .ok () ∧
      (((init []).AddDocument 1 ['a', Char.ofNat 1] .ACTUAL []).2.AddDocument 1 ['a']
        .ACTUAL []).1 = .error .invalid_argument :=
  ⟨by rfl, by rfl, by rfl, by rfl, by rfl, by rfl⟩

/-- C4, the code at the failing input: a document added with the empty text is live but
has no entry in the reverse index, and `RemoveDocument` on it raises `out_of_range` from
`doc_to_word_freq.at(id)`; the document stays live and counted. -/
theorem RemoveDocument_empty_text_throws :
    ((init []).AddDocument 1 [] .ACTUAL []).1 = .ok () ∧
      ((init []).AddDocument 1 [] .ACTUAL []).2.ids = [1] ∧
      (((init []).AddDocument 1 [] .ACTUAL []).2.RemoveDocument 1).1 = .error .out_of_range ∧
      (((init []).AddDocument 1 [] .ACTUAL []).2.RemoveDocument 1).2.ids = [1] ∧
      (((init []).AddDocument 1 [] .ACTUAL []).2.RemoveDocument 1).2.GetDocumentCount = 1 :=
  ⟨by rfl, by rfl, by rfl, by rfl, by rfl⟩

/-- C6, the code at the failing input: on the store `demo` and the query "bird", a word
that occurs in no document, the sequential `MatchDocument` of document 1 returns the
empty list with the status, and the parallel one fails in
`word_to_document_freqs_.at(word)`. -/
theorem MatchDocumentPar_absent_word_throws :
    demo.MatchDocument "bird".toList 1 = .ok ([], .ACTUAL) ∧
      demo.MatchDocumentPar "bird".toList 1 = .error .out_of_range :=
  ⟨by rfl, by rfl⟩

end SearchServer

/-! ## The invariant of reachable stores -/

namespace OMap

variable {α β : Type}

theorem index_insert_self [DecidableEq α] [LinearOrder α] (k : α) (v d : β) (m : OMap α β) :
    (m.insert k v).index k d = v := by
  simp [index, find?_insert_self]

theorem index_insert_ne [DecidableEq α] [LinearOrder α] {k k' : α} (h : k' ≠ k) (v d : β)
    (m : OMap α β) : (m.insert k v).index k' d = m.index k' d := by
  simp [index, find?_insert_ne h]

theorem index_erase_ne [DecidableEq α] {k k' : α} (h : k' ≠ k) (d : β) (m : OMap α β) :
    (m.erase k).index k' d = m.index k' d := by
  simp [index, find?_erase_ne h]

theorem index_of_find? [DecidableEq α] {m : OMap α β} {k : α} {v : β} (d : β)
    (h : m.find? k = some v) : m.index k d = v := by
  simp [index, h]

/-- A non-empty value of `index` with default `[]` comes from an entry. -/
theorem find?_of_mem_index_keys {γ δ : Type} [DecidableEq α] {m : OMap α (OMap γ δ)} {k : α}
    {x : γ} (h : x ∈ (m.index k []).keys) : m.find? k = some (m.index k []) := by
  unfold index at h ⊢
  cases hf : m.find? k with
  | none =>
    rw [hf] at h
    simp [keys] at h
  | some p => simp

theorem erase_erase [DecidableEq α] (k : α) (m : OMap α β) :
    (m.erase k).erase k = m.erase k := by
  simp [erase, List.filter_filter]

theorem keys_emplace [LinearOrder α] (k : α) (v : β) (m : OMap α β) (x : α) :
    x ∈ (m.emplace k v).keys ↔ x = k ∨ x ∈ m.keys := by
  unfold emplace
  split_ifs with h
  · constructor
    · exact Or.inr
    · rintro (rfl | h')
      · exact (count_ne_zero_iff _ _).mp (Nat.pos_iff_ne_zero.mp h)
      · exact h'
  · exact keys_insert_subset k v m x

end OMap

namespace SearchServer

theorem PostingsWF.index {index : OMap Str (OMap Int ℚ)} (h : PostingsWF index) (w : Str) :
    (index.index w []).WF := by
  unfold OMap.index
  cases hf : index.find? w with
  | none => exact OMap.WF_nil
  | some p => exact h w p hf

theorem AddDocument.step_documents (document_id : Int) (inv : ℚ) (s : SearchServer) (w : Str) :
    (AddDocument.step document_id inv s w).documents_ = s.documents_ ∧
      (AddDocument.step document_id inv s w).document_ids_ = s.document_ids_ ∧
      (AddDocument.step document_id inv s w).stop_words_ = s.stop_words_ :=
  ⟨rfl, rfl, rfl⟩

theorem AddDocument.step_postingsWF (document_id : Int) (inv : ℚ) (s : SearchServer) (w0 : Str)
    (h : PostingsWF s.word_to_document_freqs_) :
    PostingsWF (AddDocument.step document_id inv s w0).word_to_document_freqs_ := by
  intro w posting hf
  unfold AddDocument.step at hf
  simp only at hf
  by_cases hw : w = w0
  · subst hw
    rw [OMap.find?_insert_self] at hf
    cases hf
    exact OMap.WF_insert _ _ (h.index w)
  · rw [OMap.find?_insert_ne hw] at hf
    exact h w posting hf

theorem AddDocument.step_mirrored (document_id : Int) (inv : ℚ) (s : SearchServer) (w0 : Str)
    (h : Mirrored s.word_to_document_freqs_ s.doc_to_word_freq) :
    Mirrored (AddDocument.step document_id inv s w0).word_to_document_freqs_
      (AddDocument.step document_id inv s w0).doc_to_word_freq := by
  have F2 : w0 ∈ (((AddDocument.step document_id inv s w0).doc_to_word_freq).index
      document_id []).keys := by
    unfold AddDocument.step
    simp only
    rw [OMap.index_insert_self]
    unfold OMap.addAt
    exact (OMap.keys_insert_subset _ _ _ _).mpr (Or.inl rfl)
  have F1 : ∀ d w, w ∈ (s.doc_to_word_freq.index d []).keys →
      w ∈ (((AddDocument.step document_id inv s w0).doc_to_word_freq).index d []).keys := by
    intro d w hw
    unfold AddDocument.step
    simp only
    by_cases hd : d = document_id
    · subst hd
      rw [OMap.index_insert_self]
      unfold OMap.addAt
      exact (OMap.keys_insert_subset _ _ _ _).mpr (Or.inr hw)
    · rw [OMap.index_insert_ne hd]
      exact hw
  intro w posting d hf hd
  have hf' : (s.word_to_document_freqs_.insert w0
      ((s.word_to_document_freqs_.index w0 []).addAt document_id inv)).find? w = some posting := hf
  by_cases hw : w = w0
  · subst hw
    rw [OMap.find?_insert_self] at hf'
    cases hf'
    unfold OMap.addAt at hd
    rcases (OMap.keys_insert_subset _ _ _ _).mp hd with rfl | hd'
    · exact F2
    · exact F1 d w (h w _ d (OMap.find?_of_mem_index_keys hd') hd')
  · rw [OMap.find?_insert_ne hw] at hf'
    exact F1 d w (h w posting d hf' hd)

theorem AddDocument.step_rev_keys (document_id : Int) (inv : ℚ) (s : SearchServer) (w0 : Str)
    (d : Int) (h : d ∈ (AddDocument.step document_id inv s w0).doc_to_word_freq.keys) :
    d = document_id ∨ d ∈ s.doc_to_word_freq.keys :=
  (OMap.keys_insert_subset _ _ _ _).mp h

/-- What the word loop of `AddDocument` keeps. -/
theorem AddDocument.fold_inv (document_id : Int) (inv : ℚ) (words : List Str) (s : SearchServer)
    (h1 : PostingsWF s.word_to_document_freqs_)
    (h2 : Mirrored s.word_to_document_freqs_ s.doc_to_word_freq) :
    (words.foldl (AddDocument.step document_id inv) s).documents_ = s.documents_ ∧
      (words.foldl (AddDocument.step document_id inv) s).document_ids_ = s.document_ids_ ∧
      PostingsWF (words.foldl (AddDocument.step document_id inv) s).word_to_document_freqs_ ∧
      Mirrored (words.foldl (AddDocument.step document_id inv) s).word_to_document_freqs_
        (words.foldl (AddDocument.step document_id inv) s).doc_to_word_freq ∧
      ∀ d, d ∈ (words.foldl (AddDocument.step document_id inv) s).doc_to_word_freq.keys →
        d = document_id ∨ d ∈ s.doc_to_word_freq.keys := by
  induction words generalizing s with
  | nil => exact ⟨rfl, rfl, h1, h2, fun d hd => Or.inr hd⟩
  | cons w rest ih =>
    simp only [List.foldl_cons]
    obtain ⟨a, b, c, d, e⟩ := ih (AddDocument.step document_id inv s w)
      (AddDocument.step_postingsWF _ _ _ _ h1) (AddDocument.step_mirrored _ _ _ _ h2)
    refine ⟨a, b, c, d, ?_⟩
    intro x hx
    rcases e x hx with h | h
    · exact Or.inl h
    · exact AddDocument.step_rev_keys _ _ _ _ _ h

theorem Inv_AddDocument (s : SearchServer) (document_id : Int) (document : Str)
    (status : DocumentStatus) (ratings : List Int) (h : Inv s) :
    Inv (s.AddDocument document_id document status ratings).2 := by
  have hs1 : Inv { s with documents_ := (s.documents_.emplace document_id
      { rating := ComputeAverageRating ratings, status := status, text := document }) } :=
    ⟨h.posting_wf, h.mirrored, h.rev_live,
      fun d hd => (OMap.keys_emplace _ _ _ _).mpr (Or.inr (h.live_doc d hd))⟩
  unfold AddDocument
  split_ifs
  · exact h
  · exact h
  · simp only
    split
    · exact hs1
    · split
      · exact hs1
      · next words _ =>
        obtain ⟨a, b, c, d, e⟩ := AddDocument.fold_inv document_id (1 / (words.length : ℚ)) words
          _ hs1.posting_wf hs1.mirrored
        refine ⟨c, d, ?_, ?_⟩
        · intro x hx
          refine (OMap.keys_insert_subset _ _ _ _).mpr ?_
          rcases e x hx with h' | h'
          · exact Or.inl h'
          · right
            rw [b]
            exact h.rev_live x h'
        · intro x hx
          rw [a]
          rcases (OMap.keys_insert_subset _ _ _ _).mp hx with h' | h'
          · rw [h']
            exact (OMap.keys_emplace _ _ _ _).mpr (Or.inl rfl)
          · rw [b] at h'
            exact hs1.live_doc x h'

/-- The inverted index after the erasure loop of `RemoveDocument`. -/
theorem RemoveDocument.loop_find? (document_id : Int) (L : List (Str × ℚ))
    (index : OMap Str (OMap Int ℚ)) (w : Str) :
    (RemoveDocument.loop document_id L index).find? w =
      if w ∈ OMap.keys L then some ((index.index w []).erase document_id)
      else index.find? w := by
  induction L generalizing index with
  | nil => simp [RemoveDocument.loop, OMap.keys]
  | cons p rest ih =>
    obtain ⟨str, x⟩ := p
    unfold RemoveDocument.loop
    rw [ih]
    have hk : OMap.keys ((str, x) :: rest) = str :: OMap.keys rest := rfl
    rw [hk]
    by_cases hw : w = str
    · subst hw
      simp only [List.mem_cons, true_or, if_true, OMap.index_insert_self, OMap.erase_erase,
        OMap.find?_insert_self]
      split_ifs <;> rfl
    · simp only [List.mem_cons, hw, false_or, OMap.index_insert_ne hw, OMap.find?_insert_ne hw]

/-- The parallel erasure tasks leave the index as the sequential loop over the words
that took effect, all of them when no task failed. -/
theorem RemoveDocumentPar.loop_eq (document_id : Int) (order : List Str)
    (index : OMap Str (OMap Int ℚ)) :
    ∃ pre : List Str,
      (RemoveDocumentPar.loop document_id order index).2 =
          RemoveDocument.loop document_id (pre.map (fun w => (w, (0 : ℚ)))) index ∧
        ((RemoveDocumentPar.loop document_id order index).1 = .ok () → pre = order) := by
  induction order generalizing index with
  | nil => exact ⟨[], rfl, fun _ => rfl⟩
  | cons w rest ih =>
    unfold RemoveDocumentPar.loop
    cases hf : index.find? w with
    | none =>
      refine ⟨[], ?_, ?_⟩
      · simp [OMap.at_, hf, RemoveDocument.loop]
      · simp [OMap.at_, hf]
    | some posting =>
      obtain ⟨pre, h1, h2⟩ := ih (index.insert w (posting.erase document_id))
      refine ⟨w :: pre, ?_, ?_⟩
      · simp only [OMap.at_, hf, h1, List.map_cons, RemoveDocument.loop,
          OMap.index_of_find? [] hf]
      · simp only [OMap.at_, hf]
        intro h
        rw [h2 h]

theorem keys_map_pair (l : List Str) : OMap.keys (l.map (fun w => (w, (0 : ℚ)))) = l := by
  induction l with
  | nil => rfl
  | cons a t ih =>
    simp only [List.map_cons, OMap.keys] at ih ⊢
    rw [ih]

theorem RemoveDocument.loop_postingsWF (document_id : Int) (L : List (Str × ℚ))
    (index : OMap Str (OMap Int ℚ)) (h : PostingsWF index) :
    PostingsWF (RemoveDocument.loop document_id L index) := by
  intro w posting hf
  rw [RemoveDocument.loop_find?] at hf
  split_ifs at hf
  · cases hf
    exact OMap.WF_erase _ (h.index w)
  · exact h w posting hf

/-- A posting left by the erasure loop was a posting before. -/
theorem RemoveDocument.loop_posting (document_id : Int) (L : List (Str × ℚ))
    (index : OMap Str (OMap Int ℚ)) (w : Str) (posting : OMap Int ℚ) (d : Int)
    (hf : (RemoveDocument.loop document_id L index).find? w = some posting)
    (hd : d ∈ posting.keys) :
    index.find? w = some (index.index w []) ∧ d ∈ (index.index w []).keys ∧
      (w ∈ OMap.keys L → d ≠ document_id) := by
  rw [RemoveDocument.loop_find?] at hf
  split_ifs at hf with hw
  · cases hf
    obtain ⟨hne, hmem⟩ := (OMap.keys_erase _ _ _).mp hd
    exact ⟨OMap.find?_of_mem_index_keys hmem, hmem, fun _ => hne⟩
  · have := OMap.index_of_find? [] hf
    rw [this]
    exact ⟨hf, hd, fun h => absurd h hw⟩

/-- The state after erasures only (some tasks of a parallel removal). -/
theorem Inv_erasures (s : SearchServer) (document_id : Int) (L : List (Str × ℚ)) (h : Inv s) :
    Inv { s with word_to_document_freqs_ :=
      RemoveDocument.loop document_id L s.word_to_document_freqs_ } := by
  refine ⟨RemoveDocument.loop_postingsWF _ _ _ h.posting_wf, ?_, h.rev_live, h.live_doc⟩
  intro w posting d hf hd
  obtain ⟨h1, h2, _⟩ := RemoveDocument.loop_posting _ _ _ _ _ _ hf hd
  exact h.mirrored w _ d h1 h2

/-- The state after a completed removal. -/
theorem Inv_removed (s : SearchServer) (document_id : Int) (L : List (Str × ℚ)) (h : Inv s)
    (hL : ∀ w, w ∈ (s.doc_to_word_freq.index document_id []).keys → w ∈ OMap.keys L) :
    Inv { s with
      word_to_document_freqs_ := RemoveDocument.loop document_id L s.word_to_document_freqs_
      doc_to_word_freq := s.doc_to_word_freq.erase document_id
      documents_ := s.documents_.erase document_id
      document_ids_ := s.document_ids_.erase document_id } := by
  refine ⟨RemoveDocument.loop_postingsWF _ _ _ h.posting_wf, ?_, ?_, ?_⟩
  · intro w posting d hf hd
    obtain ⟨h1, h2, h3⟩ := RemoveDocument.loop_posting _ _ _ _ _ _ hf hd
    have hm := h.mirrored w _ d h1 h2
    have hne : d ≠ document_id := by
      intro e
      subst e
      exact h3 (hL w hm) rfl
    show w ∈ ((s.doc_to_word_freq.erase document_id).index d []).keys
    rw [OMap.index_erase_ne hne]
    exact hm
  · intro d hd
    obtain ⟨hne, hmem⟩ := (OMap.keys_erase _ _ _).mp hd
    exact (OMap.keys_erase _ _ _).mpr ⟨hne, h.rev_live d hmem⟩
  · intro d hd
    obtain ⟨hne, hmem⟩ := (OMap.keys_erase _ _ _).mp hd
    exact (OMap.keys_erase _ _ _).mpr ⟨hne, h.live_doc d hmem⟩

theorem Inv_RemoveDocument (s : SearchServer) (document_id : Int) (h : Inv s) :
    Inv (s.RemoveDocument document_id).2 := by
  unfold RemoveDocument
  split_ifs
  · exact h
  · cases hf : s.doc_to_word_freq.find? document_id with
    | none =>
      simp only [OMap.at_, hf]
      exact h
    | some search_doc =>
      simp only [OMap.at_, hf]
      apply Inv_removed s document_id search_doc h
      intro w hw
      rw [OMap.index_of_find? [] hf] at hw
      exact hw

theorem Inv_RemoveDocumentPar (s : SearchServer) (document_id : Int) (order : List Str)
    (h : Inv s) (horder : order.Perm (s.removalWords document_id)) :
    Inv (s.RemoveDocumentPar document_id order).2 := by
  unfold RemoveDocumentPar
  split_ifs
  · exact h
  · cases hf : s.doc_to_word_freq.find? document_id with
    | none =>
      simp only [OMap.at_, hf]
      exact h
    | some search_doc =>
      simp only [OMap.at_, hf]
      obtain ⟨pre, h1, h2⟩ := RemoveDocumentPar.loop_eq document_id order s.word_to_document_freqs_
      split
      · next e index heq =>
        rw [heq] at h1
        simp only at h1
        rw [h1]
        exact Inv_erasures s document_id _ h
      · next u index heq =>
        rw [heq] at h1 h2
        simp only at h1 h2
        have hpre := h2 trivial
        rw [h1, hpre]
        apply Inv_removed s document_id _ h
        intro w hw
        rw [keys_map_pair]
        exact horder.mem_iff.mpr hw

/-- A freshly constructed server satisfies the invariant. -/
theorem Inv_init (stop_words : List Str) : Inv (init stop_words) := by
  refine ⟨?_, ?_, ?_, ?_⟩
  · intro w posting hf
    simp [init, OMap.find?] at hf
  · intro w posting d hf
    simp [init, OMap.find?] at hf
  · intro d hd
    exact absurd hd (List.not_mem_nil d)
  · intro d hd
    exact absurd hd (List.not_mem_nil d)

/-- Every reachable store satisfies the invariant. -/
theorem Reachable.inv {s : SearchServer} (h : Reachable s) : Inv s := by
  induction h with
  | init stop_words => exact Inv_init stop_words
  | add s document_id document status ratings _ ih => exact Inv_AddDocument _ _ _ _ _ ih
  | remove s document_id _ ih => exact Inv_RemoveDocument _ _ ih
  | remove_par s document_id order _ horder ih => exact Inv_RemoveDocumentPar _ _ _ ih horder

end SearchServer

/-! ## The sequential relevance computation -/

namespace SearchServer

variable {K : Type} [LinearOrderedField K]

/-- Every id of a posting has a document record. -/
theorem Inv.posting_doc {s : SearchServer} (h : Inv s) {w : Str} {posting : OMap Int ℚ}
    {d : Int} (hf : s.word_to_document_freqs_.find? w = some posting)
    (hd : d ∈ posting.keys) : ∃ data, s.documents_.find? d = some data := by
  have h1 := h.mirrored w posting d hf hd
  have h2 := OMap.find?_of_mem_index_keys h1
  have h3 : d ∈ s.doc_to_word_freq.keys := (OMap.mem_keys_iff _ _).mpr (by rw [h2]; rfl)
  have h4 := h.live_doc d (h.rev_live d h3)
  exact Option.isSome_iff_exists.mp ((OMap.mem_keys_iff _ _).mp h4)

theorem OMap_cons_WF {β : Type} {d0 : Int} {v : β} {rest : OMap Int β}
    (h : OMap.WF ((d0, v) :: rest)) : rest.WF ∧ rest.find? d0 = none := by
  have h' : List.Sorted (· < ·) (d0 :: OMap.keys rest) := h
  refine ⟨(List.sorted_cons.mp h').2, ?_⟩
  have hnot : d0 ∉ OMap.keys rest := fun hm => lt_irrefl _ ((List.sorted_cons.mp h').1 d0 hm)
  rw [OMap.mem_keys_iff] at hnot
  cases hf : rest.find? d0 with
  | none => rfl
  | some x =>
    rw [hf] at hnot
    simp at hnot

theorem FindAllDocuments.plusInner_spec (s : SearchServer) (pred : DocumentPredicate) (idf : K)
    (P : OMap Int ℚ) (acc : OMap Int K)
    (hdoc : ∀ d ∈ P.keys, ∃ data, s.documents_.find? d = some data) (hP : P.WF) :
    ∃ acc', FindAllDocuments.plusInner s pred idf P acc = .ok acc' ∧ (acc.WF → acc'.WF) ∧
      ∀ d, acc'.find? d =
        match P.find? d with
        | some tf =>
          if s.accepts pred d = true then some (acc.index d 0 + (tf : K) * idf)
          else acc.find? d
        | none => acc.find? d := by
  induction P generalizing acc with
  | nil => exact ⟨acc, rfl, id, fun d => rfl⟩
  | cons p rest ih =>
    obtain ⟨d0, tf0⟩ := p
    obtain ⟨hrest, hfr⟩ := OMap_cons_WF hP
    obtain ⟨data, hdata⟩ := hdoc d0 (List.mem_cons_self _ _)
    have hdoc' : ∀ d ∈ OMap.keys rest, ∃ data, s.documents_.find? d = some data :=
      fun d hd => hdoc d (List.mem_cons_of_mem _ hd)
    have hacc : s.accepts pred d0 = pred d0 data.status data.rating := by
      simp [accepts, hdata]
    unfold FindAllDocuments.plusInner
    simp only [OMap.at_, hdata]
    by_cases hp : pred d0 data.status data.rating = true
    · simp only [hp, if_true]
      obtain ⟨acc', h1, h2, h3⟩ := ih (acc.addAt d0 ((tf0 : K) * idf)) hdoc' hrest
      refine ⟨acc', h1, fun hw => h2 (OMap.WF_insert _ _ hw), ?_⟩
      intro d
      rw [h3 d]
      by_cases hd : d = d0
      · subst hd
        rw [hfr]
        simp [OMap.find?, hacc, hp, OMap.addAt, OMap.find?_insert_self]
      · have hd' : ¬ d0 = d := fun e => hd e.symm
        simp only [OMap.find?, hd', if_false, OMap.addAt, OMap.find?_insert_ne hd,
          OMap.index_insert_ne hd]
    · simp only [hp, if_false, Bool.false_eq_true]
      obtain ⟨acc', h1, h2, h3⟩ := ih acc hdoc' hrest
      refine ⟨acc', h1, h2, ?_⟩
      intro d
      rw [h3 d]
      by_cases hd : d = d0
      · subst hd
        rw [hfr]
        simp [OMap.find?, hacc, hp]
      · have hd' : ¬ d0 = d := fun e => hd e.symm
        simp only [OMap.find?, hd', if_false]

theorem hasWord_iff_find? (s : SearchServer) (w : Str) (d : Int) (posting : OMap Int ℚ)
    (h : s.word_to_document_freqs_.find? w = some posting) :
    s.hasWord w d = true ↔ ∃ tf, posting.find? d = some tf := by
  unfold hasWord
  rw [OMap.index_of_find? [] h, decide_eq_true_iff, OMap.mem_keys_iff, Option.isSome_iff_exists]

theorem FindAllDocuments.plusLoop_spec (s : SearchServer) (hs : Inv s) (ln : ℚ → K)
    (pred : DocumentPredicate) (ws : List Str) (acc : OMap Int K) :
    ∃ acc', FindAllDocuments.plusLoop s ln pred ws acc = .ok acc' ∧ (acc.WF → acc'.WF) ∧
      ∀ d, acc'.find? d =
        if s.accepts pred d = true ∧ ws.filter (fun w => s.hasWord w d) ≠ [] then
          some (acc.index d 0 + ((ws.filter (fun w => s.hasWord w d)).map (fun w =>
            (s.termFreq w d : K) * ln ((s.GetDocumentCount : ℚ) * 1 / (s.docFreq w : ℚ)))).sum)
        else acc.find? d := by
  induction ws generalizing acc with
  | nil => exact ⟨acc, rfl, id, fun d => by simp⟩
  | cons w rest ih =>
    unfold FindAllDocuments.plusLoop
    cases hf : s.word_to_document_freqs_.find? w with
    | none =>
      obtain ⟨acc', h1, h2, h3⟩ := ih acc
      refine ⟨acc', ?_, h2, ?_⟩
      · simp only [(OMap.count_eq_zero_iff _ _).mpr hf, if_true, h1]
      · intro d
        rw [h3 d]
        simp only [List.filter_cons, hasWord_of_find?_none s w d hf, Bool.false_eq_true,
          if_false]
    | some posting =>
      have hc : ¬ (s.word_to_document_freqs_.count w = 0) := by
        rw [OMap.count_eq_zero_iff, hf]
        simp
      obtain ⟨acc1, g1, g2, g3⟩ := FindAllDocuments.plusInner_spec s pred
        (ln ((s.GetDocumentCount : ℚ) * 1 / (posting.size : ℚ))) posting acc
        (fun d hd => hs.posting_doc hf hd) (hs.posting_wf w posting hf)
      obtain ⟨acc', h1, h2, h3⟩ := ih acc1
      refine ⟨acc', ?_, fun hw => h2 (g2 hw), ?_⟩
      · simp only [hc, if_false, ComputeWordInverseDocumentFreq, OMap.at_, hf, g1, h1]
      · intro d
        rw [h3 d]
        have hdf : s.docFreq w = posting.size := by
          unfold docFreq
          rw [OMap.index_of_find? [] hf]
        have hidx : acc1.index d 0 = (acc1.find? d).getD 0 := rfl
        cases hpd : posting.find? d with
        | none =>
          have hw : s.hasWord w d = false := by
            rw [← Bool.not_eq_true, hasWord_iff_find? s w d posting hf, hpd]
            simp
          have e1 : acc1.find? d = acc.find? d := by
            rw [g3 d, hpd]
          have e2 : acc1.index d 0 = acc.index d 0 := by
            rw [hidx, e1]
            rfl
          simp only [List.filter_cons, hw, Bool.false_eq_true, if_false, e1, e2]
        | some tf =>
          have hw : s.hasWord w d = true := by
            rw [hasWord_iff_find? s w d posting hf, hpd]
            exact ⟨tf, rfl⟩
          have htf : s.termFreq w d = tf := by
            unfold termFreq
            rw [OMap.index_of_find? [] hf, OMap.index_of_find? 0 hpd]
          by_cases hA : s.accepts pred d = true
          · have e1 : acc1.find? d =
                some (acc.index d 0 + (tf : K) * ln ((s.GetDocumentCount : ℚ) * 1 /
                  (posting.size : ℚ))) := by
              rw [g3 d, hpd]
              simp only [hA, if_true]
            have e2 : acc1.index d 0 = acc.index d 0 + (tf : K) *
                ln ((s.GetDocumentCount : ℚ) * 1 / (posting.size : ℚ)) := by
              rw [hidx, e1]
              rfl
            simp only [List.filter_cons, hw, if_true, hA, true_and, ne_eq, List.cons_ne_nil,
              not_false_eq_true, List.map_cons, List.sum_cons, e1, e2, htf, hdf]
            by_cases hF : rest.filter (fun w => s.hasWord w d) = []
            · simp [hF]
            · simp only [hF, not_false_eq_true, if_true, add_assoc]
          · have e1 : acc1.find? d = acc.find? d := by
              rw [g3 d, hpd]
              simp [hA]
            simp [hA, e1]

theorem minus_fold_find? (posting : OMap Int ℚ) (acc : OMap Int K) (d : Int) :
    (posting.foldl (fun acc p => acc.erase p.1) acc).find? d =
      if d ∈ posting.keys then none else acc.find? d := by
  induction posting generalizing acc with
  | nil => simp [OMap.keys]
  | cons p rest ih =>
    simp only [List.foldl_cons]
    rw [ih]
    have hk : OMap.keys (p :: rest) = p.1 :: OMap.keys rest := rfl
    rw [hk]
    by_cases hr : d ∈ OMap.keys rest
    · simp [hr]
    · by_cases hd : d = p.1
      · subst hd
        simp [hr, OMap.find?_erase_self]
      · simp [hr, hd, OMap.find?_erase_ne hd]

theorem minus_fold_WF (posting : OMap Int ℚ) (acc : OMap Int K) (h : acc.WF) :
    (posting.foldl (fun acc p => acc.erase p.1) acc).WF := by
  induction posting generalizing acc with
  | nil => exact h
  | cons p rest ih =>
    simp only [List.foldl_cons]
    exact ih _ (OMap.WF_erase _ h)

theorem FindAllDocuments.minusLoop_spec (s : SearchServer) (ws : List Str) (acc : OMap Int K) :
    ∃ acc', FindAllDocuments.minusLoop s ws acc = .ok acc' ∧ (acc.WF → acc'.WF) ∧
      ∀ d, acc'.find? d =
        if ws.any (fun w => s.hasWord w d) = true then none else acc.find? d := by
  induction ws generalizing acc with
  | nil => exact ⟨acc, rfl, id, fun d => by simp⟩
  | cons w rest ih =>
    unfold FindAllDocuments.minusLoop
    cases hf : s.word_to_document_freqs_.find? w with
    | none =>
      obtain ⟨acc', h1, h2, h3⟩ := ih acc
      refine ⟨acc', ?_, h2, ?_⟩
      · simp only [(OMap.count_eq_zero_iff _ _).mpr hf, if_true, h1]
      · intro d
        rw [h3 d]
        simp only [List.any_cons, hasWord_of_find?_none s w d hf, Bool.false_or]
    | some posting =>
      have hc : ¬ (s.word_to_document_freqs_.count w = 0) := by
        rw [OMap.count_eq_zero_iff, hf]
        simp
      obtain ⟨acc', h1, h2, h3⟩ := ih (posting.foldl (fun acc p => acc.erase p.1) acc)
      refine ⟨acc', ?_, fun hw => h2 (minus_fold_WF posting acc hw), ?_⟩
      · simp only [hc, if_false, OMap.at_, hf, h1]
      · intro d
        rw [h3 d, minus_fold_find?]
        have hw : s.hasWord w d = decide (d ∈ posting.keys) := by
          unfold hasWord
          rw [OMap.index_of_find? [] hf]
        simp only [List.any_cons, hw, Bool.or_eq_true, decide_eq_true_eq]
        by_cases hd : d ∈ posting.keys
        · simp [hd]
        · simp [hd]

theorem FindAllDocuments.collect_spec (s : SearchServer) (entries : List (Int × K))
    (out : List (Document K))
    (hdoc : ∀ p ∈ entries, ∃ data, s.documents_.find? p.1 = some data) :
    ∃ docs, FindAllDocuments.collect s entries out = .ok (out ++ docs) ∧
      docs.map (fun doc => doc.id) = OMap.keys entries ∧
      ∀ doc ∈ docs, (doc.id, doc.relevance) ∈ entries ∧
        ∃ data, s.documents_.find? doc.id = some data ∧ doc.rating = data.rating := by
  induction entries generalizing out with
  | nil => exact ⟨[], by simp [FindAllDocuments.collect], rfl, by simp⟩
  | cons p rest ih =>
    obtain ⟨d0, rel⟩ := p
    obtain ⟨data, hdata⟩ := hdoc (d0, rel) (List.mem_cons_self _ _)
    obtain ⟨docs, h1, h2, h3⟩ := ih
      (out ++ [{ id := d0, relevance := rel, rating := data.rating }])
      (fun p hp => hdoc p (List.mem_cons_of_mem _ hp))
    refine ⟨{ id := d0, relevance := rel, rating := data.rating } :: docs, ?_, ?_, ?_⟩
    · unfold FindAllDocuments.collect
      simp only [OMap.at_, hdata, h1, List.append_assoc, List.singleton_append]
    · simp only [List.map_cons, h2]
      rfl
    · intro doc hdoc'
      rcases List.mem_cons.mp hdoc' with rfl | hm
      · exact ⟨List.mem_cons_self _ _, data, hdata, rfl⟩
      · obtain ⟨a, b⟩ := h3 doc hm
        exact ⟨List.mem_cons_of_mem _ a, b⟩

/-- The size of a posting map counts the documents that contain the word. -/
theorem docFreq_counts (s : SearchServer) (hs : Inv s) (w : Str) :
    ∃ l : List Int, l.Nodup ∧ (∀ d, d ∈ l ↔ s.hasWord w d = true) ∧ s.docFreq w = l.length := by
  refine ⟨(s.word_to_document_freqs_.index w []).keys, OMap.WF_nodup (hs.posting_wf.index w),
    ?_, ?_⟩
  · intro d
    simp [hasWord]
  · simp [docFreq, OMap.size, OMap.keys]

theorem accepts_iff (s : SearchServer) (pred : DocumentPredicate) (d : Int) :
    s.accepts pred d = true ↔
      ∃ data, s.documents_.find? d = some data ∧ pred d data.status data.rating = true := by
  unfold accepts
  cases s.documents_.find? d with
  | none => simp
  | some data => simp

/-- The sequential `FindAllDocuments` on a store that satisfies the invariant, for any
field of relevances and any logarithm. -/
theorem FindAllDocuments_general (s : SearchServer) (hs : Inv s) (ln : ℚ → K) (q : Query)
    (pred : DocumentPredicate) :
    ∃ docs, s.FindAllDocuments ln q pred = .ok docs ∧
      (docs.map (fun doc => doc.id)).Nodup ∧
      (∀ d, d ∈ docs.map (fun doc => doc.id) ↔
        (s.accepts pred d = true ∧ q.plus_words.filter (fun w => s.hasWord w d) ≠ [] ∧
          q.minus_words.any (fun w => s.hasWord w d) = false)) ∧
      ∀ doc ∈ docs,
        doc.relevance = ((q.plus_words.filter (fun w => s.hasWord w doc.id)).map (fun w =>
          (s.termFreq w doc.id : K) *
            ln ((s.GetDocumentCount : ℚ) * 1 / (s.docFreq w : ℚ)))).sum ∧
        ∃ data, s.documents_.find? doc.id = some data ∧ doc.rating = data.rating := by
  obtain ⟨acc1, a1, a2, a3⟩ := FindAllDocuments.plusLoop_spec s hs ln pred q.plus_words []
  obtain ⟨acc2, b1, b2, b3⟩ := FindAllDocuments.minusLoop_spec s q.minus_words acc1
  have hwf : acc2.WF := b2 (a2 OMap.WF_nil)
  have hfind : ∀ d, acc2.find? d =
      if q.minus_words.any (fun w => s.hasWord w d) = true then none
      else if s.accepts pred d = true ∧ q.plus_words.filter (fun w => s.hasWord w d) ≠ [] then
        some (((q.plus_words.filter (fun w => s.hasWord w d)).map (fun w =>
          (s.termFreq w d : K) * ln ((s.GetDocumentCount : ℚ) * 1 / (s.docFreq w : ℚ)))).sum)
      else none := by
    intro d
    rw [b3 d, a3 d]
    have h0 : OMap.index ([] : OMap Int K) d 0 = 0 := rfl
    have h1 : OMap.find? ([] : OMap Int K) d = none := rfl
    rw [h0, h1, zero_add]
  have hsome : ∀ d rel, acc2.find? d = some rel →
      q.minus_words.any (fun w => s.hasWord w d) = false ∧ s.accepts pred d = true ∧
        q.plus_words.filter (fun w => s.hasWord w d) ≠ [] ∧
        rel = ((q.plus_words.filter (fun w => s.hasWord w d)).map (fun w =>
          (s.termFreq w d : K) * ln ((s.GetDocumentCount : ℚ) * 1 / (s.docFreq w : ℚ)))).sum := by
    intro d rel h
    rw [hfind d] at h
    split_ifs at h with h1 h2
    · cases h
      exact ⟨by simpa using h1, h2.1, h2.2, rfl⟩
  have hdoc : ∀ p ∈ acc2, ∃ data, s.documents_.find? p.1 = some data := by
    intro p hp
    have hf := OMap.find?_of_mem hwf (show (p.1, p.2) ∈ acc2 from hp)
    obtain ⟨_, hA, _, _⟩ := hsome _ _ hf
    obtain ⟨data, hd, _⟩ := (accepts_iff s pred p.1).mp hA
    exact ⟨data, hd⟩
  obtain ⟨docs, c1, c2, c3⟩ := FindAllDocuments.collect_spec s acc2 [] hdoc
  refine ⟨docs, ?_, ?_, ?_, ?_⟩
  · unfold FindAllDocuments
    simp only [a1, b1, c1, List.nil_append]
  · rw [c2]
    exact OMap.WF_nodup hwf
  · intro d
    rw [c2, OMap.mem_keys_iff, hfind d]
    split_ifs with h1 h2
    · simp [h1]
    · simp [h1, h2.1, h2.2]
    · simp only [Option.isSome_none, Bool.false_eq_true, false_iff]
      intro h
      exact h2 ⟨h.1, h.2.1⟩
  · intro doc hmem
    obtain ⟨hin, hr⟩ := c3 doc hmem
    obtain ⟨_, _, _, hrel⟩ := hsome _ _ (OMap.find?_of_mem hwf hin)
    exact ⟨hrel, hr⟩

end SearchServer

/-! ## Average rating -/

theorem wrap32_wrap32_add (a b : Int) : wrap32 (wrap32 a + b) = wrap32 (a + b) := by
  unfold wrap32
  norm_num
  omega

theorem wrap32_of_fits (x : Int) (h : -2 ^ 31 ≤ x ∧ x < 2 ^ 31) : wrap32 x = x := by
  unfold wrap32
  norm_num at h ⊢
  omega

theorem foldl_wrap32 (l : List Int) (a : Int) :
    l.foldl (fun acc r => wrap32 (acc + r)) (wrap32 a) = wrap32 (a + l.sum) := by
  induction l generalizing a with
  | nil => simp
  | cons r t ih =>
    simp only [List.foldl_cons, List.sum_cons]
    rw [wrap32_wrap32_add, ih, add_assoc]

namespace SearchServer

/-- The word loop of `AddDocument` touches the two indices only. -/
theorem AddDocument.fold_documents (document_id : Int) (inv : ℚ) (words : List Str)
    (s : SearchServer) :
    (words.foldl (AddDocument.step document_id inv) s).documents_ = s.documents_ ∧
      (words.foldl (AddDocument.step document_id inv) s).document_ids_ = s.document_ids_ ∧
      (words.foldl (AddDocument.step document_id inv) s).stop_words_ = s.stop_words_ := by
  induction words generalizing s with
  | nil => exact ⟨rfl, rfl, rfl⟩
  | cons w rest ih =>
    simp only [List.foldl_cons]
    obtain ⟨a, b, c⟩ := ih (AddDocument.step document_id inv s w)
    exact ⟨a, b, c⟩

/-- The record of a document right after `AddDocument` succeeded. -/
theorem AddDocument_ok_record (s : SearchServer) (document_id : Int) (document : Str)
    (status : DocumentStatus) (ratings : List Int) (s' : SearchServer)
    (h : s.AddDocument document_id document status ratings = (.ok (), s')) :
    s'.documents_.find? document_id =
      some { rating := ComputeAverageRating ratings, status := status, text := document } := by
  unfold AddDocument at h
  by_cases h1 : document_id < 0
  · simp [h1] at h
  · by_cases h2 : s.documents_.count document_id > 0
    · simp [h1, h2] at h
    · have hc : s.documents_.count document_id = 0 := by omega
      simp only [h1, if_false, OMap.emplace, hc, gt_iff_lt, lt_self_iff_false, OMap.at_,
        OMap.find?_insert_self] at h
      split at h
      · cases h
      · next words _ =>
        cases h
        simp only [(AddDocument.fold_documents document_id _ words _).1]
        exact OMap.find?_insert_self _ _ _

/-- C15: for every ratings list whose sum fits a 32-bit signed integer,
`ComputeAverageRating` is 0 on the empty list and otherwise the sum divided by the
number of ratings, the quotient truncated toward zero (so the ratings -1, -2 give -1);
this is the rating `AddDocument` stores in the record of the document. -/
theorem ComputeAverageRating_spec (ratings : List Int)
    (hsum : -2 ^ 31 ≤ ratings.sum ∧ ratings.sum < 2 ^ 31) :
    ComputeAverageRating ratings =
        (if ratings = [] then 0 else Int.tdiv ratings.sum (ratings.length : Int)) ∧
      ComputeAverageRating [-1, -2] = -1 ∧
      ∀ (s s' : SearchServer) (document_id : Int) (document : Str) (status : DocumentStatus),
        s.AddDocument document_id document status ratings = (.ok (), s') →
        ∃ data, s'.documents_.find? document_id = some data ∧
          data.rating = (if ratings = [] then 0 else Int.tdiv ratings.sum (ratings.length : Int)) := by
  have h1 : ComputeAverageRating ratings =
      (if ratings = [] then 0 else Int.tdiv ratings.sum (ratings.length : Int)) := by
    unfold ComputeAverageRating
    cases ratings with
    | nil => simp
    | cons r t =>
      have h0 : (0 : Int) = wrap32 0 := by decide
      simp only [List.isEmpty_cons, Bool.false_eq_true, if_false]
      rw [h0, foldl_wrap32, zero_add, wrap32_of_fits _ hsum]
      simp
  refine ⟨h1, by decide, ?_⟩
  intro s s' document_id document status h
  exact ⟨_, AddDocument_ok_record s document_id document status ratings s' h, h1⟩

theorem ComputeAverageRating_spec_witness :
    (-2 ^ 31 ≤ ([7, -2, -8] : List Int).sum ∧ ([7, -2, -8] : List Int).sum < 2 ^ 31) ∧
      (ComputeAverageRating [7, -2, -8] =
        (if ([7, -2, -8] : List Int) = [] then 0
          else Int.tdiv ([7, -2, -8] : List Int).sum (([7, -2, -8] : List Int).length : Int)) ∧
      ComputeAverageRating [-1, -2] = -1 ∧
      ∀ (s s' : SearchServer) (document_id : Int) (document : Str) (status : DocumentStatus),
        s.AddDocument document_id document status [7, -2, -8] = (.ok (), s') →
        ∃ data, s'.documents_.find? document_id = some data ∧
          data.rating = (if ([7, -2, -8] : List Int) = [] then 0
            else Int.tdiv ([7, -2, -8] : List Int).sum (([7, -2, -8] : List Int).length : Int))) :=
  ⟨by decide, ComputeAverageRating_spec [7, -2, -8] (by decide)⟩

end SearchServer

/-! ## The tokenizer returns the maximal runs of non-space characters -/

theorem splitOnP_space_head (s : Str) :
    s.splitOnP (fun c => c == ' ') =
      s.takeWhile (fun c => decide (c ≠ ' ')) ::
        (match s.dropWhile (fun c => decide (c ≠ ' ')) with
          | [] => []
          | _ :: rest => rest.splitOnP (fun c => c == ' ')) := by
  induction s with
  | nil => rfl
  | cons c cs ih =>
    rw [List.splitOnP_cons]
    by_cases hc : c = ' '
    · subst hc
      simp
    · have h1 : (c == ' ') = false := by simpa using hc
      rw [h1, ih]
      simp [List.modifyHead, List.takeWhile_cons, List.dropWhile_cons, hc]

theorem maximalRuns_nil : maximalRuns [] = [] := by
  simp [maximalRuns]

theorem maximalRuns_space (cs : Str) : maximalRuns (' ' :: cs) = maximalRuns cs := by
  simp [maximalRuns]

theorem maximalRuns_dropWhile (s : Str) :
    maximalRuns (s.dropWhile (fun c => decide (c = ' '))) = maximalRuns s := by
  induction s with
  | nil => rfl
  | cons c cs ih =>
    by_cases hc : c = ' '
    · subst hc
      rw [List.dropWhile_cons_of_pos (by simp), ih, maximalRuns_space]
    · rw [List.dropWhile_cons_of_neg (by simpa using hc)]

theorem SplitIntoWordsView.loop_eq_maximalRuns (fuel : Nat) (str : Str)
    (hfuel : str.length < fuel) (hd : str.head? ≠ some ' ') :
    SplitIntoWordsView.loop fuel str = maximalRuns str := by
  induction fuel generalizing str with
  | zero => exact absurd hfuel (Nat.not_lt_zero _)
  | succ n ih =>
    cases str with
    | nil => simp [SplitIntoWordsView.loop, maximalRuns_nil]
    | cons c cs =>
      have hc : c ≠ ' ' := by simpa using hd
      have hw : (c :: cs).takeWhile (fun c => decide (c ≠ ' ')) ≠ [] := by
        simp [List.takeWhile_cons, hc]
      have hw' : ((c :: cs).takeWhile (fun c => decide (c ≠ ' '))).isEmpty = false := by
        cases h : (c :: cs).takeWhile (fun c => decide (c ≠ ' ')) with
        | nil => exact absurd h hw
        | cons _ _ => rfl
      unfold SplitIntoWordsView.loop
      simp only [List.isEmpty_cons, Bool.false_eq_true, if_false]
      unfold maximalRuns
      rw [splitOnP_space_head]
      cases hrest : (c :: cs).dropWhile (fun c => decide (c ≠ ' ')) with
      | nil => simp [List.filter_cons, hw', hc]
      | cons r rs =>
        have hlen : (r :: rs).length ≤ (c :: cs).length := by
          rw [← hrest]
          exact (List.dropWhile_suffix _).length_le
        have hr : r = ' ' := by
          have := List.head?_dropWhile_not (fun c => decide (c ≠ ' ')) (c :: cs)
          rw [hrest] at this
          simpa using this
        have hdrop : ((r :: rs).dropWhile (fun c => decide (c = ' '))).length ≤ rs.length := by
          rw [List.dropWhile_cons_of_pos (by simp [hr])]
          exact (List.dropWhile_suffix _).length_le
        have hhead : ((r :: rs).dropWhile (fun c => decide (c = ' '))).head? ≠ some ' ' := by
          intro h
          have := List.head?_dropWhile_not (fun c => decide (c = ' ')) (r :: rs)
          rw [h] at this
          simp at this
        simp only [List.length_cons] at hlen hfuel
        simp only [List.filter_cons, hw', Bool.not_false, if_true]
        rw [ih _ (by omega) hhead, maximalRuns_dropWhile]
        subst hr
        rw [maximalRuns_space]
        rfl

theorem SplitIntoWordsView_eq_maximalRuns (text : Str) :
    SplitIntoWordsView text = maximalRuns text := by
  unfold SplitIntoWordsView
  rw [SplitIntoWordsView.loop_eq_maximalRuns, maximalRuns_dropWhile]
  · have := (List.dropWhile_suffix (fun c => decide (c = ' ')) (l := text)).length_le
    omega
  · intro h
    have := List.head?_dropWhile_not (fun c => decide (c = ' ')) text
    rw [h] at this
    simp at this

/-- The accumulating loop of `SplitIntoWords`, started with finished words `ws` and
current word `cur`. -/
theorem SplitIntoWords.foldl_eq (text : Str) (ws : List Str) (cur : Str) :
    (let st := text.foldl SplitIntoWords.step (ws, cur)
     if !st.2.isEmpty then st.1 ++ [st.2] else st.1) =
      ws ++ ((text.splitOnP (fun c => c == ' ')).modifyHead (cur ++ ·)).filter
        (fun t => !t.isEmpty) := by
  induction text generalizing ws cur with
  | nil =>
    cases cur <;> simp [List.modifyHead]
  | cons c cs ih =>
    simp only [List.foldl_cons]
    rw [List.splitOnP_cons]
    by_cases hc : c = ' '
    · subst hc
      cases cur with
      | nil =>
        have := ih ws []
        simp only [SplitIntoWords.step, if_true, List.isEmpty_nil, Bool.not_true,
          Bool.false_eq_true, if_false] at this ⊢
        rw [this]
        cases List.splitOnP (fun c => c == ' ') cs <;> simp [List.modifyHead]
      | cons d ds =>
        have := ih (ws ++ [d :: ds]) []
        simp only [SplitIntoWords.step, if_true, List.isEmpty_cons, Bool.not_false] at this ⊢
        rw [this]
        cases List.splitOnP (fun c => c == ' ') cs <;> simp [List.modifyHead]
    · have h1 : (c == ' ') = false := by simpa using hc
      have := ih ws (cur ++ [c])
      simp only [SplitIntoWords.step, hc, if_false] at this ⊢
      rw [this, h1]
      simp only [Bool.false_eq_true, if_false, List.modifyHead_modifyHead]
      congr 3
      funext h
      simp

theorem SplitIntoWords_eq_maximalRuns (text : Str) : SplitIntoWords text = maximalRuns text := by
  have := SplitIntoWords.foldl_eq text [] []
  unfold SplitIntoWords maximalRuns
  rw [this]
  cases List.splitOnP (fun c => c == ' ') text <;> simp [List.modifyHead]

theorem splitOnP_space_no_space (s : Str) :
    ∀ t ∈ s.splitOnP (fun c => c == ' '), ' ' ∉ t := by
  induction s with
  | nil => simp
  | cons c cs ih =>
    rw [List.splitOnP_cons]
    by_cases hc : c = ' '
    · subst hc
      intro t ht
      simp only [beq_self_eq_true, if_true, List.mem_cons] at ht
      rcases ht with rfl | ht
      · simp
      · exact ih t ht
    · have h1 : (c == ' ') = false := by simpa using hc
      rw [h1]
      simp only [Bool.false_eq_true, if_false]
      cases hS : List.splitOnP (fun c => c == ' ') cs with
      | nil => simp [List.modifyHead]
      | cons h tl =>
        rw [hS] at ih
        intro t ht
        simp only [List.modifyHead, List.mem_cons] at ht
        rcases ht with rfl | ht
        · intro hm
          rcases List.mem_cons.mp hm with e | hm'
          · exact hc e.symm
          · exact ih h (List.mem_cons_self _ _) hm'
        · exact ih t (List.mem_cons_of_mem _ ht)

theorem splitOnP_space_flatten (s : Str) :
    (s.splitOnP (fun c => c == ' ')).flatten = s.filter (fun c => decide (c ≠ ' ')) := by
  induction s with
  | nil => simp
  | cons c cs ih =>
    rw [List.splitOnP_cons]
    by_cases hc : c = ' '
    · subst hc
      simpa using ih
    · have h1 : (c == ' ') = false := by simpa using hc
      rw [h1]
      simp only [Bool.false_eq_true, if_false]
      cases hS : List.splitOnP (fun c => c == ' ') cs with
      | nil => exact absurd hS (List.splitOnP_ne_nil _ _)
      | cons h tl =>
        rw [hS] at ih
        simp only [List.modifyHead, List.flatten_cons, List.cons_append] at ih ⊢
        rw [ih, List.filter_cons_of_pos (by simpa using hc)]

theorem flatten_filter_nonempty (l : List Str) :
    (l.filter (fun t => !t.isEmpty)).flatten = l.flatten := by
  induction l with
  | nil => rfl
  | cons t rest ih =>
    cases t with
    | nil => simpa using ih
    | cons a b => simp [List.filter_cons, ih]

theorem maximalRuns_token (s : Str) : ∀ t ∈ maximalRuns s, t ≠ [] ∧ ' ' ∉ t := by
  intro t ht
  unfold maximalRuns at ht
  obtain ⟨hm, hne⟩ := List.mem_filter.mp ht
  refine ⟨?_, splitOnP_space_no_space s t hm⟩
  intro e
  subst e
  simp at hne

theorem maximalRuns_flatten (s : Str) :
    (maximalRuns s).flatten = s.filter (fun c => decide (c ≠ ' ')) := by
  unfold maximalRuns
  rw [flatten_filter_nonempty, splitOnP_space_flatten]

theorem maximalRuns_eq_nil_iff (s : Str) : maximalRuns s = [] ↔ ∀ c ∈ s, c = ' ' := by
  constructor
  · intro h
    have := maximalRuns_flatten s
    rw [h] at this
    have h2 : s.filter (fun c => decide (c ≠ ' ')) = [] := this.symm
    rw [List.filter_eq_nil_iff] at h2
    intro c hc
    simpa using h2 c hc
  · intro h
    have h2 : (maximalRuns s).flatten = [] := by
      rw [maximalRuns_flatten, List.filter_eq_nil_iff]
      intro c hc
      simp [h c hc]
    cases hR : maximalRuns s with
    | nil => rfl
    | cons t rest =>
      have hne := (maximalRuns_token s t (by rw [hR]; exact List.mem_cons_self _ _)).1
      rw [hR] at h2
      cases t with
      | nil => exact absurd rfl hne
      | cons a b => simp at h2

/-- C16: for every text, `SplitIntoWordsView`, and likewise the owning-string
`SplitIntoWords`, returns in order exactly the maximal runs of non-space characters:
every token is non-empty and without a space, the tokens concatenated give the text
with its spaces deleted, and there is no token exactly when the text is empty or all
spaces. -/
theorem SplitIntoWordsView_spec (text : Str) :
    SplitIntoWordsView text = maximalRuns text ∧
      SplitIntoWords text = maximalRuns text ∧
      (∀ t ∈ SplitIntoWordsView text, t ≠ [] ∧ ' ' ∉ t) ∧
      (SplitIntoWordsView text).flatten = text.filter (fun c => decide (c ≠ ' ')) ∧
      (SplitIntoWordsView text = [] ↔ ∀ c ∈ text, c = ' ') := by
  rw [SplitIntoWordsView_eq_maximalRuns]
  exact ⟨rfl, SplitIntoWords_eq_maximalRuns text, maximalRuns_token text,
    maximalRuns_flatten text, maximalRuns_eq_nil_iff text⟩

/-! ## Coherence of the two indices -/

namespace OMap

variable {α β : Type}

theorem mem_iff_find? [DecidableEq α] [LinearOrder α] {m : OMap α β} (h : m.WF) (k : α) (v : β) :
    (k, v) ∈ m ↔ m.find? k = some v :=
  ⟨fun hm => find?_of_mem h hm, fun hf => mem_of_find? hf⟩

theorem WF_pairwise [LinearOrder α] {m : OMap α β} (h : m.WF) :
    m.Pairwise (fun p q => p.1 < q.1) := by
  unfold WF keys at h
  exact (List.pairwise_map.mp h)

/-- Two maps in key order with the same lookups are the same list. -/
theorem ext [DecidableEq α] [LinearOrder α] {m1 m2 : OMap α β} (h1 : m1.WF) (h2 : m2.WF)
    (h : ∀ k, m1.find? k = m2.find? k) : m1 = m2 := by
  have hp1 := WF_pairwise h1
  have hp2 := WF_pairwise h2
  have hmem : ∀ p, p ∈ m1 ↔ p ∈ m2 := by
    rintro ⟨k, v⟩
    rw [mem_iff_find? h1, mem_iff_find? h2, h k]
  have hn1 : m1.Nodup := hp1.imp (fun hlt e => by rw [e] at hlt; exact lt_irrefl _ hlt)
  have hn2 : m2.Nodup := hp2.imp (fun hlt e => by rw [e] at hlt; exact lt_irrefl _ hlt)
  have hperm : m1.Perm m2 := (List.perm_ext_iff_of_nodup hn1 hn2).mpr hmem
  haveI : IsAntisymm (α × β) (fun p q => p.1 < q.1) :=
    ⟨fun p q hpq hqp => absurd (lt_trans hpq hqp) (lt_irrefl _)⟩
  exact List.eq_of_perm_of_sorted hperm hp1 hp2

theorem erase_insert [DecidableEq α] [LinearOrder α] (k : α) (v : β) (m : OMap α β) :
    (m.insert k v).erase k = m.erase k := by
  induction m with
  | nil => simp [insert, erase]
  | cons p t ih =>
    obtain ⟨k', v'⟩ := p
    unfold insert
    split_ifs with h1 h2
    · simp [erase, List.filter_cons]
    · subst h2
      simp [erase, List.filter_cons]
    · have hne : k' ≠ k := fun e => h2 e.symm
      unfold erase at ih ⊢
      simp only [List.filter_cons, hne, ne_eq, not_false_eq_true, decide_True, if_true, ih]

theorem erase_of_not_mem [DecidableEq α] {k : α} {m : OMap α β} (h : k ∉ m.keys) :
    m.erase k = m := by
  unfold erase
  rw [List.filter_eq_self]
  intro p hp
  have : p.1 ≠ k := fun e => h (e ▸ List.mem_map_of_mem Prod.fst hp)
  simpa using this

theorem length_insert_of_not_mem [DecidableEq α] [LinearOrder α] {k : α} (v : β) {m : OMap α β}
    (h : k ∉ m.keys) : (m.insert k v).length = m.length + 1 := by
  induction m with
  | nil => simp [insert]
  | cons p t ih =>
    obtain ⟨k', v'⟩ := p
    have hne : k ≠ k' := fun e => h (e ▸ List.mem_cons_self _ _)
    have ht : k ∉ keys t := fun hm => h (List.mem_cons_of_mem _ hm)
    unfold insert
    split_ifs with h1
    · simp
    · simp [ih ht]

theorem index_eq_getD [DecidableEq α] (m : OMap α β) (k : α) (d : β) :
    m.index k d = (m.find? k).getD d := rfl

theorem not_mem_keys_iff [DecidableEq α] (m : OMap α β) (k : α) :
    k ∉ m.keys ↔ m.find? k = none := by
  rw [mem_keys_iff]
  cases m.find? k <;> simp

end OMap

namespace SearchServer

theorem AddDocument.step_posting? (document_id : Int) (inv : ℚ) (s : SearchServer)
    (w0 w : Str) (d : Int) :
    (AddDocument.step document_id inv s w0).posting? w d =
      if w = w0 ∧ d = document_id then some ((s.posting? w0 document_id).getD 0 + inv)
      else s.posting? w d := by
  unfold posting? AddDocument.step
  simp only
  by_cases hw : w = w0
  · subst hw
    rw [OMap.index_insert_self]
    unfold OMap.addAt
    by_cases hd : d = document_id
    · subst hd
      simp [OMap.find?_insert_self, OMap.index_eq_getD]
    · simp [OMap.find?_insert_ne hd, hd]
  · rw [OMap.index_insert_ne hw]
    simp [hw]

theorem AddDocument.step_reverse? (document_id : Int) (inv : ℚ) (s : SearchServer)
    (w0 w : Str) (d : Int) :
    (AddDocument.step document_id inv s w0).reverse? d w =
      if w = w0 ∧ d = document_id then some ((s.reverse? document_id w0).getD 0 + inv)
      else s.reverse? d w := by
  unfold reverse? AddDocument.step
  simp only
  by_cases hd : d = document_id
  · subst hd
    rw [OMap.index_insert_self]
    unfold OMap.addAt
    by_cases hw : w = w0
    · subst hw
      simp only [OMap.find?_insert_self, and_self, if_true, OMap.index_eq_getD]
      congr!
    · simp [OMap.find?_insert_ne hw, hw]
  · rw [OMap.index_insert_ne hd]
    simp [hd]

/-- The postings after the word loop of `AddDocument`. -/
theorem AddDocument.fold_posting? (document_id : Int) (inv : ℚ) (ws : List Str)
    (s : SearchServer) (w : Str) (d : Int) :
    (ws.foldl (AddDocument.step document_id inv) s).posting? w d =
      if d = document_id ∧ w ∈ ws then
        some ((s.posting? w document_id).getD 0 + (ws.count w : ℚ) * inv)
      else s.posting? w d := by
  induction ws generalizing s with
  | nil => simp
  | cons w0 rest ih =>
    simp only [List.foldl_cons]
    rw [ih, AddDocument.step_posting?, AddDocument.step_posting?]
    by_cases hd : d = document_id
    · subst hd
      by_cases hw : w = w0
      · subst hw
        by_cases hr : w ∈ rest
        · simp only [hr, and_self, if_true, Option.getD_some, List.mem_cons, true_or,
            List.count_cons_self, Nat.cast_add, Nat.cast_one]
          congr 1
          ring
        · simp only [hr, and_false, if_false, and_self, if_true, List.mem_cons, true_or,
            List.count_cons_self, List.count_eq_zero_of_not_mem hr, Nat.cast_add, Nat.cast_zero,
            Nat.cast_one, zero_add, one_mul]
      · simp only [hw, false_and, if_false, true_and, List.mem_cons, false_or,
          List.count_cons_of_ne hw]
    · simp [hd]

/-- The reverse index after the word loop of `AddDocument`. -/
theorem AddDocument.fold_reverse? (document_id : Int) (inv : ℚ) (ws : List Str)
    (s : SearchServer) (w : Str) (d : Int) :
    (ws.foldl (AddDocument.step document_id inv) s).reverse? d w =
      if d = document_id ∧ w ∈ ws then
        some ((s.reverse? document_id w).getD 0 + (ws.count w : ℚ) * inv)
      else s.reverse? d w := by
  induction ws generalizing s with
  | nil => simp
  | cons w0 rest ih =>
    simp only [List.foldl_cons]
    rw [ih, AddDocument.step_reverse?, AddDocument.step_reverse?]
    by_cases hd : d = document_id
    · subst hd
      by_cases hw : w = w0
      · subst hw
        by_cases hr : w ∈ rest
        · simp only [hr, and_self, if_true, Option.getD_some, List.mem_cons, true_or,
            List.count_cons_self, Nat.cast_add, Nat.cast_one]
          congr 1
          ring
        · simp only [hr, and_false, if_false, and_self, if_true, List.mem_cons, true_or,
            List.count_cons_self, List.count_eq_zero_of_not_mem hr, Nat.cast_add, Nat.cast_zero,
            Nat.cast_one, zero_add, one_mul]
      · simp only [hw, false_and, if_false, true_and, List.mem_cons, false_or,
          List.count_cons_of_ne hw]
    · simp [hd]

end SearchServer

namespace SearchServer

theorem SplitIntoWordsNoStop.loop_stop_congr (s s' : SearchServer)
    (h : s.stop_words_ = s'.stop_words_) (tokens words : List Str) :
    SplitIntoWordsNoStop.loop s tokens words = SplitIntoWordsNoStop.loop s' tokens words := by
  induction tokens generalizing words with
  | nil => rfl
  | cons t rest ih =>
    unfold SplitIntoWordsNoStop.loop
    simp only [IsStopWord, h, ih]

theorem SplitIntoWordsNoStop_congr (s s' : SearchServer) (h : s.stop_words_ = s'.stop_words_)
    (text : Str) : s.SplitIntoWordsNoStop text = s'.SplitIntoWordsNoStop text :=
  SplitIntoWordsNoStop.loop_stop_congr s s' h _ _

theorem AddDocument.step_wf (document_id : Int) (inv : ℚ) (s : SearchServer) (w0 : Str)
    (h1 : s.word_to_document_freqs_.WF) (h2 : s.doc_to_word_freq.WF)
    (h3 : ∀ d freqs, s.doc_to_word_freq.find? d = some freqs → freqs.WF) :
    (AddDocument.step document_id inv s w0).word_to_document_freqs_.WF ∧
      (AddDocument.step document_id inv s w0).doc_to_word_freq.WF ∧
      ∀ d freqs, (AddDocument.step document_id inv s w0).doc_to_word_freq.find? d = some freqs →
        freqs.WF := by
  refine ⟨OMap.WF_insert _ _ h1, OMap.WF_insert _ _ h2, ?_⟩
  intro d freqs hf
  unfold AddDocument.step at hf
  simp only at hf
  by_cases hd : d = document_id
  · subst hd
    rw [OMap.find?_insert_self] at hf
    cases hf
    apply OMap.WF_insert
    unfold OMap.index
    cases hq : s.doc_to_word_freq.find? d with
    | none => exact OMap.WF_nil
    | some p => exact h3 d p hq
  · rw [OMap.find?_insert_ne hd] at hf
    exact h3 d freqs hf

theorem AddDocument.fold_wf (document_id : Int) (inv : ℚ) (ws : List Str) (s : SearchServer)
    (h1 : s.word_to_document_freqs_.WF) (h2 : s.doc_to_word_freq.WF)
    (h3 : ∀ d freqs, s.doc_to_word_freq.find? d = some freqs → freqs.WF) :
    (ws.foldl (AddDocument.step document_id inv) s).word_to_document_freqs_.WF ∧
      (ws.foldl (AddDocument.step document_id inv) s).doc_to_word_freq.WF ∧
      ∀ d freqs, (ws.foldl (AddDocument.step document_id inv) s).doc_to_word_freq.find? d =
        some freqs → freqs.WF := by
  induction ws generalizing s with
  | nil => exact ⟨h1, h2, h3⟩
  | cons w rest ih =>
    simp only [List.foldl_cons]
    obtain ⟨a, b, c⟩ := AddDocument.step_wf document_id inv s w h1 h2 h3
    exact ih _ a b c

/-- A fresh id has no entry in the reverse index. -/
theorem Inv.reverse?_fresh {s : SearchServer} (hi : Inv s) {document_id : Int}
    (hfresh : document_id ∉ s.documents_.keys) (w : Str) : s.reverse? document_id w = none := by
  have h1 : document_id ∉ s.doc_to_word_freq.keys :=
    fun h => hfresh (hi.live_doc _ (hi.rev_live _ h))
  unfold reverse? OMap.index
  rw [(OMap.not_mem_keys_iff _ _).mp h1]
  rfl

/-- The state after a successful `AddDocument`, given the words of the text. -/
theorem AddDocument_ok_eq (s : SearchServer) (document_id : Int) (document : Str)
    (status : DocumentStatus) (ratings : List Int) (words : List Str)
    (hid : ¬ document_id < 0) (hfresh : document_id ∉ s.documents_.keys)
    (hw : s.SplitIntoWordsNoStop document = .ok words) :
    s.AddDocument document_id document status ratings =
      (.ok (),
        { (words.foldl (AddDocument.step document_id (1 / (words.length : ℚ)))
            { s with documents_ := (s.documents_.insert document_id
              { rating := ComputeAverageRating ratings, status := status, text := document }) })
          with document_ids_ := s.document_ids_.insert document_id () }) := by
  have hc : s.documents_.count document_id = 0 := by
    by_contra h
    exact hfresh ((OMap.count_ne_zero_iff _ _).mp h)
  have hw' : SplitIntoWordsNoStop
      { s with documents_ := (s.documents_.insert document_id
          { rating := ComputeAverageRating ratings, status := status, text := document }) }
      document = .ok words := by
    rw [← hw]
    exact SplitIntoWordsNoStop_congr _ s (by rfl) _
  unfold AddDocument
  simp only [hid, if_false, OMap.emplace, hc, gt_iff_lt, lt_self_iff_false, OMap.at_,
    OMap.find?_insert_self, hw', (AddDocument.fold_documents document_id _ words _).2.1]

/-- The state after an `AddDocument` that fails on an invalid word. -/
theorem AddDocument_invalid_eq (s : SearchServer) (document_id : Int) (document : Str)
    (status : DocumentStatus) (ratings : List Int) (e : Error)
    (hid : ¬ document_id < 0) (hfresh : document_id ∉ s.documents_.keys)
    (hw : s.SplitIntoWordsNoStop document = .error e) :
    s.AddDocument document_id document status ratings =
      (.error e,
        { s with documents_ := (s.documents_.insert document_id
          { rating := ComputeAverageRating ratings, status := status, text := document }) }) := by
  have hc : s.documents_.count document_id = 0 := by
    by_contra h
    exact hfresh ((OMap.count_ne_zero_iff _ _).mp h)
  have hw' : SplitIntoWordsNoStop
      { s with documents_ := (s.documents_.insert document_id
          { rating := ComputeAverageRating ratings, status := status, text := document }) }
      document = .error e := by
    rw [← hw]
    exact SplitIntoWordsNoStop_congr _ s (by rfl) _
  unfold AddDocument
  simp only [hid, if_false, OMap.emplace, hc, gt_iff_lt, lt_self_iff_false, OMap.at_,
    OMap.find?_insert_self, hw']

/-- The three ways `AddDocument` ends. -/
theorem AddDocument_cases (s : SearchServer) (document_id : Int) (document : Str)
    (status : DocumentStatus) (ratings : List Int) :
    ((document_id < 0 ∨ document_id ∈ s.documents_.keys) ∧
        s.AddDocument document_id document status ratings = (.error .invalid_argument, s)) ∨
      (¬ document_id < 0 ∧ document_id ∉ s.documents_.keys ∧
        ∃ e, s.SplitIntoWordsNoStop document = .error e) ∨
      (¬ document_id < 0 ∧ document_id ∉ s.documents_.keys ∧
        ∃ words, s.SplitIntoWordsNoStop document = .ok words) := by
  by_cases h : document_id < 0 ∨ document_id ∈ s.documents_.keys
  · left
    refine ⟨h, ?_⟩
    unfold AddDocument
    rcases h with h | h
    · simp [h]
    · have : s.documents_.count document_id > 0 :=
        Nat.pos_of_ne_zero ((OMap.count_ne_zero_iff _ _).mpr h)
      simp [this]
  · push_neg at h
    right
    cases hw : s.SplitIntoWordsNoStop document with
    | error e => exact Or.inl ⟨not_lt.mpr h.1, h.2, e, rfl⟩
    | ok words => exact Or.inr ⟨not_lt.mpr h.1, h.2, words, rfl⟩

end SearchServer

namespace SearchServer

/-- Coherence after only a document record was inserted (an `AddDocument` that failed
on an invalid word). -/
theorem Coherent_insert_record (s : SearchServer) (hi : Inv s) (hc : Coherent s)
    (document_id : Int) (data : DocumentData) (hfresh : document_id ∉ s.documents_.keys) :
    Coherent { s with documents_ := s.documents_.insert document_id data } := by
  refine ⟨OMap.WF_insert _ _ hc.docs_wf, hc.ids_wf, hc.index_wf, hc.reverse_wf, hc.inner_wf,
    hc.same, ?_⟩
  intro d hd
  obtain ⟨data', words, h1, h2, h3⟩ := hc.text d hd
  have hne : d ≠ document_id := by
    intro e
    subst e
    exact hfresh (hi.live_doc _ hd)
  refine ⟨data', words, ?_, ?_, h3⟩
  · show (s.documents_.insert document_id data).find? d = some data'
    rw [OMap.find?_insert_ne hne]
    exact h1
  · rw [← h2]
    exact SplitIntoWordsNoStop_congr _ s (by rfl) _

theorem Coherent_AddDocument (s : SearchServer) (document_id : Int) (document : Str)
    (status : DocumentStatus) (ratings : List Int) (hi : Inv s) (hc : Coherent s) :
    Coherent (s.AddDocument document_id document status ratings).2 := by
  rcases AddDocument_cases s document_id document status ratings with
    ⟨_, h⟩ | ⟨hid, hfresh, e, hw⟩ | ⟨hid, hfresh, words, hw⟩
  · rw [h]
    exact hc
  · rw [AddDocument_invalid_eq s document_id document status ratings e hid hfresh hw]
    exact Coherent_insert_record s hi hc _ _ hfresh
  · rw [AddDocument_ok_eq s document_id document status ratings words hid hfresh hw]
    have hc1 := Coherent_insert_record s hi hc document_id
      { rating := ComputeAverageRating ratings, status := status, text := document } hfresh
    obtain ⟨w1, w2, w3⟩ := AddDocument.fold_wf document_id (1 / (words.length : ℚ)) words _
      hc1.index_wf hc1.reverse_wf hc1.inner_wf
    obtain ⟨f1, f2, f3⟩ := AddDocument.fold_documents document_id (1 / (words.length : ℚ)) words
      { s with documents_ := (s.documents_.insert document_id
        { rating := ComputeAverageRating ratings, status := status, text := document }) }
    refine ⟨?_, OMap.WF_insert _ _ hc.ids_wf, w1, w2, w3, ?_, ?_⟩
    · show OMap.WF (SearchServer.documents_ (List.foldl _ _ words))
      rw [f1]
      exact hc1.docs_wf
    · intro w d
      show SearchServer.posting? (List.foldl _ _ words) w d =
        SearchServer.reverse? (List.foldl _ _ words) d w
      rw [AddDocument.fold_posting?, AddDocument.fold_reverse?]
      have h0 := hc1.same w d
      have h1 := hc1.same w document_id
      rw [h0, h1]
    · intro d hd
      have hd' : d = document_id ∨ d ∈ s.document_ids_.keys :=
        (OMap.keys_insert_subset _ _ _ _).mp hd
      by_cases hne : d = document_id
      · subst hne
        refine ⟨{ rating := ComputeAverageRating ratings, status := status, text := document },
          words, ?_, ?_, ?_⟩
        · show OMap.find? (SearchServer.documents_ (List.foldl _ _ words)) d = _
          rw [f1]
          exact OMap.find?_insert_self _ _ _
        · exact (SplitIntoWordsNoStop_congr _ s (by exact f3) document).trans hw
        · intro w
          show SearchServer.reverse? (List.foldl _ _ words) d w = _
          rw [AddDocument.fold_reverse?]
          have hfr : SearchServer.reverse? { s with documents_ := (s.documents_.insert d
              { rating := ComputeAverageRating ratings, status := status, text := document }) }
              d w = none := hi.reverse?_fresh hfresh w
          rw [hfr]
          by_cases hm : w ∈ words
          · simp only [hm, and_self, if_true, Option.getD_none, zero_add, mul_one_div]
          · simp only [hm, and_false, if_false]
      · rcases hd' with h | h
        · exact absurd h hne
        · obtain ⟨data', words', h1, h2, h3⟩ := hc.text d h
          refine ⟨data', words', ?_, ?_, ?_⟩
          · show OMap.find? (SearchServer.documents_ (List.foldl _ _ words)) d = _
            rw [f1]
            show (s.documents_.insert document_id _).find? d = some data'
            rw [OMap.find?_insert_ne hne]
            exact h1
          · exact (SplitIntoWordsNoStop_congr _ s (by exact f3) data'.text).trans h2
          · intro w
            show SearchServer.reverse? (List.foldl _ _ words) d w = _
            rw [AddDocument.fold_reverse?]
            simp only [hne, false_and, if_false]
            exact h3 w

end SearchServer

namespace SearchServer

theorem RemoveDocument.loop_index (document_id : Int) (L : List (Str × ℚ))
    (index : OMap Str (OMap Int ℚ)) (w : Str) :
    (RemoveDocument.loop document_id L index).index w [] =
      if w ∈ OMap.keys L then (index.index w []).erase document_id else index.index w [] := by
  rw [OMap.index_eq_getD, RemoveDocument.loop_find?]
  split_ifs <;> rfl

theorem RemoveDocument.loop_WF (document_id : Int) (L : List (Str × ℚ))
    (index : OMap Str (OMap Int ℚ)) (h : index.WF) :
    (RemoveDocument.loop document_id L index).WF := by
  induction L generalizing index with
  | nil => exact h
  | cons p rest ih =>
    obtain ⟨str, x⟩ := p
    unfold RemoveDocument.loop
    exact ih _ (OMap.WF_insert _ _ h)

/-- The erasure loop depends on the set of words only. -/
theorem RemoveDocument.loop_words_congr (document_id : Int) (L L' : List (Str × ℚ))
    (index : OMap Str (OMap Int ℚ)) (h : index.WF)
    (hL : ∀ w, w ∈ OMap.keys L ↔ w ∈ OMap.keys L') :
    RemoveDocument.loop document_id L index = RemoveDocument.loop document_id L' index := by
  apply OMap.ext (RemoveDocument.loop_WF _ _ _ h) (RemoveDocument.loop_WF _ _ _ h)
  intro w
  rw [RemoveDocument.loop_find?, RemoveDocument.loop_find?]
  by_cases hw : w ∈ OMap.keys L
  · simp [hw, (hL w).mp hw]
  · have : w ∉ OMap.keys L' := fun h' => hw ((hL w).mpr h')
    simp [hw, this]

/-- No erasure task fails when every word is a key of the index. -/
theorem RemoveDocumentPar.loop_succeeds (document_id : Int) (order : List Str)
    (index : OMap Str (OMap Int ℚ)) (h : ∀ w ∈ order, w ∈ index.keys) :
    (RemoveDocumentPar.loop document_id order index).1 = .ok () := by
  induction order generalizing index with
  | nil => rfl
  | cons w rest ih =>
    unfold RemoveDocumentPar.loop
    have hw := h w (List.mem_cons_self _ _)
    obtain ⟨posting, hp⟩ := Option.isSome_iff_exists.mp ((OMap.mem_keys_iff _ _).mp hw)
    simp only [OMap.at_, hp]
    apply ih
    intro w' hw'
    exact (OMap.keys_insert_subset _ _ _ _).mpr (Or.inr (h w' (List.mem_cons_of_mem _ hw')))

/-- Every word recorded for a document in the reverse index is a key of the inverted
index. -/
theorem Coherent.word_key {s : SearchServer} (hc : Coherent s) {d : Int} {w : Str}
    (h : w ∈ (s.doc_to_word_freq.index d []).keys) : w ∈ s.word_to_document_freqs_.keys := by
  have h1 : (s.reverse? d w).isSome = true := (OMap.mem_keys_iff _ _).mp h
  rw [← hc.same] at h1
  have h2 : d ∈ (s.word_to_document_freqs_.index w []).keys := (OMap.mem_keys_iff _ _).mpr h1
  have h3 := OMap.find?_of_mem_index_keys h2
  exact (OMap.mem_keys_iff _ _).mpr (by rw [h3]; rfl)

/-- On a reachable store the parallel `RemoveDocument` is the sequential one. -/
theorem RemoveDocumentPar_eq (s : SearchServer) (hc : Coherent s) (document_id : Int)
    (order : List Str) (horder : order.Perm (s.removalWords document_id)) :
    s.RemoveDocumentPar document_id order = s.RemoveDocument document_id := by
  unfold RemoveDocumentPar RemoveDocument
  split_ifs with h0
  · rfl
  · cases hf : s.doc_to_word_freq.find? document_id with
    | none => simp only [OMap.at_, hf]
    | some L =>
      have hidx : s.doc_to_word_freq.index document_id [] = L := OMap.index_of_find? [] hf
      have hkeys : ∀ w ∈ order, w ∈ s.word_to_document_freqs_.keys := by
        intro w hw
        have : w ∈ (s.doc_to_word_freq.index document_id []).keys := horder.mem_iff.mp hw
        exact hc.word_key this
      have hok := RemoveDocumentPar.loop_succeeds document_id order _ hkeys
      obtain ⟨pre, h1, h2⟩ := RemoveDocumentPar.loop_eq document_id order
        s.word_to_document_freqs_
      have hpre := h2 hok
      subst hpre
      have h3 : RemoveDocument.loop document_id (pre.map (fun w => (w, (0 : ℚ))))
          s.word_to_document_freqs_ =
          RemoveDocument.loop document_id L s.word_to_document_freqs_ := by
        apply RemoveDocument.loop_words_congr _ _ _ _ hc.index_wf
        intro w
        rw [keys_map_pair, horder.mem_iff]
        unfold removalWords
        rw [hidx]
      have h4 : RemoveDocumentPar.loop document_id pre s.word_to_document_freqs_ =
          (.ok (), RemoveDocument.loop document_id L s.word_to_document_freqs_) := by
        apply Prod.ext
        · exact hok
        · rw [h1, h3]
      simp only [OMap.at_, hf, h4]

theorem Coherent_RemoveDocument (s : SearchServer) (document_id : Int) (hc : Coherent s) :
    Coherent (s.RemoveDocument document_id).2 := by
  unfold RemoveDocument
  split_ifs with h0
  · exact hc
  · cases hf : s.doc_to_word_freq.find? document_id with
    | none =>
      simp only [OMap.at_, hf]
      exact hc
    | some L =>
      simp only [OMap.at_, hf]
      have hidx : s.doc_to_word_freq.index document_id [] = L := OMap.index_of_find? [] hf
      refine ⟨OMap.WF_erase _ hc.docs_wf, OMap.WF_erase _ hc.ids_wf,
        RemoveDocument.loop_WF _ _ _ hc.index_wf, OMap.WF_erase _ hc.reverse_wf, ?_, ?_, ?_⟩
      · intro d freqs hd
        by_cases hne : d = document_id
        · subst hne
          rw [OMap.find?_erase_self] at hd
          cases hd
        · rw [OMap.find?_erase_ne hne] at hd
          exact hc.inner_wf d freqs hd
      · intro w d
        show ((RemoveDocument.loop document_id L s.word_to_document_freqs_).index w []).find? d =
          ((s.doc_to_word_freq.erase document_id).index d []).find? w
        rw [RemoveDocument.loop_index]
        by_cases hd : d = document_id
        · subst hd
          have hr : ((s.doc_to_word_freq.erase d).index d []) = [] := by
            rw [OMap.index_eq_getD, OMap.find?_erase_self]
            rfl
          rw [hr]
          split_ifs with hw
          · rw [OMap.find?_erase_self]
            rfl
          · have h1 := hc.same w d
            unfold posting? reverse? at h1
            rw [h1, hidx]
            have := (OMap.not_mem_keys_iff L w).mp hw
            rw [this]
            rfl
        · rw [OMap.index_erase_ne hd]
          have h1 := hc.same w d
          unfold posting? reverse? at h1
          split_ifs
          · rw [OMap.find?_erase_ne hd]
            exact h1
          · exact h1
      · intro d hd
        obtain ⟨hne, hmem⟩ := (OMap.keys_erase _ _ _).mp hd
        obtain ⟨data, words, h1, h2, h3⟩ := hc.text d hmem
        refine ⟨data, words, ?_, ?_, ?_⟩
        · show (s.documents_.erase document_id).find? d = some data
          rw [OMap.find?_erase_ne hne]
          exact h1
        · exact (SplitIntoWordsNoStop_congr _ s (by rfl) data.text).trans h2
        · intro w
          show ((s.doc_to_word_freq.erase document_id).index d []).find? w = _
          rw [OMap.index_erase_ne hne]
          exact h3 w

/-- Every reachable store is coherent. -/
theorem Reachable.coherent {s : SearchServer} (h : Reachable s) : Coherent s := by
  induction h with
  | init stop_words =>
    refine ⟨OMap.WF_nil, OMap.WF_nil, OMap.WF_nil, OMap.WF_nil, ?_, ?_, ?_⟩
    · intro d freqs hf
      simp [SearchServer.init, OMap.find?] at hf
    · intro w d
      rfl
    · intro d hd
      exact absurd hd (List.not_mem_nil d)
  | add s document_id document status ratings hs ih =>
    exact Coherent_AddDocument _ _ _ _ _ hs.inv ih
  | remove s document_id _ ih => exact Coherent_RemoveDocument _ _ ih
  | remove_par s document_id order _ horder ih =>
    rw [RemoveDocumentPar_eq s ih document_id order horder]
    exact Coherent_RemoveDocument _ _ ih

end SearchServer

/-! ## Lockstep of the indices, parallel removal, term frequencies -/

namespace SearchServer

theorem posting?_eq_some_iff (s : SearchServer) (w : Str) (d : Int) (f : ℚ) :
    s.posting? w d = some f ↔
      ∃ posting, s.word_to_document_freqs_.find? w = some posting ∧ posting.find? d = some f := by
  unfold posting? OMap.index
  cases s.word_to_document_freqs_.find? w with
  | none => simp [OMap.find?]
  | some p => simp

theorem reverse?_eq_some_iff (s : SearchServer) (d : Int) (w : Str) (f : ℚ) :
    s.reverse? d w = some f ↔
      ∃ freqs, s.doc_to_word_freq.find? d = some freqs ∧ freqs.find? w = some f := by
  unfold reverse? OMap.index
  cases s.doc_to_word_freq.find? d with
  | none => simp [OMap.find?]
  | some p => simp

/-- Lockstep of the indices with the keys read by value (the source departs from it once
a key dangles, see `TrackedServer.dangling` and `TrackedServer.catStore`): in every store
state reachable from construction by `AddDocument` and
`RemoveDocument` calls (sequential or parallel, succeeding or failing) the two indices are
in lockstep: the inverted index holds a posting word -> id -> f exactly when the reverse
index holds id -> word -> f, with the same f; so every word recorded for a document in
the reverse index is a key of the inverted index. -/
theorem index_lockstep (s : SearchServer) (h : Reachable s) :
    (∀ w d f,
      (∃ posting, s.word_to_document_freqs_.find? w = some posting ∧
          posting.find? d = some f) ↔
        (∃ freqs, s.doc_to_word_freq.find? d = some freqs ∧ freqs.find? w = some f)) ∧
      ∀ d freqs w, s.doc_to_word_freq.find? d = some freqs → w ∈ freqs.keys →
        w ∈ s.word_to_document_freqs_.keys := by
  have hc := h.coherent
  constructor
  · intro w d f
    rw [← posting?_eq_some_iff, ← reverse?_eq_some_iff, hc.same]
  · intro d freqs w hf hw
    apply hc.word_key (d := d)
    rw [OMap.index_of_find? [] hf]
    exact hw

theorem index_lockstep_witness :
    Reachable demo ∧
      ((∀ w d f,
        (∃ posting, demo.word_to_document_freqs_.find? w = some posting ∧
            posting.find? d = some f) ↔
          (∃ freqs, demo.doc_to_word_freq.find? d = some freqs ∧ freqs.find? w = some f)) ∧
        ∀ d freqs w, demo.doc_to_word_freq.find? d = some freqs → w ∈ freqs.keys →
          w ∈ demo.word_to_document_freqs_.keys) :=
  ⟨Reachable.add _ 2 _ _ _ (Reachable.add _ 1 _ _ _ (Reachable.init _)),
    index_lockstep demo (Reachable.add _ 2 _ _ _ (Reachable.add _ 1 _ _ _ (Reachable.init _)))⟩

/-- Parallel and sequential removal with the keys read by value (the source departs from
it once a key dangles, see `TrackedServer.dangling` and `TrackedServer.reusedKeyStore`): on
every reachable store and for every id, live or absent, the parallel
`RemoveDocument` ends with the same outcome (success or the same exception) and leaves
the same store as the sequential `RemoveDocument`, whatever the order in which the
per-word erasures take effect. -/
theorem RemoveDocument_par_eq_seq (s : SearchServer) (h : Reachable s) (document_id : Int)
    (order : List Str) (horder : order.Perm (s.removalWords document_id)) :
    s.RemoveDocumentPar document_id order = s.RemoveDocument document_id :=
  RemoveDocumentPar_eq s h.coherent document_id order horder

theorem RemoveDocument_par_eq_seq_witness :
    Reachable demo ∧
      ["dog".toList, "cat".toList].Perm (demo.removalWords 1) ∧
      demo.RemoveDocumentPar 1 ["dog".toList, "cat".toList] = demo.RemoveDocument 1 :=
  ⟨Reachable.add _ 2 _ _ _ (Reachable.add _ 1 _ _ _ (Reachable.init _)), by decide,
    RemoveDocument_par_eq_seq demo
      (Reachable.add _ 2 _ _ _ (Reachable.add _ 1 _ _ _ (Reachable.init _))) 1
      ["dog".toList, "cat".toList] (by decide)⟩

theorem SplitIntoWordsNoStop.loop_words (s : SearchServer) (tokens acc words : List Str)
    (h : SplitIntoWordsNoStop.loop s tokens acc = .ok words) :
    words = acc ++ tokens.filter (fun t => !s.IsStopWord t) := by
  induction tokens generalizing acc with
  | nil =>
    simp only [SplitIntoWordsNoStop.loop, Except.ok.injEq] at h
    simp [h]
  | cons t rest ih =>
    unfold SplitIntoWordsNoStop.loop at h
    split_ifs at h with h1 h2
    · rw [ih _ h]
      simp [List.filter_cons, h2]
    · rw [ih _ h]
      have : s.IsStopWord t = true := by simpa using h2
      simp [List.filter_cons, this]

/-- The words `AddDocument` indexes are the tokens of the text that are not stop words. -/
theorem SplitIntoWordsNoStop_ok (s : SearchServer) (text : Str) (words : List Str)
    (h : s.SplitIntoWordsNoStop text = .ok words) :
    words = (SplitIntoWordsView text).filter (fun t => !s.IsStopWord t) := by
  have := SplitIntoWordsNoStop.loop_words s _ _ _ h
  simpa using this

theorem GetWordFrequencies_find? (s : SearchServer) (d : Int) (w : Str) :
    (s.GetWordFrequencies d).find? w = s.reverse? d w := by
  unfold GetWordFrequencies reverse? OMap.index
  cases hf : s.doc_to_word_freq.find? d with
  | none => simp [(OMap.count_eq_zero_iff _ _).mpr hf]
  | some freqs =>
    have : ¬ s.doc_to_word_freq.count d = 0 := by
      rw [OMap.count_eq_zero_iff, hf]
      simp
    simp [this]

/-- The frequencies recorded for a live document of a reachable store. -/
theorem Reachable.frequencies {s : SearchServer} (h : Reachable s) {d : Int}
    (hd : d ∈ s.ids) :
    ∃ data, s.documents_.find? d = some data ∧
      ∀ w, (s.GetWordFrequencies d).find? w =
        if w ∈ (SplitIntoWordsView data.text).filter (fun t => !s.IsStopWord t) then
          some ((((SplitIntoWordsView data.text).filter (fun t => !s.IsStopWord t)).count w : ℚ) /
            (((SplitIntoWordsView data.text).filter (fun t => !s.IsStopWord t)).length : ℚ))
        else none := by
  obtain ⟨data, words, h1, h2, h3⟩ := h.coherent.text d hd
  have hw := SplitIntoWordsNoStop_ok s _ _ h2
  subst hw
  exact ⟨data, h1, fun w => by rw [GetWordFrequencies_find?, h3 w]⟩

/-- What a successful `AddDocument` tells about its arguments and its final state. -/
theorem AddDocument_ok_inv (s : SearchServer) (document_id : Int) (document : Str)
    (status : DocumentStatus) (ratings : List Int) (s' : SearchServer)
    (h : s.AddDocument document_id document status ratings = (.ok (), s')) :
    ¬ document_id < 0 ∧ document_id ∉ s.documents_.keys ∧
      (∃ words, s.SplitIntoWordsNoStop document = .ok words) ∧
      s'.stop_words_ = s.stop_words_ ∧ document_id ∈ s'.ids := by
  rcases AddDocument_cases s document_id document status ratings with
    ⟨_, h'⟩ | ⟨hid, hfresh, e, hw⟩ | ⟨hid, hfresh, words, hw⟩
  · rw [h'] at h
    cases h
  · rw [AddDocument_invalid_eq s document_id document status ratings e hid hfresh hw] at h
    cases h
  · refine ⟨hid, hfresh, ⟨words, hw⟩, ?_⟩
    rw [AddDocument_ok_eq s document_id document status ratings words hid hfresh hw] at h
    cases h
    refine ⟨(AddDocument.fold_documents document_id _ words _).2.2, ?_⟩
    exact (OMap.keys_insert_subset _ _ _ _).mpr (Or.inl rfl)

end SearchServer

namespace SearchServer

theorem SplitIntoWordsNoStop.loop_valid (s : SearchServer) (tokens acc : List Str)
    (h : ∀ t ∈ tokens, IsValidWord t = true) :
    SplitIntoWordsNoStop.loop s tokens acc =
      .ok (acc ++ tokens.filter (fun t => !s.IsStopWord t)) := by
  induction tokens generalizing acc with
  | nil => simp [SplitIntoWordsNoStop.loop]
  | cons t rest ih =>
    have ht := h t (List.mem_cons_self _ _)
    have hr : ∀ t ∈ rest, IsValidWord t = true := fun t' ht' => h t' (List.mem_cons_of_mem _ ht')
    unfold SplitIntoWordsNoStop.loop
    cases hst : s.IsStopWord t with
    | true => simp [ht, hst, ih _ hr, List.filter_cons]
    | false => simp [ht, hst, ih _ hr, List.filter_cons]

/-- C12: for every document successfully added to a reachable store and every word w,
`GetWordFrequencies(id)` records for w the number of occurrences of w in the token stream
of the document divided by the number of tokens of the stream, where the stream is the
space-delimited tokens of the text without the stop words; a word that does not occur in
the stream has no entry. The same holds for every live document of a reachable store and
the text of its record. `AddDocument` succeeds whenever the id is not negative and has no
record and every token of the text is a valid word. -/
theorem GetWordFrequencies_spec (s : SearchServer) (hs : Reachable s) :
    (∀ (document_id : Int) (document : Str) (status : DocumentStatus) (ratings : List Int)
        (s' : SearchServer),
        s.AddDocument document_id document status ratings = (.ok (), s') →
        ∀ w, (s'.GetWordFrequencies document_id).find? w =
          if w ∈ (SplitIntoWordsView document).filter (fun t => !s.IsStopWord t) then
            some ((((SplitIntoWordsView document).filter (fun t => !s.IsStopWord t)).count w : ℚ) /
              (((SplitIntoWordsView document).filter (fun t => !s.IsStopWord t)).length : ℚ))
          else none) ∧
      (∀ d ∈ s.ids, ∃ data, s.documents_.find? d = some data ∧
        ∀ w, (s.GetWordFrequencies d).find? w =
          if w ∈ (SplitIntoWordsView data.text).filter (fun t => !s.IsStopWord t) then
            some ((((SplitIntoWordsView data.text).filter (fun t => !s.IsStopWord t)).count w : ℚ) /
              (((SplitIntoWordsView data.text).filter (fun t => !s.IsStopWord t)).length : ℚ))
          else none) ∧
      ∀ (document_id : Int) (document : Str) (status : DocumentStatus) (ratings : List Int),
        0 ≤ document_id → document_id ∉ s.documents_.keys →
        (∀ t ∈ SplitIntoWordsView document, IsValidWord t = true) →
        ∃ s', s.AddDocument document_id document status ratings = (.ok (), s') := by
  refine ⟨?_, fun d hd => hs.frequencies hd, ?_⟩
  swap
  · intro document_id document status ratings hid hfresh hvalid
    have hw : s.SplitIntoWordsNoStop document =
        .ok ((SplitIntoWordsView document).filter (fun t => !s.IsStopWord t)) := by
      have := SplitIntoWordsNoStop.loop_valid s (SplitIntoWordsView document) [] hvalid
      simpa using this
    exact ⟨_, AddDocument_ok_eq s document_id document status ratings _ (not_lt.mpr hid)
      hfresh hw⟩
  intro document_id document status ratings s' h
  have hr : Reachable s' := by
    have := Reachable.add s document_id document status ratings hs
    rw [h] at this
    exact this
  obtain ⟨_, _, _, hstop, hlive⟩ := AddDocument_ok_inv s document_id document status ratings s' h
  obtain ⟨data, h1, h2⟩ := hr.frequencies hlive
  rw [AddDocument_ok_record s document_id document status ratings s' h] at h1
  cases h1
  have hst : ∀ t, s'.IsStopWord t = s.IsStopWord t := by
    intro t
    simp only [IsStopWord, hstop]
  simpa only [hst] using h2

theorem GetWordFrequencies_spec_witness :
    (init ["in".toList]).AddDocument 7 "a in b a".toList .ACTUAL [] =
        (.ok (), ((init ["in".toList]).AddDocument 7 "a in b a".toList .ACTUAL []).2) ∧
      ((init ["in".toList]).AddDocument 7 "a in b a".toList .ACTUAL []).2.GetWordFrequencies 7 =
        [("a".toList, 2 / 3), ("b".toList, 1 / 3)] ∧
      (∀ w, (((init ["in".toList]).AddDocument 7 "a in b a".toList .ACTUAL
          []).2.GetWordFrequencies 7).find? w =
        if w ∈ (SplitIntoWordsView "a in b a".toList).filter
            (fun t => !(init ["in".toList]).IsStopWord t) then
          some ((((SplitIntoWordsView "a in b a".toList).filter
              (fun t => !(init ["in".toList]).IsStopWord t)).count w : ℚ) /
            (((SplitIntoWordsView "a in b a".toList).filter
              (fun t => !(init ["in".toList]).IsStopWord t)).length : ℚ))
        else none) ∧
      (2 : Int) ∈ demo.ids ∧
      demo.GetWordFrequencies 2 = [("cat".toList, 1 / 2), ("hat".toList, 1 / 2)] ∧
      (∃ data, demo.documents_.find? 2 = some data ∧
        ∀ w, (demo.GetWordFrequencies 2).find? w =
          if w ∈ (SplitIntoWordsView data.text).filter (fun t => !demo.IsStopWord t) then
            some ((((SplitIntoWordsView data.text).filter
                (fun t => !demo.IsStopWord t)).count w : ℚ) /
              (((SplitIntoWordsView data.text).filter
                (fun t => !demo.IsStopWord t)).length : ℚ))
          else none) ∧
      (∃ s', (init ["in".toList]).AddDocument 7 "a in b a".toList .ACTUAL [] = (.ok (), s')) :=
  ⟨by rfl, by with_unfolding_all rfl,
    (GetWordFrequencies_spec (init ["in".toList]) (Reachable.init _)).1 7 "a in b a".toList
      .ACTUAL [] _ (by rfl),
    by decide, by with_unfolding_all rfl,
    (GetWordFrequencies_spec demo
      (Reachable.add _ 2 _ _ _ (Reachable.add _ 1 _ _ _ (Reachable.init _)))).2.1 2
      (by decide),
    (GetWordFrequencies_spec (init ["in".toList]) (Reachable.init _)).2.2 7
      "a in b a".toList .ACTUAL [] (by decide) (by decide) (by decide)⟩

theorem Reachable.GetWordFrequencies_WF {s : SearchServer} (h : Reachable s) (d : Int) :
    (s.GetWordFrequencies d).WF := by
  unfold GetWordFrequencies
  split_ifs
  · exact OMap.WF_nil
  · cases hf : s.doc_to_word_freq.find? d with
    | none => exact OMap.WF_nil
    | some freqs => exact h.coherent.inner_wf d freqs hf

/-- The values of a map in key order whose entries are the counts of the words of a
non-empty list, divided by its length, add up to 1. -/
theorem sum_frequencies (m : OMap Str ℚ) (hm : m.WF) (words : List Str) (hne : words ≠ [])
    (h : ∀ w, m.find? w =
      if w ∈ words then some ((words.count w : ℚ) / (words.length : ℚ)) else none) :
    (m.map Prod.snd).sum = 1 := by
  have hval : ∀ p ∈ m, p.2 = (words.count p.1 : ℚ) / (words.length : ℚ) := by
    intro p hp
    have hf := OMap.find?_of_mem hm (show (p.1, p.2) ∈ m from hp)
    rw [h p.1] at hf
    split_ifs at hf
    exact (Option.some.inj hf).symm
  have h1 : m.map Prod.snd = m.keys.map (fun w => (words.count w : ℚ) / (words.length : ℚ)) := by
    unfold OMap.keys
    rw [List.map_map]
    exact List.map_congr_left hval
  have hperm : m.keys.Perm words.dedup := by
    apply (List.perm_ext_iff_of_nodup (OMap.WF_nodup hm) (List.nodup_dedup _)).mpr
    intro w
    rw [OMap.mem_keys_iff, h w, List.mem_dedup]
    split_ifs with hw <;> simp [hw]
  have hlen : (words.length : ℚ) ≠ 0 := by
    have : words.length ≠ 0 := fun e => hne (List.length_eq_zero.mp e)
    exact_mod_cast this
  rw [h1, (hperm.map _).sum_eq]
  have h2 : (words.dedup.map (fun w => (words.count w : ℚ) / (words.length : ℚ))).sum =
      ((words.dedup.map (fun w => words.count w)).sum : ℚ) / (words.length : ℚ) := by
    rw [Nat.cast_list_sum, List.map_map]
    simp only [div_eq_mul_inv]
    rw [← List.sum_map_mul_right]
    rfl
  have h3 : (words.dedup.map (fun w => words.count w)).sum = words.length := by
    convert List.sum_map_count_dedup_eq_length words
  rw [h2, h3, div_self hlen]

/-- C13 (as amended): for every document successfully added to a reachable store whose
text has at least one token that is not a stop word, the term frequencies in
`GetWordFrequencies(id)` add up to 1 over its distinct words. -/
theorem frequencies_sum_one (s : SearchServer) (hs : Reachable s) (document_id : Int)
    (document : Str) (status : DocumentStatus) (ratings : List Int) (s' : SearchServer)
    (h : s.AddDocument document_id document status ratings = (.ok (), s'))
    (hne : (SplitIntoWordsView document).filter (fun t => !s.IsStopWord t) ≠ []) :
    ((s'.GetWordFrequencies document_id).map Prod.snd).sum = 1 := by
  have hr : Reachable s' := by
    have := Reachable.add s document_id document status ratings hs
    rw [h] at this
    exact this
  obtain ⟨_, _, _, hstop, hlive⟩ := AddDocument_ok_inv s document_id document status ratings s' h
  obtain ⟨data, h1, h2⟩ := hr.frequencies hlive
  rw [AddDocument_ok_record s document_id document status ratings s' h] at h1
  cases h1
  have hst : ∀ t, s'.IsStopWord t = s.IsStopWord t := by
    intro t
    simp only [IsStopWord, hstop]
  simp only [hst] at h2
  exact sum_frequencies _ (hr.GetWordFrequencies_WF document_id) _ hne h2

theorem frequencies_sum_one_witness :
    Reachable (init []) ∧
      (init []).AddDocument 7 "a b a".toList .ACTUAL [] =
        (.ok (), ((init []).AddDocument 7 "a b a".toList .ACTUAL []).2) ∧
      (SplitIntoWordsView "a b a".toList).filter (fun t => !(init []).IsStopWord t) ≠ [] ∧
      ((init []).AddDocument 7 "a b a".toList .ACTUAL []).2.GetWordFrequencies 7 =
        [("a".toList, 2 / 3), ("b".toList, 1 / 3)] ∧
      ((((init []).AddDocument 7 "a b a".toList .ACTUAL []).2.GetWordFrequencies 7).map
        Prod.snd).sum = 1 :=
  ⟨Reachable.init _, by rfl, by decide, by with_unfolding_all rfl,
    frequencies_sum_one (init []) (Reachable.init _) 7 "a b a".toList .ACTUAL [] _ (by rfl)
      (by decide)⟩

/-- C13, the claim at the input where it fails: the empty text is added successfully,
`GetWordFrequencies` of the document is the empty mapping, and the sum of its term
frequencies is 0, not 1. -/
theorem frequencies_sum_empty_text :
    ((init []).AddDocument 1 [] .ACTUAL []).1 = .ok () ∧
      ((init []).AddDocument 1 [] .ACTUAL []).2.GetWordFrequencies 1 = [] ∧
      ¬ (((((init []).AddDocument 1 [] .ACTUAL []).2.GetWordFrequencies 1).map
        Prod.snd).sum = 1) := by
  refine ⟨by rfl, by rfl, ?_⟩
  have h : ((init []).AddDocument 1 [] .ACTUAL []).2.GetWordFrequencies 1 = [] := by rfl
  rw [h]
  norm_num

end SearchServer

/-! ## Observations depend on the postings only -/

namespace SearchServer

theorem ParseQueryWord_congr (s s' : SearchServer) (h : s.stop_words_ = s'.stop_words_)
    (t : Str) : s.ParseQueryWord t = s'.ParseQueryWord t := by
  unfold ParseQueryWord
  simp only [IsStopWord, h]

theorem ParseQuery.loop_query_congr (s s' : SearchServer) (h : s.stop_words_ = s'.stop_words_)
    (tokens : List Str) (q : Query) :
    ParseQuery.loop s tokens q = ParseQuery.loop s' tokens q := by
  induction tokens generalizing q with
  | nil => rfl
  | cons t rest ih =>
    unfold ParseQuery.loop
    rw [ParseQueryWord_congr s s' h]
    simp only [ih]

theorem ParseQuery_congr (s s' : SearchServer) (h : s.stop_words_ = s'.stop_words_)
    (text : Str) (b : Bool) : s.ParseQuery text b = s'.ParseQuery text b := by
  unfold ParseQuery
  rw [ParseQuery.loop_query_congr s s' h]

theorem hasWord_congr (s s' : SearchServer)
    (h : ∀ w, s.word_to_document_freqs_.index w [] = s'.word_to_document_freqs_.index w [])
    (w : Str) (d : Int) : s.hasWord w d = s'.hasWord w d := by
  unfold hasWord
  rw [h w]

/-- The sequential `MatchDocument` depends on the stop words, the document records and
the posting maps only. -/
theorem MatchDocument_congr (s s' : SearchServer) (hstop : s.stop_words_ = s'.stop_words_)
    (hdocs : s.documents_ = s'.documents_)
    (h : ∀ w, s.word_to_document_freqs_.index w [] = s'.word_to_document_freqs_.index w [])
    (raw_query : Str) (document_id : Int) :
    s.MatchDocument raw_query document_id = s'.MatchDocument raw_query document_id := by
  unfold MatchDocument
  simp only [MatchDocument.minusLoop_eq, MatchDocument.plusLoop_eq, hdocs,
    ParseQuery_congr s s' hstop, hasWord_congr s s' h]

variable {K : Type} [LinearOrderedField K]

theorem accepts_congr (s s' : SearchServer) (hdocs : s.documents_ = s'.documents_)
    (pred : DocumentPredicate) (d : Int) : s.accepts pred d = s'.accepts pred d := by
  unfold accepts
  rw [hdocs]

theorem FindAllDocuments.collect_congr (s s' : SearchServer) (hdocs : s.documents_ = s'.documents_)
    (entries : List (Int × K)) (out : List (Document K)) :
    FindAllDocuments.collect s entries out = FindAllDocuments.collect s' entries out := by
  induction entries generalizing out with
  | nil => rfl
  | cons p rest ih =>
    obtain ⟨d, rel⟩ := p
    unfold FindAllDocuments.collect
    rw [hdocs]
    simp only [ih]

/-- The sequential `FindAllDocuments` depends on the document records and the posting
maps only. -/
theorem FindAllDocuments_congr (s s' : SearchServer) (hs : Inv s) (hs' : Inv s')
    (hdocs : s.documents_ = s'.documents_)
    (h : ∀ w, s.word_to_document_freqs_.index w [] = s'.word_to_document_freqs_.index w [])
    (ln : ℚ → K) (q : Query) (pred : DocumentPredicate) :
    s.FindAllDocuments ln q pred = s'.FindAllDocuments ln q pred := by
  obtain ⟨a, a1, a2, a3⟩ := FindAllDocuments.plusLoop_spec s hs ln pred q.plus_words []
  obtain ⟨a', a1', a2', a3'⟩ := FindAllDocuments.plusLoop_spec s' hs' ln pred q.plus_words []
  have hw : ∀ d, (fun w => s.hasWord w d) = (fun w => s'.hasWord w d) := by
    intro d
    funext w
    exact hasWord_congr s s' h w d
  have htf : ∀ w d, s.termFreq w d = s'.termFreq w d := by
    intro w d
    unfold termFreq
    rw [h w]
  have hdf : ∀ w, s.docFreq w = s'.docFreq w := by
    intro w
    unfold docFreq
    rw [h w]
  have hcount : s.GetDocumentCount = s'.GetDocumentCount := by
    unfold GetDocumentCount
    rw [hdocs]
  have ha : a = a' := by
    apply OMap.ext (a2 OMap.WF_nil) (a2' OMap.WF_nil)
    intro d
    rw [a3 d, a3' d]
    simp only [hw d, htf, hdf, hcount, accepts_congr s s' hdocs]
  subst ha
  obtain ⟨b, b1, b2, b3⟩ := FindAllDocuments.minusLoop_spec s q.minus_words a
  obtain ⟨b', b1', b2', b3'⟩ := FindAllDocuments.minusLoop_spec s' q.minus_words a
  have hb : b = b' := by
    apply OMap.ext (b2 (a2 OMap.WF_nil)) (b2' (a2 OMap.WF_nil))
    intro d
    rw [b3 d, b3' d, hw d]
  subst hb
  unfold FindAllDocuments
  simp only [a1, a1', b1, b1', FindAllDocuments.collect_congr s s' hdocs]

theorem FindTopDocuments_seq_congr (s s' : SearchServer) (hs : Inv s) (hs' : Inv s')
    (hstop : s.stop_words_ = s'.stop_words_) (hdocs : s.documents_ = s'.documents_)
    (h : ∀ w, s.word_to_document_freqs_.index w [] = s'.word_to_document_freqs_.index w [])
    (ln : ℚ → K) (raw_query : Str) (pred : DocumentPredicate) :
    s.FindTopDocuments ln .seq raw_query pred = s'.FindTopDocuments ln .seq raw_query pred := by
  unfold FindTopDocuments
  rw [ParseQuery_congr s s' hstop]
  simp only [FindAllDocuments_congr s s' hs hs' hdocs h]

end SearchServer

/-! ## Adding and removing a document -/

namespace SearchServer

theorem RemoveDocument_ok_eq (s : SearchServer) (document_id : Int) (L : OMap Str ℚ)
    (hlive : document_id ∈ s.document_ids_.keys)
    (hf : s.doc_to_word_freq.find? document_id = some L) :
    s.RemoveDocument document_id =
      (.ok (),
        { s with
          word_to_document_freqs_ :=
            RemoveDocument.loop document_id L s.word_to_document_freqs_
          doc_to_word_freq := s.doc_to_word_freq.erase document_id
          documents_ := s.documents_.erase document_id
          document_ids_ := s.document_ids_.erase document_id }) := by
  have hc : ¬ s.document_ids_.count document_id = 0 := (OMap.count_ne_zero_iff _ _).mpr hlive
  unfold RemoveDocument
  simp only [hc, if_false, OMap.at_, hf]

theorem AddDocument.fold_reverse_find? (document_id : Int) (inv : ℚ) (ws : List Str)
    (s : SearchServer) (d : Int) (hd : d ≠ document_id) :
    (ws.foldl (AddDocument.step document_id inv) s).doc_to_word_freq.find? d =
      s.doc_to_word_freq.find? d := by
  induction ws generalizing s with
  | nil => rfl
  | cons w rest ih =>
    simp only [List.foldl_cons]
    rw [ih]
    exact OMap.find?_insert_ne hd _ _

theorem AddDocument.fold_index_erase (document_id : Int) (inv : ℚ) (ws : List Str)
    (s : SearchServer) (w : Str) :
    ((ws.foldl (AddDocument.step document_id inv) s).word_to_document_freqs_.index w []).erase
        document_id =
      (s.word_to_document_freqs_.index w []).erase document_id := by
  induction ws generalizing s with
  | nil => rfl
  | cons w0 rest ih =>
    simp only [List.foldl_cons]
    rw [ih]
    unfold AddDocument.step
    simp only
    by_cases hw : w = w0
    · subst hw
      rw [OMap.index_insert_self]
      exact OMap.erase_insert _ _ _
    · rw [OMap.index_insert_ne hw]

/-- A fresh id has no posting. -/
theorem Inv.posting_fresh {s : SearchServer} (hi : Inv s) {document_id : Int}
    (hfresh : document_id ∉ s.documents_.keys) (w : Str) :
    document_id ∉ (s.word_to_document_freqs_.index w []).keys := by
  intro h
  obtain ⟨data, hd⟩ := hi.posting_doc (OMap.find?_of_mem_index_keys h) h
  exact hfresh ((OMap.mem_keys_iff _ _).mpr (by rw [hd]; rfl))

/-- The store after a successful `AddDocument` of a text with at least one indexed word,
followed by `RemoveDocument` of the same id. -/
theorem add_remove_state (s : SearchServer) (hs : Reachable s) (document_id : Int)
    (document : Str) (status : DocumentStatus) (ratings : List Int) (words : List Str)
    (hid : ¬ document_id < 0) (hfresh : document_id ∉ s.documents_.keys)
    (hw : s.SplitIntoWordsNoStop document = .ok words) (hne : words ≠ []) :
    ∃ s2, (s.AddDocument document_id document status ratings).2.RemoveDocument document_id =
        (.ok (), s2) ∧
      s2.stop_words_ = s.stop_words_ ∧ s2.documents_ = s.documents_ ∧
      s2.document_ids_ = s.document_ids_ ∧ s2.doc_to_word_freq = s.doc_to_word_freq ∧
      (∀ w, s2.word_to_document_freqs_.index w [] = s.word_to_document_freqs_.index w []) ∧
      ∀ w ∈ words, ∃ posting, s2.word_to_document_freqs_.find? w = some posting := by
  have hi := hs.inv
  have hc := hs.coherent
  have hs1 : Reachable (s.AddDocument document_id document status ratings).2 :=
    Reachable.add s document_id document status ratings hs
  have hi1 := hs1.inv
  have hc1 := hs1.coherent
  rw [AddDocument_ok_eq s document_id document status ratings words hid hfresh hw] at hs1 hi1 hc1 ⊢
  obtain ⟨f1, f2, f3⟩ := AddDocument.fold_documents document_id (1 / (words.length : ℚ)) words
    { s with documents_ := (s.documents_.insert document_id
      { rating := ComputeAverageRating ratings, status := status, text := document }) }
  generalize hF : words.foldl (AddDocument.step document_id (1 / (words.length : ℚ)))
    { s with documents_ := (s.documents_.insert document_id
      { rating := ComputeAverageRating ratings, status := status, text := document }) } = F
    at hs1 hi1 hc1 f1 f2 f3 ⊢
  have hrev : ∀ d w, F.reverse? d w =
      if d = document_id ∧ w ∈ words then
        some ((s.reverse? document_id w).getD 0 + (words.count w : ℚ) * (1 / (words.length : ℚ)))
      else s.reverse? d w := by
    intro d w
    rw [← hF, AddDocument.fold_reverse?]
    rfl
  have hkeys : ∀ w, w ∈ (F.doc_to_word_freq.index document_id []).keys ↔ w ∈ words := by
    intro w
    rw [OMap.mem_keys_iff]
    have := hrev document_id w
    unfold reverse? at this
    rw [this]
    by_cases hm : w ∈ words
    · simp [hm]
    · have h0 : s.reverse? document_id w = none := hi.reverse?_fresh hfresh w
      unfold reverse? at h0
      simp [hm, h0]
  obtain ⟨w0, hw0⟩ := List.exists_mem_of_ne_nil words hne
  have hfind : F.doc_to_word_freq.find? document_id =
      some (F.doc_to_word_freq.index document_id []) :=
    OMap.find?_of_mem_index_keys ((hkeys w0).mpr hw0)
  have hlive : document_id ∈ (s.document_ids_.insert document_id ()).keys :=
    (OMap.keys_insert_subset _ _ _ _).mpr (Or.inl rfl)
  have hnotlive : document_id ∉ s.document_ids_.keys := fun h => hfresh (hi.live_doc _ h)
  have hnotrev : document_id ∉ s.doc_to_word_freq.keys := fun h => hnotlive (hi.rev_live _ h)
  refine ⟨_, RemoveDocument_ok_eq _ document_id _ hlive hfind, f3, ?_, ?_, ?_, ?_, ?_⟩
  · show F.documents_.erase document_id = s.documents_
    rw [f1]
    show (s.documents_.insert document_id _).erase document_id = s.documents_
    rw [OMap.erase_insert, OMap.erase_of_not_mem hfresh]
  · show (s.document_ids_.insert document_id ()).erase document_id = s.document_ids_
    rw [OMap.erase_insert, OMap.erase_of_not_mem hnotlive]
  · show F.doc_to_word_freq.erase document_id = s.doc_to_word_freq
    apply OMap.ext (OMap.WF_erase _ hc1.reverse_wf) hc.reverse_wf
    intro d
    by_cases hd : d = document_id
    · subst hd
      rw [OMap.find?_erase_self, (OMap.not_mem_keys_iff _ _).mp hnotrev]
    · rw [OMap.find?_erase_ne hd, ← hF, AddDocument.fold_reverse_find? _ _ _ _ _ hd]
  · intro w
    show (RemoveDocument.loop document_id (F.doc_to_word_freq.index document_id [])
      F.word_to_document_freqs_).index w [] = s.word_to_document_freqs_.index w []
    have he : (F.word_to_document_freqs_.index w []).erase document_id =
        s.word_to_document_freqs_.index w [] := by
      rw [← hF, AddDocument.fold_index_erase]
      exact OMap.erase_of_not_mem (hi.posting_fresh hfresh w)
    rw [RemoveDocument.loop_index]
    split_ifs with hm
    · exact he
    · rw [← he]
      symm
      apply OMap.erase_of_not_mem
      intro hmem
      have h1 := hi1.mirrored w _ document_id (OMap.find?_of_mem_index_keys hmem) hmem
      exact hm h1
  · intro w hwm
    refine ⟨(F.word_to_document_freqs_.index w []).erase document_id, ?_⟩
    show (RemoveDocument.loop document_id (F.doc_to_word_freq.index document_id [])
      F.word_to_document_freqs_).find? w = _
    rw [RemoveDocument.loop_find?, if_pos ((hkeys w).mpr hwm)]

end SearchServer

namespace SearchServer

/-- Round trip with the keys read by value (in the source the keys the round trip leaves
behind dangle, see `TrackedServer.dangling`): on every reachable
store, adding a document with a fresh non-negative id and a
valid text that has at least one token that is not a stop word, and then removing it,
succeeds and gives a store on which `GetDocumentCount`, the iteration over the live ids,
`GetWordFrequencies` of every id, the sequential `FindTopDocuments` of every query and
predicate and `MatchDocument` of every query and id return what they return on the store
before; the words first introduced by the document stay keys of the inverted index, with
empty posting maps. -/
theorem add_remove_round_trip {K : Type} [LinearOrderedField K] (ln : ℚ → K)
    (s : SearchServer) (hs : Reachable s) (document_id : Int) (document : Str)
    (status : DocumentStatus) (ratings : List Int)
    (hid : 0 ≤ document_id) (hfresh : document_id ∉ s.documents_.keys)
    (hvalid : ∀ t ∈ SplitIntoWordsView document, IsValidWord t = true)
    (hword : ∃ t ∈ SplitIntoWordsView document, s.IsStopWord t = false) :
    ∃ s1 s2, s.AddDocument document_id document status ratings = (.ok (), s1) ∧
      s1.RemoveDocument document_id = (.ok (), s2) ∧
      s2.GetDocumentCount = s.GetDocumentCount ∧
      s2.ids = s.ids ∧
      (∀ d, s2.GetWordFrequencies d = s.GetWordFrequencies d) ∧
      (∀ raw_query pred, s2.FindTopDocuments ln .seq raw_query pred =
        s.FindTopDocuments ln .seq raw_query pred) ∧
      (∀ raw_query d, s2.MatchDocument raw_query d = s.MatchDocument raw_query d) ∧
      ∀ t ∈ SplitIntoWordsView document, s.IsStopWord t = false →
        t ∉ s.word_to_document_freqs_.keys → s2.word_to_document_freqs_.find? t = some [] := by
  have hw : s.SplitIntoWordsNoStop document =
      .ok ((SplitIntoWordsView document).filter (fun t => !s.IsStopWord t)) := by
    have := SplitIntoWordsNoStop.loop_valid s (SplitIntoWordsView document) [] hvalid
    simpa using this
  have hne : (SplitIntoWordsView document).filter (fun t => !s.IsStopWord t) ≠ [] := by
    obtain ⟨t, ht, hst⟩ := hword
    intro e
    have : t ∈ (SplitIntoWordsView document).filter (fun t => !s.IsStopWord t) :=
      List.mem_filter.mpr ⟨ht, by simp [hst]⟩
    rw [e] at this
    exact absurd this (List.not_mem_nil t)
  have hid' : ¬ document_id < 0 := not_lt.mpr hid
  obtain ⟨s2, h1, h2, h3, h4, h5, h6, h7⟩ := add_remove_state s hs document_id document status
    ratings _ hid' hfresh hw hne
  have hs1 : Reachable (s.AddDocument document_id document status ratings).2 :=
    Reachable.add s document_id document status ratings hs
  have hs2 : Reachable s2 := by
    have := Reachable.remove _ document_id hs1
    rw [h1] at this
    exact this
  refine ⟨(s.AddDocument document_id document status ratings).2, s2, ?_, h1, ?_, ?_, ?_, ?_,
    ?_, ?_⟩
  · rw [AddDocument_ok_eq s document_id document status ratings _ hid' hfresh hw]
  · unfold GetDocumentCount
    rw [h3]
  · unfold ids
    rw [h4]
  · intro d
    unfold GetWordFrequencies
    rw [h5]
  · intro raw_query pred
    exact FindTopDocuments_seq_congr s2 s hs2.inv hs.inv h2 h3 h6 ln raw_query pred
  · intro raw_query d
    exact MatchDocument_congr s2 s h2 h3 h6 raw_query d
  · intro t ht hst hkey
    obtain ⟨posting, hp⟩ := h7 t (List.mem_filter.mpr ⟨ht, by simp [hst]⟩)
    have h8 := h6 t
    rw [OMap.index_of_find? [] hp] at h8
    rw [hp, h8]
    unfold OMap.index
    rw [(OMap.not_mem_keys_iff _ _).mp hkey]
    rfl

theorem add_remove_round_trip_witness :
    Reachable demo ∧ (0 : Int) ≤ 3 ∧ (3 : Int) ∉ demo.documents_.keys ∧
      (∀ t ∈ SplitIntoWordsView "cat bird".toList, IsValidWord t = true) ∧
      (∃ t ∈ SplitIntoWordsView "cat bird".toList, demo.IsStopWord t = false) ∧
      ∃ s1 s2, demo.AddDocument 3 "cat bird".toList .ACTUAL [5] = (.ok (), s1) ∧
        s1.RemoveDocument 3 = (.ok (), s2) ∧
        s2.GetDocumentCount = demo.GetDocumentCount ∧
        s2.ids = demo.ids ∧
        (∀ d, s2.GetWordFrequencies d = demo.GetWordFrequencies d) ∧
        (∀ raw_query pred, s2.FindTopDocuments (fun x : ℚ => Real.log (x : ℝ)) .seq raw_query pred =
          demo.FindTopDocuments (fun x : ℚ => Real.log (x : ℝ)) .seq raw_query pred) ∧
        (∀ raw_query d, s2.MatchDocument raw_query d = demo.MatchDocument raw_query d) ∧
        ∀ t ∈ SplitIntoWordsView "cat bird".toList, demo.IsStopWord t = false →
          t ∉ demo.word_to_document_freqs_.keys →
          s2.word_to_document_freqs_.find? t = some [] :=
  ⟨Reachable.add _ 2 _ _ _ (Reachable.add _ 1 _ _ _ (Reachable.init _)), by decide, by decide,
    by decide, by decide,
    add_remove_round_trip (fun x : ℚ => Real.log (x : ℝ)) demo
      (Reachable.add _ 2 _ _ _ (Reachable.add _ 1 _ _ _ (Reachable.init _))) 3
      "cat bird".toList .ACTUAL [5] (by decide) (by decide) (by decide) (by decide)⟩

end SearchServer

/-! ## The sharded accumulator, run sequentially -/

namespace ConcurrentMap

variable {V : Type}

theorem length_onPart (f : OMap Int V → OMap Int V) (i : Nat) (l : List (OMap Int V)) :
    (onPart f i l).length = l.length := by
  induction l generalizing i with
  | nil => cases i <;> rfl
  | cons m rest ih =>
    cases i with
    | zero => rfl
    | succ i => simp [onPart, ih]

theorem getElem?_onPart (f : OMap Int V → OMap Int V) (i j : Nat) (l : List (OMap Int V)) :
    (onPart f i l)[j]? = if j = i then (l[j]?).map f else l[j]? := by
  induction l generalizing i j with
  | nil => cases i <;> simp [onPart]
  | cons m rest ih =>
    cases i with
    | zero =>
      cases j with
      | zero => simp [onPart]
      | succ j => simp [onPart]
    | succ i =>
      cases j with
      | zero => simp [onPart]
      | succ j => simp [onPart, ih]

theorem insertRange_find? (acc : OMap Int V) (entries : List (Int × V)) (k : Int) :
    (insertRange acc entries).find? k =
      match acc.find? k with
      | some v => some v
      | none => OMap.find? entries k := by
  induction entries generalizing acc with
  | nil =>
    unfold insertRange
    cases acc.find? k <;> rfl
  | cons p rest ih =>
    obtain ⟨k0, v0⟩ := p
    unfold insertRange
    rw [ih]
    unfold OMap.emplace
    by_cases hc : acc.count k0 > 0
    · simp only [hc, if_true]
      cases hk : acc.find? k with
      | some v => rfl
      | none =>
        have hne : ¬ k0 = k := by
          intro e
          subst e
          have := (OMap.count_eq_zero_iff acc k0).mpr hk
          omega
        simp [OMap.find?, hne]
    · simp only [hc, if_false]
      have hk0 : acc.find? k0 = none := (OMap.count_eq_zero_iff _ _).mp (by omega)
      by_cases hne : k = k0
      · subst hne
        rw [OMap.find?_insert_self, hk0]
        simp [OMap.find?]
      · rw [OMap.find?_insert_ne hne]
        have hne' : ¬ k0 = k := fun e => hne e.symm
        cases acc.find? k <;> simp [OMap.find?, hne']

theorem insertRange_WF (acc : OMap Int V) (entries : List (Int × V)) (h : acc.WF) :
    (insertRange acc entries).WF := by
  induction entries generalizing acc with
  | nil => exact h
  | cons p rest ih =>
    obtain ⟨k0, v0⟩ := p
    unfold insertRange
    apply ih
    unfold OMap.emplace
    split_ifs
    · exact h
    · exact OMap.WF_insert _ _ h

theorem foldl_insertRange_find? (parts : List (OMap Int V)) (acc : OMap Int V) (k : Int) :
    (parts.foldl insertRange acc).find? k =
      match acc.find? k with
      | some v => some v
      | none => parts.findSome? (fun p => OMap.find? p k) := by
  induction parts generalizing acc with
  | nil =>
    simp only [List.foldl_nil, List.findSome?_nil]
    cases acc.find? k <;> rfl
  | cons p rest ih =>
    simp only [List.foldl_cons, List.findSome?_cons]
    rw [ih, insertRange_find?]
    cases acc.find? k with
    | some v => rfl
    | none =>
      cases OMap.find? p k <;> rfl

theorem foldl_insertRange_WF (parts : List (OMap Int V)) (acc : OMap Int V) (h : acc.WF) :
    (parts.foldl insertRange acc).WF := by
  induction parts generalizing acc with
  | nil => exact h
  | cons p rest ih =>
    simp only [List.foldl_cons]
    exact ih _ (insertRange_WF _ _ h)

/-- When a key can only be in part `i`, the first part that has it is part `i`. -/
theorem findSome?_of_unique (parts : List (OMap Int V)) (k : Int) (i : Nat)
    (h : ∀ j p, parts[j]? = some p → (OMap.find? p k).isSome = true → j = i) :
    parts.findSome? (fun p => OMap.find? p k) =
      match parts[i]? with
      | some p => OMap.find? p k
      | none => none := by
  induction parts generalizing i with
  | nil => rfl
  | cons p rest ih =>
    cases i with
    | zero =>
      have hrest : rest.findSome? (fun p => OMap.find? p k) = none := by
        rw [List.findSome?_eq_none_iff]
        intro q hq
        obtain ⟨j, hj⟩ := List.getElem?_of_mem hq
        cases hqk : OMap.find? q k with
        | none => rfl
        | some v =>
          have := h (j + 1) q (by simpa using hj) (by rw [hqk]; rfl)
          omega
      simp only [List.findSome?_cons, hrest, List.getElem?_cons_zero]
      cases OMap.find? p k <;> rfl
    | succ i =>
      have hp : OMap.find? p k = none := by
        cases hpk : OMap.find? p k with
        | none => rfl
        | some v =>
          have := h 0 p (by simp) (by rw [hpk]; rfl)
          omega
      simp only [List.findSome?_cons, hp, List.getElem?_cons_succ]
      apply ih
      intro j q hj hq
      have := h (j + 1) q (by simpa using hj) hq
      omega

end ConcurrentMap

namespace ConcurrentMap

variable {V : Type}

theorem part_eq (cm : ConcurrentMap V) (N : Nat) (hlen : cm.parts_.length = N) (key : Int)
    (h0 : 0 ≤ key) (h1 : key < 2 ^ 64) : cm.part key = key.toNat % N := by
  unfold part
  rw [hlen, Int.emod_eq_of_lt h0 h1]

theorem Agrees.create (N : Nat) : Agrees N (create N : ConcurrentMap V) [] := by
  refine ⟨by simp [ConcurrentMap.create], ?_, OMap.WF_nil, ?_, ?_⟩
  · intro i p hp
    simp only [ConcurrentMap.create, List.getElem?_replicate] at hp
    split_ifs at hp
    cases hp
    exact ⟨OMap.WF_nil, fun k hk => absurd hk (List.not_mem_nil k)⟩
  · intro k _ _
    simp only [ConcurrentMap.create, List.getElem?_replicate]
    split_ifs <;> rfl
  · intro k hk
    exact absurd hk (List.not_mem_nil k)

/-- One operation, applied to one part and to the unsharded map by the same function on
maps, keeps the relation. -/
theorem Agrees.onPart (N : Nat) (hN : 1 ≤ N) (cm : ConcurrentMap V) (m : OMap Int V)
    (h : Agrees N cm m) (key : Int) (h0 : 0 ≤ key) (h1 : key < 2 ^ 64)
    (f : OMap Int V → OMap Int V)
    (hwf : ∀ p : OMap Int V, p.WF → (f p).WF)
    (hkeys : ∀ (p : OMap Int V) k, k ∈ (f p).keys → k = key ∨ k ∈ p.keys)
    (hself : ∀ p q : OMap Int V, OMap.find? p key = OMap.find? q key →
      OMap.find? (f p) key = OMap.find? (f q) key)
    (hother : ∀ (p : OMap Int V) k, k ≠ key → OMap.find? (f p) k = OMap.find? p k) :
    Agrees N { parts_ := ConcurrentMap.onPart f (cm.part key) cm.parts_ } (f m) := by
  have hpart := part_eq cm N h.parts_length key h0 h1
  have hlt : key.toNat % N < cm.parts_.length := by
    rw [h.parts_length]
    exact Nat.mod_lt _ (by omega)
  obtain ⟨p0, hp0⟩ : ∃ p0, cm.parts_[key.toNat % N]? = some p0 :=
    ⟨cm.parts_[key.toNat % N], List.getElem?_eq_getElem hlt⟩
  refine ⟨?_, ?_, hwf m h.map_wf, ?_, ?_⟩
  · show (ConcurrentMap.onPart f (cm.part key) cm.parts_).length = N
    rw [length_onPart, h.parts_length]
  · intro i p hp
    have hp' : (ConcurrentMap.onPart f (cm.part key) cm.parts_)[i]? = some p := hp
    rw [getElem?_onPart, hpart] at hp'
    split_ifs at hp' with hi
    · subst hi
      rw [hp0] at hp'
      simp only [Option.map_some', Option.some.injEq] at hp'
      subst hp'
      obtain ⟨a, b⟩ := h.part_ok _ p0 hp0
      refine ⟨hwf p0 a, ?_⟩
      intro k hk
      rcases hkeys p0 k hk with rfl | hk'
      · exact ⟨⟨h0, h1⟩, rfl⟩
      · exact b k hk'
    · exact h.part_ok i p hp'
  · intro k hk0 hk1
    show (match (ConcurrentMap.onPart f (cm.part key) cm.parts_)[k.toNat % N]? with
      | some p => OMap.find? p k
      | none => none) = OMap.find? (f m) k
    rw [getElem?_onPart, hpart]
    have hold := h.same k hk0 hk1
    by_cases hk : k = key
    · subst hk
      simp only [if_true, hp0, Option.map_some']
      rw [hp0] at hold
      exact hself p0 m hold
    · rw [hother m k hk, ← hold]
      split_ifs with hi
      · rw [hi, hp0]
        simp only [Option.map_some']
        exact hother p0 k hk
      · rfl
  · intro k hk
    rcases hkeys m k hk with rfl | hk'
    · exact ⟨h0, h1⟩
    · exact h.map_keys k hk'

theorem Agrees.apply [Zero V] [Add V] (N : Nat) (hN : 1 ≤ N) (cm : ConcurrentMap V)
    (m : OMap Int V) (h : Agrees N cm m) (op : Op V)
    (hop : 0 ≤ op.key ∧ op.key < 2 ^ 64) :
    Agrees N (cm.apply op) (applyOrdinary m op) := by
  cases op with
  | add key x =>
    apply Agrees.onPart N hN cm m h key hop.1 hop.2 (fun p => p.addAt key x)
    · intro p hp
      exact OMap.WF_insert _ _ hp
    · intro p k hk
      exact (OMap.keys_insert_subset _ _ _ _).mp hk
    · intro p q hpq
      simp only [OMap.addAt, OMap.find?_insert_self, OMap.index_eq_getD, hpq]
    · intro p k hk
      exact OMap.find?_insert_ne hk _ _
  | remove key =>
    apply Agrees.onPart N hN cm m h key hop.1 hop.2 (fun p => p.erase key)
    · intro p hp
      exact OMap.WF_erase _ hp
    · intro p k hk
      exact Or.inr ((OMap.keys_erase _ _ _).mp hk).2
    · intro p q _
      simp only [OMap.find?_erase_self]
    · intro p k hk
      exact OMap.find?_erase_ne hk _

theorem Agrees.run [Zero V] [Add V] (N : Nat) (hN : 1 ≤ N) (ops : List (Op V))
    (cm : ConcurrentMap V) (m : OMap Int V) (h : Agrees N cm m)
    (hops : ∀ op ∈ ops, 0 ≤ op.key ∧ op.key < 2 ^ 64) :
    Agrees N (cm.run ops) (runOrdinary m ops) := by
  induction ops generalizing cm m with
  | nil => exact h
  | cons op rest ih =>
    unfold ConcurrentMap.run runOrdinary
    simp only [List.foldl_cons]
    exact ih _ _ (Agrees.apply N hN cm m h op (hops op (List.mem_cons_self _ _)))
      (fun op' h' => hops op' (List.mem_cons_of_mem _ h'))

theorem Agrees.build {N : Nat} {cm : ConcurrentMap V} {m : OMap Int V} (h : Agrees N cm m) :
    cm.BuildOrdinaryMap = m := by
  apply OMap.ext (foldl_insertRange_WF _ _ OMap.WF_nil) h.map_wf
  intro k
  rw [foldl_insertRange_find?]
  have h0 : OMap.find? ([] : OMap Int V) k = none := rfl
  rw [h0]
  simp only
  by_cases hk : 0 ≤ k ∧ k < 2 ^ 64
  · rw [findSome?_of_unique cm.parts_ k (k.toNat % N)]
    · exact h.same k hk.1 hk.2
    · intro j p hj hp
      have := (h.part_ok j p hj).2 k ((OMap.mem_keys_iff _ _).mpr hp)
      exact this.2.symm
  · have h1 : cm.parts_.findSome? (fun p => OMap.find? p k) = none := by
      rw [List.findSome?_eq_none_iff]
      intro p hp
      obtain ⟨j, hj⟩ := List.getElem?_of_mem hp
      cases hpk : OMap.find? p k with
      | none => rfl
      | some v =>
        have := (h.part_ok j p hj).2 k ((OMap.mem_keys_iff _ _).mpr (by rw [hpk]; rfl))
        exact absurd this.1 hk
    rw [h1]
    symm
    rw [← OMap.not_mem_keys_iff]
    intro hm
    exact hk (h.map_keys k hm)

/-- C17: for every part count N ≥ 1 and every finite sequence of operations on
non-negative keys (of the key type, below 2^64) run one at a time - `cm[k] += v`, which
creates the entry with value 0 on first access, and `Remove(k)` - every key k is stored
in part k mod N only, and `BuildOrdinaryMap` returns exactly the ordinary ordered map
obtained by the same sequence of operations on a single unsharded map. -/
theorem BuildOrdinaryMap_spec [Zero V] [Add V] (N : Nat) (hN : 1 ≤ N) (ops : List (Op V))
    (hops : ∀ op ∈ ops, 0 ≤ op.key ∧ op.key < 2 ^ 64) :
    (∀ (i : Nat) p, ((create N : ConcurrentMap V).run ops).parts_[i]? = some p →
        ∀ k ∈ p.keys, k % (N : Int) = (i : Int)) ∧
      ((create N : ConcurrentMap V).run ops).BuildOrdinaryMap = runOrdinary [] ops := by
  have h := Agrees.run N hN ops _ _ (Agrees.create N) hops
  refine ⟨?_, h.build⟩
  intro i p hp k hk
  obtain ⟨⟨h0, _⟩, h2⟩ := (h.part_ok i p hp).2 k hk
  rw [← h2, Int.natCast_mod, Int.toNat_of_nonneg h0]

theorem BuildOrdinaryMap_spec_witness :
    (1 ≤ 3) ∧
      (∀ op ∈ [Op.add 7 (2 : ℚ), Op.add 4 1, Op.add 7 5, Op.remove 4, Op.add 9 1],
        0 ≤ op.key ∧ op.key < 2 ^ 64) ∧
      ((∀ (i : Nat) p, ((create 3 : ConcurrentMap ℚ).run
            [Op.add 7 (2 : ℚ), Op.add 4 1, Op.add 7 5, Op.remove 4, Op.add 9 1]).parts_[i]? =
              some p →
          ∀ k ∈ p.keys, k % ((3 : Nat) : Int) = (i : Int)) ∧
        ((create 3 : ConcurrentMap ℚ).run
            [Op.add 7 (2 : ℚ), Op.add 4 1, Op.add 7 5, Op.remove 4, Op.add 9 1]).BuildOrdinaryMap =
          runOrdinary [] [Op.add 7 (2 : ℚ), Op.add 4 1, Op.add 7 5, Op.remove 4, Op.add 9 1]) :=
  ⟨by decide, by decide,
    BuildOrdinaryMap_spec 3 (by decide)
      [Op.add 7 (2 : ℚ), Op.add 4 1, Op.add 7 5, Op.remove 4, Op.add 9 1] (by decide)⟩

end ConcurrentMap

/-! ## The top of the ranking -/

theorem chain'_and {α : Type} {P Q : α → α → Prop} {l : List α} (hP : l.Chain' P)
    (hQ : l.Chain' Q) : l.Chain' (fun a b => P a b ∧ Q a b) := by
  induction l with
  | nil => exact List.chain'_nil
  | cons a t ih =>
    cases t with
    | nil => exact List.chain'_singleton a
    | cons b t' =>
      rw [List.chain'_cons] at hP hQ ⊢
      exact ⟨⟨hP.1, hQ.1⟩, ih hP.2 hQ.2⟩

namespace SearchServer

variable {K : Type} [LinearOrderedField K]

/-- When the relevances of the sorted documents are pairwise at least epsilon apart, the
model of `std::sort` with the comparator of `FindTopDocuments` orders them by strictly
descending relevance. -/
theorem std_sort_before_descending (l : List (Document K))
    (hid : (l.map (fun d => d.id)).Nodup)
    (hsep : ∀ a ∈ l, ∀ b ∈ l, a.id ≠ b.id → (epsilon : K) ≤ |a.relevance - b.relevance|) :
    (std_sort before l).Pairwise (fun a b => a.relevance > b.relevance) := by
  have hperm := std_sort_perm before l
  have hnd : ((std_sort before l).map (fun d => d.id)).Nodup :=
    (hperm.map _).nodup_iff.mpr hid
  have hne : (std_sort before l).Chain' (fun a b => a.id ≠ b.id) :=
    List.Pairwise.chain' (List.pairwise_map.mp hnd)
  have hmem : (std_sort before l).Chain' (fun a b => a ∈ l ∧ b ∈ l) := by
    have : (std_sort before l).Pairwise (fun a b => a ∈ l ∧ b ∈ l) := by
      rw [List.pairwise_iff_forall_sublist]
      intro a b hab
      have ha : a ∈ std_sort before l := hab.subset (List.mem_cons_self _ _)
      have hb : b ∈ std_sort before l :=
        hab.subset (List.mem_cons_of_mem _ (List.mem_cons_self _ _))
      exact ⟨hperm.mem_iff.mp ha, hperm.mem_iff.mp hb⟩
    exact List.Pairwise.chain' this
  have hch := chain'_and (chain'_and (std_sort_chain before l) hne) hmem
  have hgt : (std_sort before l).Chain' (fun a b => a.relevance > b.relevance) := by
    refine List.Chain'.imp ?_ hch
    rintro a b ⟨⟨hab, hid'⟩, ha, hb⟩
    have hs := hsep a ha b hb hid'
    rcases before_order a b hab with h | ⟨h, _⟩
    · exact h
    · exact absurd h (not_lt.mpr hs)
  haveI : IsTrans (Document K) (fun a b => a.relevance > b.relevance) :=
    ⟨fun a b c hab hbc => gt_trans hab hbc⟩
  exact (List.chain'_iff_pairwise).mp hgt

/-- The document ids returned by the sequential `FindAllDocuments` are ascending. -/
theorem FindAllDocuments_ids_sorted (s : SearchServer) (hs : Inv s) (ln : ℚ → K) (q : Query)
    (pred : DocumentPredicate) (docs : List (Document K))
    (h : s.FindAllDocuments ln q pred = .ok docs) :
    (docs.map (fun doc => doc.id)).Sorted (· < ·) := by
  obtain ⟨acc1, a1, a2, a3⟩ := FindAllDocuments.plusLoop_spec s hs ln pred q.plus_words []
  obtain ⟨acc2, b1, b2, b3⟩ := FindAllDocuments.minusLoop_spec s q.minus_words acc1
  have hwf : acc2.WF := b2 (a2 OMap.WF_nil)
  unfold FindAllDocuments at h
  simp only [a1, b1] at h
  have hdoc : ∀ p ∈ acc2, ∃ data, s.documents_.find? p.1 = some data := by
    intro p hp
    cases hd : s.documents_.find? p.1 with
    | some data => exact ⟨data, rfl⟩
    | none =>
      exfalso
      have hf := OMap.find?_of_mem hwf (show (p.1, p.2) ∈ acc2 from hp)
      rw [b3 p.1] at hf
      split_ifs at hf
      rw [a3 p.1] at hf
      have hacc : s.accepts pred p.1 = false := by
        unfold accepts
        rw [hd]
      simp [hacc, OMap.find?] at hf
  obtain ⟨docs', c1, c2, _⟩ := FindAllDocuments.collect_spec s acc2 [] hdoc
  rw [c1] at h
  simp only [List.nil_append, Except.ok.injEq] at h
  subst h
  rw [c2]
  exact hwf

theorem FindAllDocuments.collect_ids (s : SearchServer) (entries : List (Int × K))
    (out docs : List (Document K))
    (h : FindAllDocuments.collect s entries out = .ok docs) :
    docs.map (fun doc => doc.id) = out.map (fun doc => doc.id) ++ OMap.keys entries := by
  induction entries generalizing out with
  | nil =>
    simp only [FindAllDocuments.collect, Except.ok.injEq] at h
    subst h
    simp [OMap.keys]
  | cons p rest ih =>
    obtain ⟨d0, rel⟩ := p
    unfold FindAllDocuments.collect at h
    cases hd : s.documents_.at_ d0 with
    | error e =>
      simp only [hd] at h
      cases h
    | ok data =>
      simp only [hd] at h
      rw [ih _ h]
      simp [OMap.keys]

/-- The document ids returned by the parallel `FindAllDocuments` are distinct. -/
theorem FindAllDocumentsPar_ids_nodup (s : SearchServer) (ln : ℚ → K) (q : Query)
    (pred : DocumentPredicate) (docs : List (Document K))
    (h : s.FindAllDocumentsPar ln q pred = .ok docs) :
    (docs.map (fun doc => doc.id)).Nodup := by
  unfold FindAllDocumentsPar at h
  simp only at h
  split at h
  · cases h
  · split at h
    · cases h
    · rw [FindAllDocuments.collect_ids s _ _ _ h]
      simp only [List.map_nil, List.nil_append]
      exact OMap.WF_nodup (ConcurrentMap.foldl_insertRange_WF _ _ OMap.WF_nil)

/-- C11 (as amended): on every reachable store, for every valid query, predicate and
execution policy, if the relevance engine matches m documents whose relevances are
pairwise at least epsilon (2^-52) apart, `FindTopDocuments` returns exactly min(5, m) of
them, with distinct ids, and they are the highest-ranked ones: no matched document that
is left out has a relevance greater than that of a returned document. -/
theorem FindTopDocuments_top (s : SearchServer) (hs : Reachable s) (ln : ℚ → K)
    (policy : ExecutionPolicy) (raw_query : Str) (q : Query)
    (hq : s.ParseQuery raw_query false = .ok q) (pred : DocumentPredicate)
    (matched : List (Document K))
    (hm : (match policy with
           | .seq => s.FindAllDocuments ln q pred
           | .par => s.FindAllDocumentsPar ln q pred) = .ok matched)
    (hsep : ∀ a ∈ matched, ∀ b ∈ matched, a.id ≠ b.id →
      (1 / 2 ^ 52 : K) ≤ |a.relevance - b.relevance|) :
    ∃ docs, s.FindTopDocuments ln policy raw_query pred = .ok docs ∧
      docs.length = min MAX_RESULT_DOCUMENT_COUNT matched.length ∧
      (∀ d ∈ docs, d ∈ matched) ∧
      (docs.map (fun d => d.id)).Nodup ∧
      ∀ d ∈ matched, d ∉ docs → ∀ r ∈ docs, ¬ d.relevance > r.relevance := by
  have h2 : (matched.map (fun d => d.id)).Nodup := by
    cases policy with
    | seq =>
      obtain ⟨m', h1, h2, _, _⟩ := FindAllDocuments_general s hs.inv ln q pred
      simp only at hm
      rw [h1] at hm
      cases hm
      exact h2
    | par => exact FindAllDocumentsPar_ids_nodup s ln q pred matched hm
  have hperm := std_sort_perm before matched
  have htop : s.FindTopDocuments ln policy raw_query pred =
      .ok ((std_sort before matched).take MAX_RESULT_DOCUMENT_COUNT) := by
    unfold FindTopDocuments
    simp only [hq, hm]
    split_ifs with hlen
    · rfl
    · rw [List.take_of_length_le (by omega)]
  refine ⟨_, htop, ?_, ?_, ?_, ?_⟩
  · rw [List.length_take, hperm.length_eq]
  · intro d hd
    exact hperm.mem_iff.mp (List.mem_of_mem_take hd)
  · have hnd : ((std_sort before matched).map (fun d => d.id)).Nodup :=
      (hperm.map _).nodup_iff.mpr h2
    rw [List.map_take]
    exact hnd.sublist (List.take_sublist _ _)
  · intro d hd hnot r hr
    have hpw := std_sort_before_descending matched h2 hsep
    rw [← List.take_append_drop MAX_RESULT_DOCUMENT_COUNT (std_sort before matched)] at hpw
    have hd' : d ∈ std_sort before matched := hperm.mem_iff.mpr hd
    rw [← List.take_append_drop MAX_RESULT_DOCUMENT_COUNT (std_sort before matched),
      List.mem_append] at hd'
    rcases hd' with hd' | hd'
    · exact absurd hd' hnot
    · exact lt_asymm ((List.pairwise_append.mp hpw).2.2 r hr d hd')

theorem FindTopDocuments_top_witness :
    demo.ParseQuery "cat hat".toList false =
        .ok { plus_words := ["cat".toList, "hat".toList], minus_words := [] } ∧
      demo.FindAllDocuments (fun x : ℚ => x)
          { plus_words := ["cat".toList, "hat".toList], minus_words := [] }
          (fun _ _ _ => true) =
        .ok [{ id := 1, relevance := 1 / 2, rating := 3 },
          { id := 2, relevance := 3 / 2, rating := 4 }] ∧
      ∃ docs, demo.FindTopDocuments (fun x : ℚ => x) .seq "cat hat".toList
          (fun _ _ _ => true) = .ok docs ∧
        docs.length = min MAX_RESULT_DOCUMENT_COUNT
          [({ id := 1, relevance := 1 / 2, rating := 3 } : Document ℚ),
            { id := 2, relevance := 3 / 2, rating := 4 }].length ∧
        (∀ d ∈ docs, d ∈ [({ id := 1, relevance := 1 / 2, rating := 3 } : Document ℚ),
          { id := 2, relevance := 3 / 2, rating := 4 }]) ∧
        (docs.map (fun d => d.id)).Nodup ∧
        ∀ d ∈ [({ id := 1, relevance := 1 / 2, rating := 3 } : Document ℚ),
          { id := 2, relevance := 3 / 2, rating := 4 }], d ∉ docs →
          ∀ r ∈ docs, ¬ d.relevance > r.relevance :=
  ⟨by rfl, by with_unfolding_all rfl,
    FindTopDocuments_top demo
      (Reachable.add _ 2 _ _ _ (Reachable.add _ 1 _ _ _ (Reachable.init _)))
      (fun x : ℚ => x) .seq "cat hat".toList
      { plus_words := ["cat".toList, "hat".toList], minus_words := [] } (by rfl)
      (fun _ _ _ => true) _ (by with_unfolding_all rfl) (by
        intro a ha b hb hne
        simp only [List.mem_cons, List.mem_singleton, List.not_mem_nil, or_false] at ha hb
        rcases ha with rfl | rfl <;> rcases hb with rfl | rfl
        · exact absurd rfl hne
        · norm_num
        · norm_num
        · exact absurd rfl hne)⟩

end SearchServer

/-! ## A store with relevances closer than epsilon -/

namespace SearchServer

theorem splitOnP_replicate_f (n : Nat) :
    ((List.replicate n [' ', 'f']).flatten).splitOnP (fun c => c == ' ') =
      [] :: List.replicate n ['f'] := by
  induction n with
  | zero => rfl
  | succ n ih =>
    rw [List.replicate_succ, List.flatten_cons]
    show List.splitOnP (fun c => c == ' ') (' ' :: 'f' :: (List.replicate n [' ', 'f']).flatten) = _
    rw [List.splitOnP_cons, List.splitOnP_cons, ih]
    rfl

theorem SplitIntoWordsView_nearTieText (n : Nat) :
    SplitIntoWordsView (nearTieText n) = ['w'] :: List.replicate n ['f'] := by
  rw [SplitIntoWordsView_eq_maximalRuns]
  unfold maximalRuns nearTieText
  rw [List.splitOnP_cons, splitOnP_replicate_f]
  have h : List.filter (fun t : Str => !t.isEmpty) (List.replicate n ['f']) =
      List.replicate n ['f'] := by
    rw [List.filter_eq_self]
    intro t ht
    rw [List.eq_of_mem_replicate ht]
    rfl
  show List.filter (fun t : Str => !t.isEmpty) (['w'] :: List.replicate n ['f']) = _
  rw [List.filter_cons_of_pos (by rfl), h]

theorem nearTieText_valid (n : Nat) :
    ∀ t ∈ SplitIntoWordsView (nearTieText n), IsValidWord t = true := by
  rw [SplitIntoWordsView_nearTieText]
  intro t ht
  rcases List.mem_cons.mp ht with rfl | ht
  · decide
  · rw [List.eq_of_mem_replicate ht]
    decide

/-- A successful `AddDocument`, in terms of the validity of the tokens. -/
theorem AddDocument_ok_summary (s : SearchServer) (document_id : Int) (document : Str)
    (status : DocumentStatus) (ratings : List Int) (hid : 0 ≤ document_id)
    (hfresh : document_id ∉ s.documents_.keys)
    (hvalid : ∀ t ∈ SplitIntoWordsView document, IsValidWord t = true) :
    (s.AddDocument document_id document status ratings).2.stop_words_ = s.stop_words_ ∧
      (s.AddDocument document_id document status ratings).2.documents_ =
        s.documents_.insert document_id
          { rating := ComputeAverageRating ratings, status := status, text := document } ∧
      (s.AddDocument document_id document status ratings).2.document_ids_ =
        s.document_ids_.insert document_id () := by
  have hw : s.SplitIntoWordsNoStop document =
      .ok ((SplitIntoWordsView document).filter (fun t => !s.IsStopWord t)) := by
    have := SplitIntoWordsNoStop.loop_valid s (SplitIntoWordsView document) [] hvalid
    simpa using this
  rw [AddDocument_ok_eq s document_id document status ratings _ (not_lt.mpr hid) hfresh hw]
  obtain ⟨f1, f2, f3⟩ := AddDocument.fold_documents document_id
    (1 / (((SplitIntoWordsView document).filter (fun t => !s.IsStopWord t)).length : ℚ))
    ((SplitIntoWordsView document).filter (fun t => !s.IsStopWord t))
    { s with documents_ := (s.documents_.insert document_id
      { rating := ComputeAverageRating ratings, status := status, text := document }) }
  exact ⟨f3, f1, rfl⟩

/-- The effect of a run of valid `AddDocument` calls with fresh, distinct ids. -/
theorem addDocuments_spec (ds : List (Int × Str × List Int)) (s : SearchServer)
    (hnd : (ds.map (fun d => d.1)).Nodup)
    (hok : ∀ d ∈ ds, 0 ≤ d.1 ∧ d.1 ∉ s.documents_.keys ∧
      ∀ t ∈ SplitIntoWordsView d.2.1, IsValidWord t = true) :
    (s.addDocuments ds).stop_words_ = s.stop_words_ ∧
      (∀ x, x ∈ (s.addDocuments ds).document_ids_.keys ↔
        (x ∈ s.document_ids_.keys ∨ x ∈ ds.map (fun d => d.1))) ∧
      (∀ d ∈ ds, (s.addDocuments ds).documents_.find? d.1 =
        some { rating := ComputeAverageRating d.2.2, status := .ACTUAL, text := d.2.1 }) ∧
      (∀ x, x ∉ ds.map (fun d => d.1) →
        (s.addDocuments ds).documents_.find? x = s.documents_.find? x) ∧
      (Reachable s → Reachable (s.addDocuments ds)) := by
  induction ds generalizing s with
  | nil =>
    refine ⟨rfl, fun x => by simp [addDocuments], ?_, fun x _ => rfl, fun h => h⟩
    intro d hd
    exact absurd hd (List.not_mem_nil d)
  | cons d rest ih =>
    obtain ⟨h0, hfresh, hvalid⟩ := hok d (List.mem_cons_self _ _)
    obtain ⟨e1, e2, e3⟩ := AddDocument_ok_summary s d.1 d.2.1 .ACTUAL d.2.2 h0 hfresh hvalid
    have hnd' : (rest.map (fun d => d.1)).Nodup := (List.nodup_cons.mp hnd).2
    have hnot : d.1 ∉ rest.map (fun d => d.1) := (List.nodup_cons.mp hnd).1
    have hok' : ∀ d' ∈ rest, 0 ≤ d'.1 ∧
        d'.1 ∉ (s.AddDocument d.1 d.2.1 .ACTUAL d.2.2).2.documents_.keys ∧
        ∀ t ∈ SplitIntoWordsView d'.2.1, IsValidWord t = true := by
      intro d' hd'
      obtain ⟨a, b, c⟩ := hok d' (List.mem_cons_of_mem _ hd')
      refine ⟨a, ?_, c⟩
      rw [e2]
      intro hm
      rcases (OMap.keys_insert_subset _ _ _ _).mp hm with h | h
      · exact hnot (h ▸ List.mem_map_of_mem (fun d => d.1) hd')
      · exact b h
    obtain ⟨i1, i2, i3, i4, i5⟩ := ih (s.AddDocument d.1 d.2.1 .ACTUAL d.2.2).2 hnd' hok'
    have hstep : s.addDocuments (d :: rest) =
        (s.AddDocument d.1 d.2.1 .ACTUAL d.2.2).2.addDocuments rest := rfl
    rw [hstep]
    refine ⟨i1.trans e1, ?_, ?_, ?_, ?_⟩
    · intro x
      rw [i2 x, e3, OMap.keys_insert_subset]
      simp only [List.map_cons, List.mem_cons]
      tauto
    · intro d' hd'
      rcases List.mem_cons.mp hd' with rfl | hd''
      · rw [i4 _ hnot, e2, OMap.find?_insert_self]
      · exact i3 d' hd''
    · intro x hx
      simp only [List.map_cons, List.mem_cons, not_or] at hx
      rw [i4 x hx.2, e2, OMap.find?_insert_ne hx.1]
    · intro hr
      exact i5 (Reachable.add s d.1 d.2.1 .ACTUAL d.2.2 hr)

end SearchServer

namespace SearchServer

theorem hasWord_eq_posting (s : SearchServer) (w : Str) (d : Int) :
    s.hasWord w d = (s.posting? w d).isSome := by
  unfold hasWord posting?
  have h := OMap.mem_keys_iff (s.word_to_document_freqs_.index w []) d
  cases hc : ((s.word_to_document_freqs_.index w []).find? d).isSome
  · rw [hc] at h
    simp [h]
  · rw [hc] at h
    simp [h]

theorem termFreq_eq_posting (s : SearchServer) (w : Str) (d : Int) :
    s.termFreq w d = (s.posting? w d).getD 0 := rfl

/-- The postings of a live document of a reachable store without stop words. -/
theorem Reachable.posting_live {s : SearchServer} (h : Reachable s) {d : Int}
    {data : DocumentData} (hd : d ∈ s.document_ids_.keys)
    (hdata : s.documents_.find? d = some data) (hstop : s.stop_words_ = []) (w : Str) :
    s.posting? w d =
      if w ∈ SplitIntoWordsView data.text then
        some (((SplitIntoWordsView data.text).count w : ℚ) /
          ((SplitIntoWordsView data.text).length : ℚ))
      else none := by
  obtain ⟨data', h1, h2⟩ := h.frequencies (show d ∈ s.ids from hd)
  rw [hdata] at h1
  cases h1
  have hf : (SplitIntoWordsView data.text).filter (fun t => !s.IsStopWord t) =
      SplitIntoWordsView data.text := by
    rw [List.filter_eq_self]
    intro t _
    simp [IsStopWord, hstop]
  rw [h.coherent.same, ← GetWordFrequencies_find?, h2 w]
  simp only [hf]

theorem Reachable.posting_not_live {s : SearchServer} (h : Reachable s) {d : Int}
    (hd : d ∉ s.documents_.keys) (w : Str) : s.posting? w d = none :=
  (OMap.not_mem_keys_iff _ _).mp (h.inv.posting_fresh hd w)

/-- The posting of "w" for a live document whose text is `nearTieText m`. -/
theorem Reachable.posting_nearTieText {s : SearchServer} (h : Reachable s) {d : Int}
    {r : Int} {st : DocumentStatus} {m : Nat} (hd : d ∈ s.document_ids_.keys)
    (hdata : s.documents_.find? d = some { rating := r, status := st, text := nearTieText m })
    (hstop : s.stop_words_ = []) :
    s.posting? ['w'] d = some (1 / ((m : ℚ) + 1)) := by
  rw [h.posting_live hd hdata hstop]
  simp only [SplitIntoWordsView_nearTieText]
  rw [if_pos (List.mem_cons_self _ _), List.count_cons_self, List.count_replicate]
  simp

/-- The state of the near-tie store, from the run of `AddDocument` calls. -/
theorem nearTieStore_spec (n : Nat) :
    Reachable (nearTieStore n) ∧ (nearTieStore n).stop_words_ = [] ∧
      (∀ x, x ∈ (nearTieStore n).document_ids_.keys ↔ x ∈ [(1 : Int), 2, 3, 4, 5, 6, 7]) ∧
      (nearTieStore n).documents_.find? 1 =
        some { rating := 0, status := .ACTUAL, text := nearTieText n } ∧
      (nearTieStore n).documents_.find? 2 =
        some { rating := 5, status := .ACTUAL, text := nearTieText (n + 1) } ∧
      (nearTieStore n).documents_.find? 3 =
        some { rating := 5, status := .ACTUAL, text := nearTieText (n + 2) } ∧
      (nearTieStore n).documents_.find? 4 =
        some { rating := 5, status := .ACTUAL, text := nearTieText (n + 3) } ∧
      (nearTieStore n).documents_.find? 5 =
        some { rating := 5, status := .ACTUAL, text := nearTieText (n + 4) } ∧
      (nearTieStore n).documents_.find? 6 =
        some { rating := 5, status := .ACTUAL, text := nearTieText (n + 5) } ∧
      (nearTieStore n).documents_.find? 7 =
        some { rating := 5, status := .ACTUAL, text := ['f'] } ∧
      (∀ x, x ∉ [(1 : Int), 2, 3, 4, 5, 6, 7] → (nearTieStore n).documents_.find? x = none) := by
  have hnd : (List.map (fun d : Int × Str × List Int => d.1)
      [(1, nearTieText n, []), (2, nearTieText (n + 1), [5]), (3, nearTieText (n + 2), [5]),
        (4, nearTieText (n + 3), [5]), (5, nearTieText (n + 4), [5]),
        (6, nearTieText (n + 5), [5]), (7, ['f'], [5])]).Nodup := by
    simp only [List.map_cons, List.map_nil]
    decide
  have hf : ∀ t ∈ SplitIntoWordsView ['f'], IsValidWord t = true := by decide
  have hk : ∀ x : Int, x ∉ (init []).documents_.keys := fun x hx => by
    simp [init, OMap.keys] at hx
  obtain ⟨h1, h2, h3, h4, h5⟩ := addDocuments_spec
    [(1, nearTieText n, []), (2, nearTieText (n + 1), [5]), (3, nearTieText (n + 2), [5]),
      (4, nearTieText (n + 3), [5]), (5, nearTieText (n + 4), [5]),
      (6, nearTieText (n + 5), [5]), (7, ['f'], [5])] (init []) hnd (by
      intro d hd
      simp only [List.mem_cons, List.mem_singleton, List.not_mem_nil, or_false] at hd
      rcases hd with rfl | rfl | rfl | rfl | rfl | rfl | rfl
      · exact ⟨by norm_num, hk _, nearTieText_valid _⟩
      · exact ⟨by norm_num, hk _, nearTieText_valid _⟩
      · exact ⟨by norm_num, hk _, nearTieText_valid _⟩
      · exact ⟨by norm_num, hk _, nearTieText_valid _⟩
      · exact ⟨by norm_num, hk _, nearTieText_valid _⟩
      · exact ⟨by norm_num, hk _, nearTieText_valid _⟩
      · exact ⟨by decide, hk _, hf⟩)
  have r0 : ComputeAverageRating [] = 0 := by decide
  have r5 : ComputeAverageRating [5] = 5 := by decide
  refine ⟨h5 (Reachable.init []), h1, ?_, ?_, ?_, ?_, ?_, ?_, ?_, ?_, ?_⟩
  · intro x
    rw [show nearTieStore n = (init []).addDocuments _ from rfl, h2 x]
    simp [init, OMap.keys]
  · have := h3 (1, nearTieText n, []) (by simp)
    rw [r0] at this
    exact this
  · have := h3 (2, nearTieText (n + 1), [5]) (by simp)
    rw [r5] at this
    exact this
  · have := h3 (3, nearTieText (n + 2), [5]) (by simp)
    rw [r5] at this
    exact this
  · have := h3 (4, nearTieText (n + 3), [5]) (by simp)
    rw [r5] at this
    exact this
  · have := h3 (5, nearTieText (n + 4), [5]) (by simp)
    rw [r5] at this
    exact this
  · have := h3 (6, nearTieText (n + 5), [5]) (by simp)
    rw [r5] at this
    exact this
  · have := h3 (7, ['f'], [5]) (by simp)
    rw [r5] at this
    exact this
  · intro x hx
    have := h4 x (by simpa using hx)
    rw [show nearTieStore n = (init []).addDocuments _ from rfl, this]
    rfl

end SearchServer

namespace SearchServer

/-- The inverted index of the near-tie store for the word "w". -/
theorem nearTieStore_index (n : Nat) :
    (nearTieStore n).posting? ['w'] 1 = some (1 / ((n : ℚ) + 1)) ∧
      (nearTieStore n).posting? ['w'] 2 = some (1 / (((n + 1 : ℕ) : ℚ) + 1)) ∧
      (nearTieStore n).posting? ['w'] 3 = some (1 / (((n + 2 : ℕ) : ℚ) + 1)) ∧
      (nearTieStore n).posting? ['w'] 4 = some (1 / (((n + 3 : ℕ) : ℚ) + 1)) ∧
      (nearTieStore n).posting? ['w'] 5 = some (1 / (((n + 4 : ℕ) : ℚ) + 1)) ∧
      (nearTieStore n).posting? ['w'] 6 = some (1 / (((n + 5 : ℕ) : ℚ) + 1)) ∧
      (∀ d, (nearTieStore n).hasWord ['w'] d = true ↔ d ∈ [(1 : Int), 2, 3, 4, 5, 6]) ∧
      (nearTieStore n).docFreq ['w'] = 6 ∧ (nearTieStore n).GetDocumentCount = 7 := by
  obtain ⟨hr, hstop, hids, d1, d2, d3, d4, d5, d6, d7, hnone⟩ := nearTieStore_spec n
  have p1 := hr.posting_nearTieText ((hids 1).mpr (by decide)) d1 hstop
  have p2 := hr.posting_nearTieText ((hids 2).mpr (by decide)) d2 hstop
  have p3 := hr.posting_nearTieText ((hids 3).mpr (by decide)) d3 hstop
  have p4 := hr.posting_nearTieText ((hids 4).mpr (by decide)) d4 hstop
  have p5 := hr.posting_nearTieText ((hids 5).mpr (by decide)) d5 hstop
  have p6 := hr.posting_nearTieText ((hids 6).mpr (by decide)) d6 hstop
  have p7 : (nearTieStore n).posting? ['w'] 7 = none := by
    rw [hr.posting_live ((hids 7).mpr (by decide)) d7 hstop]
    exact if_neg (by decide)
  have hw : ∀ d, (nearTieStore n).hasWord ['w'] d = true ↔ d ∈ [(1 : Int), 2, 3, 4, 5, 6] := by
    intro d
    rw [hasWord_eq_posting]
    by_cases hd : d ∈ [(1 : Int), 2, 3, 4, 5, 6, 7]
    · simp only [List.mem_cons, List.mem_singleton, List.not_mem_nil, or_false] at hd
      rcases hd with rfl | rfl | rfl | rfl | rfl | rfl | rfl
      · rw [p1]; simp
      · rw [p2]; simp
      · rw [p3]; simp
      · rw [p4]; simp
      · rw [p5]; simp
      · rw [p6]; simp
      · rw [p7]; simp
    · rw [hr.posting_not_live ((OMap.not_mem_keys_iff _ _).mpr (hnone d hd))]
      have hd' : d ∉ [(1 : Int), 2, 3, 4, 5, 6] :=
        fun h => hd (List.mem_append_left [(7 : Int)] h)
      simp only [Option.isSome_none, Bool.false_eq_true, false_iff]
      exact hd'
  refine ⟨p1, p2, p3, p4, p5, p6, hw, ?_, ?_⟩
  · obtain ⟨l, hl1, hl2, hl3⟩ := docFreq_counts (nearTieStore n) hr.inv ['w']
    have hp : l.Perm [(1 : Int), 2, 3, 4, 5, 6] :=
      (List.perm_ext_iff_of_nodup hl1 (by decide)).mpr (fun d => (hl2 d).trans (hw d))
    rw [hl3, hp.length_eq]
    rfl
  · have hk : ∀ x, x ∈ (nearTieStore n).documents_.keys ↔ x ∈ [(1 : Int), 2, 3, 4, 5, 6, 7] := by
      intro x
      rw [OMap.mem_keys_iff]
      by_cases hx : x ∈ [(1 : Int), 2, 3, 4, 5, 6, 7]
      · simp only [hx, iff_true]
        simp only [List.mem_cons, List.mem_singleton, List.not_mem_nil, or_false] at hx
        rcases hx with rfl | rfl | rfl | rfl | rfl | rfl | rfl
        · rw [d1]; rfl
        · rw [d2]; rfl
        · rw [d3]; rfl
        · rw [d4]; rfl
        · rw [d5]; rfl
        · rw [d6]; rfl
        · rw [d7]; rfl
      · simp only [hx, iff_false]
        rw [hnone x hx]
        simp
    have hp : (nearTieStore n).documents_.keys.Perm [(1 : Int), 2, 3, 4, 5, 6, 7] :=
      (List.perm_ext_iff_of_nodup (OMap.WF_nodup hr.coherent.docs_wf) (by decide)).mpr hk
    have hl := hp.length_eq
    unfold GetDocumentCount OMap.size
    unfold OMap.keys at hl
    rw [List.length_map] at hl
    rw [hl]
    rfl

end SearchServer

namespace SearchServer

variable {K : Type} [LinearOrderedField K]

/-- The documents that the query "w" matches in the near-tie store: documents 1 to 6 in
id order, with their ratings and relevances. -/
theorem nearTieStore_matched (n : Nat) (ln : ℚ → K) :
    ∃ m1 m2 m3 m4 m5 m6 : Document K,
      (nearTieStore n).FindAllDocuments ln { plus_words := [['w']], minus_words := [] }
          (fun _ _ _ => true) = .ok [m1, m2, m3, m4, m5, m6] ∧
        (m1.rating = 0 ∧ m1.relevance = ((1 / ((n : ℚ) + 1) : ℚ) : K) * ln (7 / 6)) ∧
        (m2.rating = 5 ∧
          m2.relevance = ((1 / (((n + 1 : ℕ) : ℚ) + 1) : ℚ) : K) * ln (7 / 6)) ∧
        (m3.rating = 5 ∧
          m3.relevance = ((1 / (((n + 2 : ℕ) : ℚ) + 1) : ℚ) : K) * ln (7 / 6)) ∧
        (m4.rating = 5 ∧
          m4.relevance = ((1 / (((n + 3 : ℕ) : ℚ) + 1) : ℚ) : K) * ln (7 / 6)) ∧
        (m5.rating = 5 ∧
          m5.relevance = ((1 / (((n + 4 : ℕ) : ℚ) + 1) : ℚ) : K) * ln (7 / 6)) ∧
        (m6.rating = 5 ∧
          m6.relevance = ((1 / (((n + 5 : ℕ) : ℚ) + 1) : ℚ) : K) * ln (7 / 6)) := by
  obtain ⟨hr, hstop, hids, d1, d2, d3, d4, d5, d6, d7, hnone⟩ := nearTieStore_spec n
  obtain ⟨p1, p2, p3, p4, p5, p6, hw, hdf, hcnt⟩ := nearTieStore_index n
  obtain ⟨docs, h1, h2, h3, h4⟩ := FindAllDocuments_general (nearTieStore n) hr.inv ln
    { plus_words := [['w']], minus_words := [] } (fun _ _ _ => true)
  have hs := FindAllDocuments_ids_sorted _ hr.inv ln _ _ docs h1
  have hacc : ∀ d, d ∈ [(1 : Int), 2, 3, 4, 5, 6] →
      (nearTieStore n).accepts (fun _ _ _ => true) d = true := by
    intro d hd
    simp only [List.mem_cons, List.mem_singleton, List.not_mem_nil, or_false] at hd
    unfold accepts
    rcases hd with rfl | rfl | rfl | rfl | rfl | rfl
    · rw [d1]
    · rw [d2]
    · rw [d3]
    · rw [d4]
    · rw [d5]
    · rw [d6]
  have hmem : ∀ d, d ∈ docs.map (fun doc => doc.id) ↔ d ∈ [(1 : Int), 2, 3, 4, 5, 6] := by
    intro d
    rw [h3 d]
    constructor
    · rintro ⟨_, hf, _⟩
      by_contra hc
      apply hf
      have hc' : (nearTieStore n).hasWord ['w'] d = false := by
        cases hh : (nearTieStore n).hasWord ['w'] d
        · rfl
        · exact absurd ((hw d).mp hh) hc
      simp [hc']
    · intro hd
      refine ⟨hacc d hd, ?_, rfl⟩
      simp [(hw d).mpr hd]
  have hperm := (List.perm_ext_iff_of_nodup h2 (by decide)).mpr hmem
  have hids' : docs.map (fun doc => doc.id) = [(1 : Int), 2, 3, 4, 5, 6] :=
    List.eq_of_perm_of_sorted hperm hs (by decide)
  have key : ∀ (m : Document K) (f : ℚ) (k r : Int) (T : Str), m ∈ docs → m.id = k →
      (nearTieStore n).posting? ['w'] k = some f →
      (nearTieStore n).documents_.find? k = some { rating := r, status := .ACTUAL, text := T } →
      m.rating = r ∧ m.relevance = (f : K) * ln (7 / 6) := by
    intro m f k r T hm hi hp hd
    obtain ⟨hrel, data, hdata, hrat⟩ := h4 m hm
    rw [hi] at hrel hdata
    rw [hd] at hdata
    cases hdata
    refine ⟨hrat, ?_⟩
    have hh : (nearTieStore n).hasWord ['w'] k = true := by
      rw [hasWord_eq_posting, hp]
      rfl
    rw [hrel]
    simp only [List.filter_cons, hh, List.filter_nil, if_true, List.map_cons, List.map_nil,
      List.sum_cons, List.sum_nil, add_zero, termFreq_eq_posting, hp, Option.getD_some, hdf,
      hcnt]
    norm_num
  simp only [List.map_eq_cons_iff, List.map_eq_nil_iff] at hids'
  obtain ⟨m1, t1, rfl, i1, m2, t2, rfl, i2, m3, t3, rfl, i3, m4, t4, rfl, i4, m5, t5, rfl, i5,
    m6, t6, rfl, i6, rfl⟩ := hids'
  exact ⟨m1, m2, m3, m4, m5, m6, h1, key m1 _ 1 _ _ (by simp) i1 p1 d1,
    key m2 _ 2 _ _ (by simp) i2 p2 d2, key m3 _ 3 _ _ (by simp) i3 p3 d3,
    key m4 _ 4 _ _ (by simp) i4 p4 d4, key m5 _ 5 _ _ (by simp) i5 p5 d5,
    key m6 _ 6 _ _ (by simp) i6 p6 d6⟩

end SearchServer

theorem std_sort.ins_last {α : Type} (comp : α → α → Bool) (x : α) (l : List α)
    (h : ∀ y ∈ l, comp y x = true) : std_sort.ins comp x l = l ++ [x] := by
  induction l with
  | nil => rfl
  | cons y t ih =>
    show (if comp y x = true then y :: std_sort.ins comp x t else x :: y :: t) = _
    rw [if_pos (h y (List.mem_cons_self _ _)),
      ih (fun z hz => h z (List.mem_cons_of_mem _ hz))]
    rfl

namespace SearchServer

/-- Two term frequencies 1/(2^26 + 1) and 1/(2^26 + j + 1), weighted by an inverse
document frequency of at most 1/6, are closer than epsilon. -/
theorem nearTie_close (c : ℝ) (hc0 : 0 < c) (hc : c ≤ 1 / 6) (j : ℕ) (hj : j ≤ 5) :
    |((1 / (((2 ^ 26 + j : ℕ) : ℚ) + 1) : ℚ) : ℝ) * c -
      ((1 / (((2 ^ 26 : ℕ) : ℚ) + 1) : ℚ) : ℝ) * c| < 1 / 2 ^ 52 := by
  have e : ((1 / (((2 ^ 26 + j : ℕ) : ℚ) + 1) : ℚ) : ℝ) * c -
      ((1 / (((2 ^ 26 : ℕ) : ℚ) + 1) : ℚ) : ℝ) * c =
      -(c * ((j : ℝ) / ((2 ^ 26 + j + 1) * (2 ^ 26 + 1)))) := by
    push_cast
    field_simp
    ring
  rw [e, abs_neg, abs_of_nonneg (by positivity)]
  have hj' : (j : ℝ) ≤ 5 := by exact_mod_cast hj
  have hj0 : (0 : ℝ) ≤ j := Nat.cast_nonneg j
  have h1 : (j : ℝ) / ((2 ^ 26 + j + 1) * (2 ^ 26 + 1)) ≤ 5 / 2 ^ 52 := by
    rw [div_le_div_iff₀ (by positivity) (by positivity)]
    nlinarith
  calc c * ((j : ℝ) / ((2 ^ 26 + j + 1) * (2 ^ 26 + 1)))
      ≤ 1 / 6 * (5 / 2 ^ 52) := by
        apply mul_le_mul hc h1 (by positivity) (by norm_num)
    _ < 1 / 2 ^ 52 := by norm_num

theorem nearTie_gt (c : ℝ) (hc0 : 0 < c) (i j : ℕ) (hij : i < j) :
    ((1 / ((j : ℚ) + 1) : ℚ) : ℝ) * c < ((1 / ((i : ℚ) + 1) : ℚ) : ℝ) * c := by
  apply mul_lt_mul_of_pos_right _ hc0
  push_cast
  apply one_div_lt_one_div_of_lt (by positivity)
  have : (i : ℝ) < j := by exact_mod_cast hij
  linarith

theorem log_seven_sixths : 0 < Real.log (((7 / 6 : ℚ) : ℝ)) ∧
    Real.log (((7 / 6 : ℚ) : ℝ)) ≤ 1 / 6 := by
  have e : ((7 / 6 : ℚ) : ℝ) = 7 / 6 := by norm_num
  rw [e]
  constructor
  · exact Real.log_pos (by norm_num)
  · have := Real.log_le_sub_one_of_pos (show (0 : ℝ) < 7 / 6 by norm_num)
    linarith

/-- When the comparator ranks each of five matched documents before the first matched
document, the sequential `FindTopDocuments` returns the five, sorted, without the first. -/
theorem FindTopDocuments_drops_first {K : Type} [LinearOrderedField K] (s : SearchServer)
    (ln : ℚ → K) (raw_query : Str) (q : Query) (pred : DocumentPredicate)
    (m1 : Document K) (rest : List (Document K))
    (hq : s.ParseQuery raw_query false = .ok q)
    (hm : s.FindAllDocuments ln q pred = .ok (m1 :: rest)) (hlen : rest.length = 5)
    (hb : ∀ y ∈ rest, before y m1 = true) :
    s.FindTopDocuments ln .seq raw_query pred = .ok (std_sort before rest) := by
  have hperm := std_sort_perm (before : Document K → Document K → Bool) rest
  have hsort : std_sort before (m1 :: rest) = std_sort before rest ++ [m1] := by
    show std_sort.ins before m1 (std_sort before rest) = _
    exact std_sort.ins_last _ _ _ (fun y hy => hb y (hperm.mem_iff.mp hy))
  have hlen' : (std_sort before rest).length = 5 := hperm.length_eq.trans hlen
  have hgt : (std_sort before rest ++ [m1]).length > MAX_RESULT_DOCUMENT_COUNT := by
    rw [List.length_append, hlen']
    exact Nat.lt_succ_self 5
  unfold FindTopDocuments
  simp only [hq, hm, hsort]
  rw [if_pos hgt]
  exact congrArg Except.ok (List.take_left' hlen')

/-- C11, counterexample to the claim as stated: in the store `nearTieStore (2 ^ 26)` the
query "w" matches the six documents 1 to 6 with pairwise distinct relevances (natural
logarithm, exact real arithmetic). Document 1 has the greatest relevance and the rating 0;
the other five are within epsilon of it and have the rating 5, so the comparator ranks
them before document 1, and `FindTopDocuments` returns five documents without document 1:
a matched document that is left out has a relevance greater than a returned one. -/
theorem FindTopDocuments_near_ties :
    ∃ matched docs : List (Document ℝ),
      Reachable (nearTieStore (2 ^ 26)) ∧
      (nearTieStore (2 ^ 26)).ParseQuery ['w'] false =
        .ok { plus_words := [['w']], minus_words := [] } ∧
      (nearTieStore (2 ^ 26)).FindAllDocuments (fun x : ℚ => Real.log (x : ℝ))
        { plus_words := [['w']], minus_words := [] } (fun _ _ _ => true) = .ok matched ∧
      (matched.map (fun d => d.relevance)).Nodup ∧
      (nearTieStore (2 ^ 26)).FindTopDocuments (fun x : ℚ => Real.log (x : ℝ)) .seq ['w']
        (fun _ _ _ => true) = .ok docs ∧
      ∃ d ∈ matched, d ∉ docs ∧ ∃ r ∈ docs, d.relevance > r.relevance := by
  obtain ⟨m1, m2, m3, m4, m5, m6, hm, ⟨r1, e1⟩, ⟨r2, e2⟩, ⟨r3, e3⟩, ⟨r4, e4⟩, ⟨r5, e5⟩,
    ⟨r6, e6⟩⟩ := nearTieStore_matched (2 ^ 26) (fun x : ℚ => Real.log (x : ℝ))
  beta_reduce at e1 e2 e3 e4 e5 e6
  obtain ⟨hr, hstop, -⟩ := nearTieStore_spec (2 ^ 26)
  obtain ⟨hc0, hc⟩ := log_seven_sixths
  have hq : (nearTieStore (2 ^ 26)).ParseQuery ['w'] false =
      .ok { plus_words := [['w']], minus_words := [] } := by
    rw [ParseQuery_congr _ (init []) hstop]
    rfl
  have hb : ∀ (m : Document ℝ) (j : ℕ), j ≤ 5 → m.rating = 5 →
      m.relevance = ((1 / (((2 ^ 26 + j : ℕ) : ℚ) + 1) : ℚ) : ℝ) *
        Real.log (((7 / 6 : ℚ) : ℝ)) → before m m1 = true := by
    intro m j hj hrat hrel
    unfold before epsilon
    simp only [Bool.or_eq_true, Bool.and_eq_true, decide_eq_true_eq]
    right
    constructor
    · rw [hrel, e1]
      exact nearTie_close _ hc0 hc j hj
    · rw [hrat, r1]
      decide
  have hperm := std_sort_perm (before : Document ℝ → Document ℝ → Bool) [m2, m3, m4, m5, m6]
  have htop := FindTopDocuments_drops_first (nearTieStore (2 ^ 26))
    (fun x : ℚ => Real.log (x : ℝ)) ['w'] { plus_words := [['w']], minus_words := [] }
    (fun _ _ _ => true) m1 [m2, m3, m4, m5, m6] hq hm rfl (by
      intro y hy
      simp only [List.mem_cons, List.mem_singleton, List.not_mem_nil, or_false] at hy
      rcases hy with rfl | rfl | rfl | rfl | rfl
      · exact hb _ 1 (by decide) r2 e2
      · exact hb _ 2 (by decide) r3 e3
      · exact hb _ 3 (by decide) r4 e4
      · exact hb _ 4 (by decide) r5 e5
      · exact hb _ 5 (by decide) r6 e6)
  have g12 := nearTie_gt _ hc0 (2 ^ 26) (2 ^ 26 + 1) (by norm_num)
  have g23 := nearTie_gt _ hc0 (2 ^ 26 + 1) (2 ^ 26 + 2) (by norm_num)
  have g34 := nearTie_gt _ hc0 (2 ^ 26 + 2) (2 ^ 26 + 3) (by norm_num)
  have g45 := nearTie_gt _ hc0 (2 ^ 26 + 3) (2 ^ 26 + 4) (by norm_num)
  have g56 := nearTie_gt _ hc0 (2 ^ 26 + 4) (2 ^ 26 + 5) (by norm_num)
  rw [← e1, ← e2] at g12
  rw [← e2, ← e3] at g23
  rw [← e3, ← e4] at g34
  rw [← e4, ← e5] at g45
  rw [← e5, ← e6] at g56
  refine ⟨[m1, m2, m3, m4, m5, m6], _, hr, hq, hm, ?_, htop, m1, List.mem_cons_self _ _, ?_,
    m2, hperm.mem_iff.mpr (List.mem_cons_self _ _), g12⟩
  · have hch : List.Chain' (fun a b : ℝ => a > b)
        [m1.relevance, m2.relevance, m3.relevance, m4.relevance, m5.relevance,
          m6.relevance] := by
      simp only [List.chain'_cons, List.chain'_singleton, and_true]
      exact ⟨g12, g23, g34, g45, g56⟩
    haveI : IsTrans ℝ (fun a b : ℝ => a > b) := ⟨fun a b c hab hbc => gt_trans hab hbc⟩
    exact (List.chain'_iff_pairwise.mp hch).imp (fun h => h.ne')
  · intro h1
    have h1' := hperm.mem_iff.mp h1
    simp only [List.mem_cons, List.mem_singleton, List.not_mem_nil, or_false] at h1'
    rcases h1' with h | h | h | h | h
    · rw [h, r2] at r1
      exact absurd r1 (by decide)
    · rw [h, r3] at r1
      exact absurd r1 (by decide)
    · rw [h, r4] at r1
      exact absurd r1 (by decide)
    · rw [h, r5] at r1
      exact absurd r1 (by decide)
    · rw [h, r6] at r1
      exact absurd r1 (by decide)

end SearchServer


/-! ## The ranking comparator as an ordering -/

namespace SearchServer

variable {K : Type} [LinearOrderedField K]

/-- On relevances that are equal or at least epsilon apart the comparator is the
lexicographic order: relevance descending, then rating descending. -/
theorem before_iff_lex (a b : Document K)
    (h : a.relevance = b.relevance ∨ (1 / 2 ^ 52 : K) ≤ |a.relevance - b.relevance|) :
    before a b = true ↔
      (a.relevance > b.relevance ∨ (a.relevance = b.relevance ∧ a.rating > b.rating)) := by
  unfold before epsilon
  simp only [Bool.or_eq_true, Bool.and_eq_true, decide_eq_true_eq]
  constructor
  · rintro (h1 | ⟨h1, h2⟩)
    · exact Or.inl h1
    · rcases h with h | h
      · exact Or.inr ⟨h, h2⟩
      · exact absurd h1 (not_lt.mpr h)
  · rintro (h1 | ⟨h1, h2⟩)
    · exact Or.inl h1
    · refine Or.inr ⟨?_, h2⟩
      rw [h1, sub_self, abs_zero]
      positivity

/-- On relevances that are equal or at least epsilon apart, two documents are
incomparable exactly when they have the same relevance and the same rating. -/
theorem before_incomparable_iff (a b : Document K)
    (h : a.relevance = b.relevance ∨ (1 / 2 ^ 52 : K) ≤ |a.relevance - b.relevance|) :
    (before a b = false ∧ before b a = false) ↔
      (a.relevance = b.relevance ∧ a.rating = b.rating) := by
  have hba : b.relevance = a.relevance ∨
      (1 / 2 ^ 52 : K) ≤ |b.relevance - a.relevance| := by
    rcases h with h | h
    · exact Or.inl h.symm
    · exact Or.inr (by rwa [abs_sub_comm])
  rw [← Bool.not_eq_true, ← Bool.not_eq_true, before_iff_lex a b h, before_iff_lex b a hba]
  constructor
  · rintro ⟨h1, h2⟩
    rw [not_or] at h1 h2
    have e : a.relevance = b.relevance := le_antisymm (not_lt.mp h1.1) (not_lt.mp h2.1)
    refine ⟨e, le_antisymm ?_ ?_⟩
    · exact not_lt.mp (fun hr => h1.2 ⟨e, hr⟩)
    · exact not_lt.mp (fun hr => h2.2 ⟨e.symm, hr⟩)
  · rintro ⟨e, r⟩
    rw [e, r]
    simp

/-- On relevances that are pairwise equal or at least epsilon apart, incomparability
under the comparator is transitive. -/
theorem before_incomparable_trans (a b c : Document K)
    (hab : a.relevance = b.relevance ∨ (1 / 2 ^ 52 : K) ≤ |a.relevance - b.relevance|)
    (hbc : b.relevance = c.relevance ∨ (1 / 2 ^ 52 : K) ≤ |b.relevance - c.relevance|)
    (hac : a.relevance = c.relevance ∨ (1 / 2 ^ 52 : K) ≤ |a.relevance - c.relevance|)
    (h1 : before a b = false ∧ before b a = false)
    (h2 : before b c = false ∧ before c b = false) :
    before a c = false ∧ before c a = false := by
  obtain ⟨e1, r1⟩ := (before_incomparable_iff a b hab).mp h1
  obtain ⟨e2, r2⟩ := (before_incomparable_iff b c hbc).mp h2
  exact (before_incomparable_iff a c hac).mpr ⟨e1.trans e2, r1.trans r2⟩

/-- C21 (as amended): the ranking comparator passed to the sort in `FindTopDocuments`,
before(a, b) := a.relevance > b.relevance or (|a.relevance - b.relevance| < epsilon and
a.rating > b.rating), is irreflexive for all relevances and ratings, and on documents
whose relevances are pairwise equal or at least epsilon (2^-52) apart it is asymmetric
(before(a, b) and before(b, a) never both hold) and transitive, for all ratings. -/
theorem before_strict_weak_order (a b c : Document K)
    (hab : a.relevance = b.relevance ∨ (1 / 2 ^ 52 : K) ≤ |a.relevance - b.relevance|)
    (hbc : b.relevance = c.relevance ∨ (1 / 2 ^ 52 : K) ≤ |b.relevance - c.relevance|)
    (hac : a.relevance = c.relevance ∨ (1 / 2 ^ 52 : K) ≤ |a.relevance - c.relevance|) :
    before a a = false ∧ ¬ (before a b = true ∧ before b a = true) ∧
      (before a b = true → before b c = true → before a c = true) := by
  have hba : b.relevance = a.relevance ∨
      (1 / 2 ^ 52 : K) ≤ |b.relevance - a.relevance| := by
    rcases hab with h | h
    · exact Or.inl h.symm
    · exact Or.inr (by rwa [abs_sub_comm])
  refine ⟨?_, ?_, ?_⟩
  · cases hb : before a a
    · rfl
    · rcases (before_iff_lex a a (Or.inl rfl)).mp hb with h | ⟨_, h⟩
      · exact absurd h (lt_irrefl _)
      · exact absurd h (lt_irrefl _)
  · rintro ⟨h1, h2⟩
    rcases (before_iff_lex a b hab).mp h1 with h1 | ⟨e1, r1⟩ <;>
      rcases (before_iff_lex b a hba).mp h2 with h2 | ⟨e2, r2⟩
    · exact lt_asymm h1 h2
    · rw [e2] at h1
      exact lt_irrefl _ h1
    · rw [e1] at h2
      exact lt_irrefl _ h2
    · exact lt_asymm r1 r2
  · intro h1 h2
    rw [before_iff_lex a c hac]
    rcases (before_iff_lex a b hab).mp h1 with h1 | ⟨e1, r1⟩ <;>
      rcases (before_iff_lex b c hbc).mp h2 with h2 | ⟨e2, r2⟩
    · exact Or.inl (gt_trans h1 h2)
    · rw [e2] at h1
      exact Or.inl h1
    · rw [← e1] at h2
      exact Or.inl h2
    · exact Or.inr ⟨e1.trans e2, gt_trans r1 r2⟩

theorem before_strict_weak_order_witness :
    (({ id := 1, relevance := 1, rating := 3 } : Document ℚ).relevance =
        ({ id := 2, relevance := 1, rating := 2 } : Document ℚ).relevance) ∧
      ((1 / 2 ^ 52 : ℚ) ≤ |({ id := 2, relevance := 1, rating := 2 } : Document ℚ).relevance -
        ({ id := 3, relevance := 0, rating := 5 } : Document ℚ).relevance|) ∧
      (before ({ id := 1, relevance := 1, rating := 3 } : Document ℚ)
          { id := 1, relevance := 1, rating := 3 } = false ∧
        ¬ (before ({ id := 1, relevance := 1, rating := 3 } : Document ℚ)
            { id := 2, relevance := 1, rating := 2 } = true ∧
          before ({ id := 2, relevance := 1, rating := 2 } : Document ℚ)
            { id := 1, relevance := 1, rating := 3 } = true) ∧
        (before ({ id := 1, relevance := 1, rating := 3 } : Document ℚ)
            { id := 2, relevance := 1, rating := 2 } = true →
          before ({ id := 2, relevance := 1, rating := 2 } : Document ℚ)
            { id := 3, relevance := 0, rating := 5 } = true →
          before ({ id := 1, relevance := 1, rating := 3 } : Document ℚ)
            { id := 3, relevance := 0, rating := 5 } = true)) :=
  ⟨rfl, by norm_num,
    before_strict_weak_order ({ id := 1, relevance := 1, rating := 3 } : Document ℚ)
      { id := 2, relevance := 1, rating := 2 } { id := 3, relevance := 0, rating := 5 }
      (Or.inl rfl) (Or.inr (by norm_num)) (Or.inr (by norm_num))⟩

/-- C21, counterexample to the claim as stated, on relevances and ratings that are exact
`double` values. Asymmetry: with relevances 2^-53 and 0 and ratings 0 and 1, the first
document comes before the second by its relevance and the second before the first by its
rating, the relevances being within epsilon. Transitivity: with relevances 0, 2^-53,
2^-52 and ratings 2, 1, 0, the first comes before the second and the second before the
third by the ratings, but the first does not come before the third, whose relevance is
greater by epsilon. -/
theorem before_not_strict_weak_order :
    (before ({ id := 1, relevance := 1 / 2 ^ 53, rating := 0 } : Document ℚ)
          { id := 2, relevance := 0, rating := 1 } = true ∧
        before ({ id := 2, relevance := 0, rating := 1 } : Document ℚ)
          { id := 1, relevance := 1 / 2 ^ 53, rating := 0 } = true) ∧
      (before ({ id := 1, relevance := 0, rating := 2 } : Document ℚ)
          { id := 2, relevance := 1 / 2 ^ 53, rating := 1 } = true ∧
        before ({ id := 2, relevance := 1 / 2 ^ 53, rating := 1 } : Document ℚ)
          { id := 3, relevance := 1 / 2 ^ 52, rating := 0 } = true ∧
        before ({ id := 1, relevance := 0, rating := 2 } : Document ℚ)
          { id := 3, relevance := 1 / 2 ^ 52, rating := 0 } = false) := by
  refine ⟨⟨?_, ?_⟩, ?_, ?_, ?_⟩
  · simp only [before, epsilon, Bool.or_eq_true, Bool.and_eq_true, decide_eq_true_eq]
    norm_num
  · simp only [before, epsilon, Bool.or_eq_true, Bool.and_eq_true, decide_eq_true_eq]
    norm_num [abs_lt]
  · simp only [before, epsilon, Bool.or_eq_true, Bool.and_eq_true, decide_eq_true_eq]
    norm_num [abs_lt]
  · simp only [before, epsilon, Bool.or_eq_true, Bool.and_eq_true, decide_eq_true_eq]
    norm_num [abs_lt]
  · simp only [before, epsilon, Bool.or_eq_false_iff, Bool.and_eq_false_iff,
      decide_eq_false_iff_not]
    norm_num
    exact le_abs_self _

end SearchServer


/-! ## Keys of the inverted index that outlive their text -/

namespace TrackedServer

/-- C19, the code at the failing input: after `AddDocument(1, "cat")`,
`AddDocument(2, "cat")`, `RemoveDocument(1)` the key "cat" of the inverted index, which
carries the posting of the live document 2, views the text of record 1, and that record
has been erased: the key dangles. After `AddDocument(3, "dog")`, on the members as the
source reads them once the freed text has been reused (`reusedKeyStore`), the inverted
index holds the posting "dog" -> 2 -> 1 while the reverse index holds 2 -> "cat" -> 1 and
nothing for "dog": the indices are out of step. -/
theorem RemoveDocument_leaves_dangling_key :
    catStore.server.word_to_document_freqs_ = [("cat".toList, [(2, 1)])] ∧
      catStore.server.doc_to_word_freq = [(2, [("cat".toList, 1)])] ∧
      catStore.key_text_ = [("cat".toList, 1)] ∧
      catStore.server.documents_.count 1 = 0 ∧
      catStore.dangling = ["cat".toList] ∧
      reusedKeyStore.posting? "dog".toList 2 = some 1 ∧
      reusedKeyStore.reverse? 2 "dog".toList = none ∧
      reusedKeyStore.reverse? 2 "cat".toList = some 1 ∧
      reusedKeyStore.posting? "cat".toList 2 = none := by
  refine ⟨?_, ?_, ?_, ?_, ?_, ?_, ?_, ?_, ?_⟩
  · with_unfolding_all rfl
  · with_unfolding_all rfl
  · rfl
  · rfl
  · rfl
  · rfl
  · rfl
  · rfl
  · rfl

/-- C14, the code at the failing input: on the store after `AddDocument(1, "cat")`,
`AddDocument(2, "cat")`, `RemoveDocument(1)`, `AddDocument(3, "dog")` the key "cat" dangles,
and "cat" is the word that both `RemoveDocument(2)` and its parallel variant look up in
the inverted index. On the members as the source reads them once the freed text has been
reused (`reusedKeyStore`), the word "cat" is not found: the sequential variant
(`operator[]`) inserts the key and returns, the parallel variant (`at`) raises
`out_of_range`. -/
theorem RemoveDocument_variants_read_dangling_key :
    (catStore.AddDocument 3 "dog".toList .ACTUAL [1]).1 = .ok () ∧
      (catStore.AddDocument 3 "dog".toList .ACTUAL [1]).2.dangling = ["cat".toList] ∧
      (catStore.AddDocument 3 "dog".toList .ACTUAL [1]).2.server.removalWords 2 =
        ["cat".toList] ∧
      reusedKeyStore.removalWords 2 = ["cat".toList] ∧
      (reusedKeyStore.RemoveDocument 2).1 = .ok () ∧
      (reusedKeyStore.RemoveDocument 2).2.word_to_document_freqs_ =
        [("cat".toList, []), ("dog".toList, [(2, 1), (3, 1)])] ∧
      (reusedKeyStore.RemoveDocumentPar 2 ["cat".toList]).1 = .error .out_of_range := by
  refine ⟨?_, ?_, ?_, ?_, ?_, ?_, ?_⟩
  · rfl
  · rfl
  · rfl
  · rfl
  · rfl
  · with_unfolding_all rfl
  · rfl

/-- C20, the code at the failing input: on a server without documents, `AddDocument(1,
"cat")` followed by `RemoveDocument(1)` succeeds and leaves the key "cat" in the inverted
index with an empty posting map; the key views the text of record 1, which has been
erased, so every later lookup in the inverted index compares with a dangling key. On the
reachable store `catStore`, where `MatchDocument("cat", 2)` returns the word "cat", the
round trip `AddDocument(3, "dog")`, `RemoveDocument(3)` reuses the freed text: on the
members as the source then reads them (`reusedKeyStore` before the removal),
`MatchDocument("cat", 2)` returns no word. -/
theorem add_remove_leaves_dangling_key :
    (((init []).AddDocument 1 "cat".toList .ACTUAL [1]).2.RemoveDocument 1).1 = .ok () ∧
      (((init []).AddDocument 1 "cat".toList .ACTUAL [1]).2.RemoveDocument
        1).2.server.word_to_document_freqs_ = [("cat".toList, [])] ∧
      (((init []).AddDocument 1 "cat".toList .ACTUAL [1]).2.RemoveDocument
        1).2.server.documents_ = [] ∧
      (((init []).AddDocument 1 "cat".toList .ACTUAL [1]).2.RemoveDocument
        1).2.dangling = ["cat".toList] ∧
      catStore.server.MatchDocument "cat".toList 2 = .ok (["cat".toList], .ACTUAL) ∧
      (reusedKeyStore.RemoveDocument 3).1 = .ok () ∧
      (reusedKeyStore.RemoveDocument 3).2.MatchDocument "cat".toList 2 =
        .ok ([], .ACTUAL) := by
  refine ⟨?_, ?_, ?_, ?_, ?_, ?_, ?_⟩ <;> rfl

end TrackedServer


/-! ## A sort outside the contract of `std::sort` -/

namespace SearchServer

theorem nearTieDocuments_ids (n k : Nat) :
    (nearTieDocuments n k).map (fun d => d.1) =
      (List.range (k + 1)).map (fun i : Nat => ((i : Int) + 1)) := by
  unfold nearTieDocuments
  rw [List.map_append, List.map_map, List.range_succ, List.map_append]
  rfl

theorem mem_nearTieDocuments_ids (n k : Nat) (x : Int) :
    x ∈ (nearTieDocuments n k).map (fun d => d.1) ↔ ∃ i, i ≤ k ∧ x = (i : Int) + 1 := by
  rw [nearTieDocuments_ids, List.mem_map]
  constructor
  · rintro ⟨i, hi, rfl⟩
    exact ⟨i, Nat.lt_succ_iff.mp (List.mem_range.mp hi), rfl⟩
  · rintro ⟨i, hi, rfl⟩
    exact ⟨i, List.mem_range.mpr (Nat.lt_succ_iff.mpr hi), rfl⟩

theorem nearTieDocuments_nodup (n k : Nat) :
    ((nearTieDocuments n k).map (fun d => d.1)).Nodup := by
  rw [nearTieDocuments_ids]
  apply (List.nodup_range _).map
  intro i j h
  have h' : (i : Int) + 1 = (j : Int) + 1 := h
  omega

/-- The state of the store of `nearTieDocuments`. -/
theorem nearTieStoreOf_spec (n k : Nat) :
    Reachable (nearTieStoreOf n k) ∧ (nearTieStoreOf n k).stop_words_ = [] ∧
      (∀ x, x ∈ (nearTieStoreOf n k).document_ids_.keys ↔ ∃ i, i ≤ k ∧ x = (i : Int) + 1) ∧
      (∀ i, i < k → (nearTieStoreOf n k).documents_.find? ((i : Int) + 1) =
        some { rating := ComputeAverageRating (if i + 1 = k then [5] else []),
               status := .ACTUAL, text := nearTieText (n + i) }) ∧
      (nearTieStoreOf n k).documents_.find? ((k : Int) + 1) =
        some { rating := 0, status := .ACTUAL, text := ['f'] } ∧
      (∀ x, (¬ ∃ i, i ≤ k ∧ x = (i : Int) + 1) →
        (nearTieStoreOf n k).documents_.find? x = none) := by
  have hf : ∀ t ∈ SplitIntoWordsView ['f'], IsValidWord t = true := by decide
  have hk : ∀ x : Int, x ∉ (init []).documents_.keys := fun x hx => by
    simp [init, OMap.keys] at hx
  have hmemd : ∀ d ∈ nearTieDocuments n k,
      (∃ i, i < k ∧ d = (((i : Int) + 1), nearTieText (n + i),
        if i + 1 = k then [5] else [])) ∨ d = (((k : Int) + 1), ['f'], []) := by
    intro d hd
    unfold nearTieDocuments at hd
    rcases List.mem_append.mp hd with h | h
    · obtain ⟨i, hi, rfl⟩ := List.mem_map.mp h
      exact Or.inl ⟨i, List.mem_range.mp hi, rfl⟩
    · exact Or.inr (List.mem_singleton.mp h)
  obtain ⟨h1, h2, h3, h4, h5⟩ := addDocuments_spec (nearTieDocuments n k) (init [])
    (nearTieDocuments_nodup n k) (by
      intro d hd
      rcases hmemd d hd with ⟨i, _, rfl⟩ | rfl
      · exact ⟨by positivity, hk _, nearTieText_valid _⟩
      · exact ⟨by positivity, hk _, hf⟩)
  refine ⟨h5 (Reachable.init []), h1, ?_, ?_, ?_, ?_⟩
  · intro x
    rw [show nearTieStoreOf n k = (init []).addDocuments _ from rfl, h2 x,
      mem_nearTieDocuments_ids]
    simp [init, OMap.keys]
  · intro i hi
    have hm : (((i : Int) + 1), nearTieText (n + i), if i + 1 = k then [5] else []) ∈
        nearTieDocuments n k := by
      unfold nearTieDocuments
      exact List.mem_append_left _ (List.mem_map.mpr ⟨i, List.mem_range.mpr hi, rfl⟩)
    exact h3 _ hm
  · have hm : (((k : Int) + 1), ['f'], ([] : List Int)) ∈ nearTieDocuments n k := by
      unfold nearTieDocuments
      exact List.mem_append_right _ (List.mem_singleton.mpr rfl)
    have := h3 _ hm
    have r0 : ComputeAverageRating [] = 0 := by decide
    rw [r0] at this
    exact this
  · intro x hx
    have := h4 x (by rwa [mem_nearTieDocuments_ids])
    rw [show nearTieStoreOf n k = (init []).addDocuments _ from rfl, this]
    rfl

end SearchServer


theorem strictWeakOrderOn_asymm {α : Type} (comp : α → α → Bool) (l : List α)
    (h : strictWeakOrderOn comp l = true) :
    ∀ a ∈ l, ∀ b ∈ l, ¬ (comp a b = true ∧ comp b a = true) := by
  unfold strictWeakOrderOn at h
  simp only [Bool.and_eq_true, List.all_eq_true] at h
  obtain ⟨⟨hirr, htr⟩, _⟩ := h
  rintro a ha b hb ⟨h1, h2⟩
  have h3 := htr a ha b hb a ha
  have h4 := hirr a ha
  rw [h1, h2] at h3
  cases hc : comp a a
  · rw [hc] at h3
    cases h3
  · rw [hc] at h4
    cases h4

namespace SearchServer

variable {K : Type} [LinearOrderedField K]

/-- The inverted index of the store of `nearTieDocuments` for the word "w". -/
theorem nearTieStoreOf_index (n k : Nat) :
    (∀ i, i < k → (nearTieStoreOf n k).posting? ['w'] ((i : Int) + 1) =
        some (1 / (((n + i : ℕ) : ℚ) + 1))) ∧
      (∀ x, (nearTieStoreOf n k).hasWord ['w'] x = true ↔ ∃ i, i < k ∧ x = (i : Int) + 1) ∧
      (nearTieStoreOf n k).docFreq ['w'] = k ∧
      (nearTieStoreOf n k).GetDocumentCount = k + 1 := by
  obtain ⟨hr, hstop, hids, hdoc, hlast, hnone⟩ := nearTieStoreOf_spec n k
  have hp : ∀ i, i < k → (nearTieStoreOf n k).posting? ['w'] ((i : Int) + 1) =
      some (1 / (((n + i : ℕ) : ℚ) + 1)) := fun i hi =>
    hr.posting_nearTieText ((hids _).mpr ⟨i, le_of_lt hi, rfl⟩) (hdoc i hi) hstop
  have hplast : (nearTieStoreOf n k).posting? ['w'] ((k : Int) + 1) = none := by
    rw [hr.posting_live ((hids _).mpr ⟨k, le_refl k, rfl⟩) hlast hstop]
    exact if_neg (by decide)
  have hw : ∀ x, (nearTieStoreOf n k).hasWord ['w'] x = true ↔
      ∃ i, i < k ∧ x = (i : Int) + 1 := by
    intro x
    rw [hasWord_eq_posting]
    by_cases hx : ∃ i, i ≤ k ∧ x = (i : Int) + 1
    · obtain ⟨i, hi, rfl⟩ := hx
      rcases Nat.lt_or_eq_of_le hi with hlt | rfl
      · rw [hp i hlt]
        simp only [Option.isSome_some, true_iff]
        exact ⟨i, hlt, rfl⟩
      · rw [hplast]
        simp only [Option.isSome_none, Bool.false_eq_true, false_iff]
        rintro ⟨j, hj, h⟩
        omega
    · rw [hr.posting_not_live ((OMap.not_mem_keys_iff _ _).mpr (hnone x hx))]
      simp only [Option.isSome_none, Bool.false_eq_true, false_iff]
      rintro ⟨i, hi, h⟩
      exact hx ⟨i, le_of_lt hi, h⟩
  have hinj : Function.Injective (fun i : Nat => ((i : Int) + 1)) := by
    intro i j h
    have h' : (i : Int) + 1 = (j : Int) + 1 := h
    omega
  refine ⟨hp, hw, ?_, ?_⟩
  · obtain ⟨l, hl1, hl2, hl3⟩ := docFreq_counts (nearTieStoreOf n k) hr.inv ['w']
    have hperm : l.Perm ((List.range k).map (fun i : Nat => ((i : Int) + 1))) := by
      refine (List.perm_ext_iff_of_nodup hl1 ((List.nodup_range k).map hinj)).mpr ?_
      intro x
      rw [hl2 x, hw x, List.mem_map]
      constructor
      · rintro ⟨i, hi, rfl⟩
        exact ⟨i, List.mem_range.mpr hi, rfl⟩
      · rintro ⟨i, hi, rfl⟩
        exact ⟨i, List.mem_range.mp hi, rfl⟩
    rw [hl3, hperm.length_eq, List.length_map, List.length_range]
  · have hkeys : ∀ x, x ∈ (nearTieStoreOf n k).documents_.keys ↔
        ∃ i, i ≤ k ∧ x = (i : Int) + 1 := by
      intro x
      rw [OMap.mem_keys_iff]
      by_cases hx : ∃ i, i ≤ k ∧ x = (i : Int) + 1
      · simp only [hx, iff_true]
        obtain ⟨i, hi, rfl⟩ := hx
        rcases Nat.lt_or_eq_of_le hi with hlt | rfl
        · rw [hdoc i hlt]
          rfl
        · rw [hlast]
          rfl
      · simp only [hx, iff_false]
        rw [hnone x hx]
        simp
    have hperm : (nearTieStoreOf n k).documents_.keys.Perm
        ((List.range (k + 1)).map (fun i : Nat => ((i : Int) + 1))) := by
      refine (List.perm_ext_iff_of_nodup (OMap.WF_nodup hr.coherent.docs_wf)
        ((List.nodup_range _).map hinj)).mpr ?_
      intro x
      rw [hkeys x, List.mem_map]
      constructor
      · rintro ⟨i, hi, rfl⟩
        exact ⟨i, List.mem_range.mpr (Nat.lt_succ_iff.mpr hi), rfl⟩
      · rintro ⟨i, hi, rfl⟩
        exact ⟨i, Nat.lt_succ_iff.mp (List.mem_range.mp hi), rfl⟩
    have hl := hperm.length_eq
    unfold GetDocumentCount OMap.size
    unfold OMap.keys at hl
    rw [List.length_map, List.length_map, List.length_range] at hl
    exact hl

/-- The documents that the query "w" matches in the store of `nearTieDocuments`: k
documents, among them document 1 (rating 0) and document k (rating 5), with their
relevances. -/
theorem nearTieStoreOf_matched (n k : Nat) (hk : 2 ≤ k) (ln : ℚ → K) :
    ∃ (matched : List (Document K)) (a b : Document K),
      (nearTieStoreOf n k).FindAllDocuments ln { plus_words := [['w']], minus_words := [] }
          (fun _ _ _ => true) = .ok matched ∧
        matched.length = k ∧ a ∈ matched ∧ b ∈ matched ∧
        a.rating = 0 ∧
        a.relevance = ((1 / (((n + 0 : ℕ) : ℚ) + 1) : ℚ) : K) *
          ln (((k + 1 : ℕ) : ℚ) * 1 / ((k : ℕ) : ℚ)) ∧
        b.rating = 5 ∧
        b.relevance = ((1 / (((n + (k - 1) : ℕ) : ℚ) + 1) : ℚ) : K) *
          ln (((k + 1 : ℕ) : ℚ) * 1 / ((k : ℕ) : ℚ)) := by
  obtain ⟨hr, hstop, hids, hdoc, hlast, hnone⟩ := nearTieStoreOf_spec n k
  obtain ⟨hp, hw, hdf, hcnt⟩ := nearTieStoreOf_index n k
  obtain ⟨docs, h1, h2, h3, h4⟩ := FindAllDocuments_general (nearTieStoreOf n k) hr.inv ln
    { plus_words := [['w']], minus_words := [] } (fun _ _ _ => true)
  have hinj : Function.Injective (fun i : Nat => ((i : Int) + 1)) := by
    intro i j h
    have h' : (i : Int) + 1 = (j : Int) + 1 := h
    omega
  have hmem : ∀ d, d ∈ docs.map (fun doc => doc.id) ↔ ∃ i, i < k ∧ d = (i : Int) + 1 := by
    intro d
    rw [h3 d, ← hw d]
    constructor
    · rintro ⟨_, hf, _⟩
      by_contra hc
      apply hf
      have hc' : (nearTieStoreOf n k).hasWord ['w'] d = false := by
        cases hh : (nearTieStoreOf n k).hasWord ['w'] d
        · rfl
        · exact absurd hh hc
      simp [hc']
    · intro hd
      obtain ⟨i, hi, rfl⟩ := (hw d).mp hd
      refine ⟨?_, by simp [hd], rfl⟩
      unfold accepts
      rw [hdoc i hi]
  have hlen : docs.length = k := by
    have hperm : (docs.map (fun doc => doc.id)).Perm
        ((List.range k).map (fun i : Nat => ((i : Int) + 1))) := by
      refine (List.perm_ext_iff_of_nodup h2 ((List.nodup_range k).map hinj)).mpr ?_
      intro x
      rw [hmem x, List.mem_map]
      constructor
      · rintro ⟨i, hi, rfl⟩
        exact ⟨i, List.mem_range.mpr hi, rfl⟩
      · rintro ⟨i, hi, rfl⟩
        exact ⟨i, List.mem_range.mp hi, rfl⟩
    have := hperm.length_eq
    rw [List.length_map, List.length_map, List.length_range] at this
    exact this
  have key : ∀ (i : Nat), i < k → ∃ m ∈ docs,
      m.rating = ComputeAverageRating (if i + 1 = k then [5] else []) ∧
      m.relevance = ((1 / (((n + i : ℕ) : ℚ) + 1) : ℚ) : K) *
        ln (((k + 1 : ℕ) : ℚ) * 1 / ((k : ℕ) : ℚ)) := by
    intro i hi
    obtain ⟨m, hm, hid⟩ := List.mem_map.mp ((hmem _).mpr ⟨i, hi, rfl⟩)
    refine ⟨m, hm, ?_⟩
    obtain ⟨hrel, data, hdata, hrat⟩ := h4 m hm
    rw [hid] at hrel hdata
    rw [hdoc i hi] at hdata
    cases hdata
    refine ⟨hrat, ?_⟩
    have hh : (nearTieStoreOf n k).hasWord ['w'] ((i : Int) + 1) = true :=
      (hw _).mpr ⟨i, hi, rfl⟩
    rw [hrel]
    simp only [List.filter_cons, hh, List.filter_nil, if_true, List.map_cons, List.map_nil,
      List.sum_cons, List.sum_nil, add_zero, termFreq_eq_posting, hp i hi, Option.getD_some,
      hdf, hcnt]
  obtain ⟨a, ha, ra, ea⟩ := key 0 (by omega)
  obtain ⟨b, hb, rb, eb⟩ := key (k - 1) (by omega)
  have r0 : ComputeAverageRating [] = 0 := by decide
  have r5 : ComputeAverageRating [5] = 5 := by decide
  rw [if_neg (by omega), r0] at ra
  rw [if_pos (by omega), r5] at rb
  exact ⟨docs, a, b, h1, hlen, ha, hb, ra, ea, rb, eb⟩

end SearchServer


namespace SearchServer

theorem log_eighteen_seventeenths :
    0 < Real.log ((((17 + 1 : ℕ) : ℚ) * 1 / ((17 : ℕ) : ℚ) : ℚ) : ℝ) ∧
      Real.log ((((17 + 1 : ℕ) : ℚ) * 1 / ((17 : ℕ) : ℚ) : ℚ) : ℝ) ≤ 1 / 17 := by
  have e : ((((17 + 1 : ℕ) : ℚ) * 1 / ((17 : ℕ) : ℚ) : ℚ) : ℝ) = 18 / 17 := by norm_num
  rw [e]
  constructor
  · exact Real.log_pos (by norm_num)
  · have := Real.log_le_sub_one_of_pos (show (0 : ℝ) < 18 / 17 by norm_num)
    linarith

/-- The term frequencies 1/(2^26 + 1) and 1/(2^26 + 17), weighted by an inverse document
frequency of at most 1/17, are distinct and closer than epsilon. -/
theorem nearTie_first_last (c : ℝ) (hc0 : 0 < c) (hc : c ≤ 1 / 17) :
    ((1 / (((2 ^ 26 + (17 - 1) : ℕ) : ℚ) + 1) : ℚ) : ℝ) * c <
        ((1 / (((2 ^ 26 + 0 : ℕ) : ℚ) + 1) : ℚ) : ℝ) * c ∧
      |((1 / (((2 ^ 26 + (17 - 1) : ℕ) : ℚ) + 1) : ℚ) : ℝ) * c -
        ((1 / (((2 ^ 26 + 0 : ℕ) : ℚ) + 1) : ℚ) : ℝ) * c| < 1 / 2 ^ 52 := by
  have ea : ((1 / (((2 ^ 26 + 0 : ℕ) : ℚ) + 1) : ℚ) : ℝ) = 1 / 67108865 := by norm_num
  have eb : ((1 / (((2 ^ 26 + (17 - 1) : ℕ) : ℚ) + 1) : ℚ) : ℝ) = 1 / 67108881 := by
    norm_num
  rw [ea, eb]
  have hlt : (1 / 67108881 : ℝ) * c < 1 / 67108865 * c := by
    apply mul_lt_mul_of_pos_right _ hc0
    norm_num
  refine ⟨hlt, ?_⟩
  rw [abs_sub_comm, abs_of_pos (sub_pos.mpr hlt)]
  have hd : (1 / 67108865 : ℝ) * c - 1 / 67108881 * c =
      c * (16 / (67108865 * 67108881)) := by
    ring
  rw [hd]
  have h2 : c * (16 / (67108865 * 67108881)) ≤ 1 / 17 * (16 / (67108865 * 67108881)) :=
    mul_le_mul_of_nonneg_right hc (by positivity)
  have h3 : (1 / 17 : ℝ) * (16 / (67108865 * 67108881)) < 1 / 2 ^ 52 := by norm_num
  linarith

/-- C10, the code at the failing input: 18 documents on a server without stop words,
document k (for k from 1 to 17) being "w" followed by 2^26 + k - 1 tokens "f", documents 1
to 16 without ratings (rating 0), document 17 with the rating 5, and document 18 being
"f". The query "w" matches documents 1 to 17, with relevances ln(18/17) / (2^26 + k)
(natural logarithm, exact real arithmetic). Document 1 comes before document 17 by its
relevance, and document 17 comes before document 1 by its rating, their relevances being
within epsilon: on the 17 matched documents the comparator is not a strict weak ordering,
so the call of `std::sort` in `FindTopDocuments` is outside the contract of `std::sort`. -/
theorem FindTopDocuments_sort_outside_contract :
    ∃ matched : List (Document ℝ),
      Reachable (nearTieStoreOf (2 ^ 26) 17) ∧
      (nearTieStoreOf (2 ^ 26) 17).ParseQuery ['w'] false =
        .ok { plus_words := [['w']], minus_words := [] } ∧
      (nearTieStoreOf (2 ^ 26) 17).FindAllDocuments (fun x : ℚ => Real.log (x : ℝ))
        { plus_words := [['w']], minus_words := [] } (fun _ _ _ => true) = .ok matched ∧
      matched.length = 17 ∧
      strictWeakOrderOn before matched = false ∧
      ∃ a ∈ matched, ∃ b ∈ matched, a.rating = 0 ∧ b.rating = 5 ∧
        a.relevance > b.relevance ∧ |b.relevance - a.relevance| < 1 / 2 ^ 52 ∧
        before a b = true ∧ before b a = true := by
  obtain ⟨matched, a, b, hm, hlen, ha, hb, ra, ea, rb, eb⟩ :=
    nearTieStoreOf_matched (2 ^ 26) 17 (by decide) (fun x : ℚ => Real.log (x : ℝ))
  beta_reduce at ea eb
  obtain ⟨hr, hstop, -⟩ := nearTieStoreOf_spec (2 ^ 26) 17
  obtain ⟨hc0, hc⟩ := log_eighteen_seventeenths
  obtain ⟨hlt, hclose⟩ := nearTie_first_last _ hc0 hc
  rw [← ea, ← eb] at hlt hclose
  have hab : before a b = true := by
    unfold before
    simp only [Bool.or_eq_true, Bool.and_eq_true, decide_eq_true_eq]
    exact Or.inl hlt
  have hba : before b a = true := by
    unfold before epsilon
    simp only [Bool.or_eq_true, Bool.and_eq_true, decide_eq_true_eq]
    refine Or.inr ⟨hclose, ?_⟩
    rw [rb, ra]
    decide
  have hq : (nearTieStoreOf (2 ^ 26) 17).ParseQuery ['w'] false =
      .ok { plus_words := [['w']], minus_words := [] } := by
    rw [ParseQuery_congr _ (init []) hstop]
    rfl
  refine ⟨matched, hr, hq, hm, hlen, ?_, a, ha, b, hb, ra, rb, hlt, hclose, hab, hba⟩
  cases hs : strictWeakOrderOn before matched
  · rfl
  · exact absurd ⟨hab, hba⟩ (strictWeakOrderOn_asymm _ _ hs a ha b hb)

end SearchServer


/-! ## Sorts within the contract of `std::sort` -/

/-- The comparator `<` of a linear order, as used for the query words, is a strict weak
ordering on every range. -/
theorem strictWeakOrderOn_lt {α : Type} [LinearOrder α] (l : List α) :
    strictWeakOrderOn (fun a b : α => decide (a < b)) l = true := by
  unfold strictWeakOrderOn
  simp only [Bool.and_eq_true, List.all_eq_true]
  refine ⟨⟨?_, ?_⟩, ?_⟩
  · intro a _
    simp
  · intro a _ b _ c _
    cases e1 : decide (a < b)
    · rfl
    · cases e2 : decide (b < c)
      · rfl
      · have h : a < c := lt_trans (of_decide_eq_true e1) (of_decide_eq_true e2)
        simp [h]
  · intro a _ b _ c _
    cases e1 : decide (a < b)
    · cases e2 : decide (b < a)
      · cases e3 : decide (b < c)
        · cases e4 : decide (c < b)
          · have hab : a = b := le_antisymm (not_lt.mp (of_decide_eq_false e2))
              (not_lt.mp (of_decide_eq_false e1))
            have hbc : b = c := le_antisymm (not_lt.mp (of_decide_eq_false e4))
              (not_lt.mp (of_decide_eq_false e3))
            subst hab
            subst hbc
            simp
          · rfl
        · rfl
      · rfl
    · rfl

namespace SearchServer

variable {K : Type} [LinearOrderedField K]

theorem before_irrefl (a : Document K) : before a a = false := by
  cases hb : before a a
  · rfl
  · rcases (before_iff_lex a a (Or.inl rfl)).mp hb with h | ⟨_, h⟩
    · exact absurd h (lt_irrefl _)
    · exact absurd h (lt_irrefl _)

theorem before_trans_of_separated (a b c : Document K)
    (hab : a.relevance = b.relevance ∨ (1 / 2 ^ 52 : K) ≤ |a.relevance - b.relevance|)
    (hbc : b.relevance = c.relevance ∨ (1 / 2 ^ 52 : K) ≤ |b.relevance - c.relevance|)
    (hac : a.relevance = c.relevance ∨ (1 / 2 ^ 52 : K) ≤ |a.relevance - c.relevance|)
    (h1 : before a b = true) (h2 : before b c = true) : before a c = true := by
  rw [before_iff_lex a c hac]
  rcases (before_iff_lex a b hab).mp h1 with h1 | ⟨e1, r1⟩ <;>
    rcases (before_iff_lex b c hbc).mp h2 with h2 | ⟨e2, r2⟩
  · exact Or.inl (gt_trans h1 h2)
  · rw [e2] at h1
    exact Or.inl h1
  · rw [← e1] at h2
    exact Or.inl h2
  · exact Or.inr ⟨e1.trans e2, gt_trans r1 r2⟩

/-- On documents whose relevances are pairwise equal or at least epsilon apart the
comparator of `FindTopDocuments` meets the requirement of `std::sort`. -/
theorem strictWeakOrderOn_before_of_separated (l : List (Document K))
    (hsep : ∀ a ∈ l, ∀ b ∈ l,
      a.relevance = b.relevance ∨ (1 / 2 ^ 52 : K) ≤ |a.relevance - b.relevance|) :
    strictWeakOrderOn before l = true := by
  unfold strictWeakOrderOn
  simp only [Bool.and_eq_true, List.all_eq_true]
  refine ⟨⟨?_, ?_⟩, ?_⟩
  · intro a _
    rw [before_irrefl a]
    rfl
  · intro a ha b hb c hc
    cases h1 : before a b
    · rfl
    · cases h2 : before b c
      · rfl
      · rw [before_trans_of_separated a b c (hsep a ha b hb) (hsep b hb c hc)
          (hsep a ha c hc) h1 h2]
        rfl
  · intro a ha b hb c hc
    cases h1 : before a b
    · cases h2 : before b a
      · cases h3 : before b c
        · cases h4 : before c b
          · obtain ⟨h5, h6⟩ := before_incomparable_trans a b c (hsep a ha b hb)
              (hsep b hb c hc) (hsep a ha c hc) ⟨h1, h2⟩ ⟨h3, h4⟩
            rw [h5, h6]
            rfl
          · rfl
        · rfl
      · rfl
    · rfl

/-- Within the contract of `std::sort`: when the relevances of the matched documents are
pairwise equal or at least epsilon (2^-52) apart, the comparator is a strict weak ordering
on them and the sequence returned by `FindTopDocuments` (either policy) is ordered by
relevance descending with the rating as tie-break within epsilon: for every adjacent pair
(a before b), a.relevance > b.relevance, or |a.relevance - b.relevance| < epsilon and
a.rating ≥ b.rating. -/
theorem FindTopDocuments_sorted_of_separated (s : SearchServer) (ln : ℚ → K)
    (policy : ExecutionPolicy) (raw_query : Str) (q : Query)
    (hq : s.ParseQuery raw_query false = .ok q) (pred : DocumentPredicate)
    (matched : List (Document K))
    (hm : (match policy with
           | .seq => s.FindAllDocuments ln q pred
           | .par => s.FindAllDocumentsPar ln q pred) = .ok matched)
    (hsep : ∀ a ∈ matched, ∀ b ∈ matched,
      a.relevance = b.relevance ∨ (1 / 2 ^ 52 : K) ≤ |a.relevance - b.relevance|) :
    strictWeakOrderOn before matched = true ∧
      ∃ docs, s.FindTopDocuments ln policy raw_query pred = .ok docs ∧
        docs.Chain' (fun a b => a.relevance > b.relevance ∨
          (|a.relevance - b.relevance| < 1 / 2 ^ 52 ∧ a.rating ≥ b.rating)) := by
  refine ⟨strictWeakOrderOn_before_of_separated matched hsep, ?_⟩
  have key : (std_sort before matched).Chain' (fun a b =>
      a.relevance > b.relevance ∨
        (|a.relevance - b.relevance| < 1 / 2 ^ 52 ∧ a.rating ≥ b.rating)) :=
    List.Chain'.imp (fun a b hab => before_order a b hab) (std_sort_chain before matched)
  have htop : s.FindTopDocuments ln policy raw_query pred =
      .ok ((std_sort before matched).take MAX_RESULT_DOCUMENT_COUNT) := by
    unfold FindTopDocuments
    simp only [hq, hm]
    split_ifs with hlen
    · rfl
    · rw [List.take_of_length_le (by omega)]
  exact ⟨_, htop, List.Chain'.take key _⟩

theorem FindTopDocuments_sorted_of_separated_witness :
    demo.FindTopDocuments (fun q : ℚ => q) .seq "cat hat".toList (fun _ _ _ => true) =
        .ok [{ id := 2, relevance := 3 / 2, rating := 4 },
          { id := 1, relevance := 1 / 2, rating := 3 }] ∧
      strictWeakOrderOn before
          [({ id := 1, relevance := 1 / 2, rating := 3 } : Document ℚ),
            { id := 2, relevance := 3 / 2, rating := 4 }] = true ∧
        ∃ docs, demo.FindTopDocuments (fun q : ℚ => q) .seq "cat hat".toList
            (fun _ _ _ => true) = .ok docs ∧
          docs.Chain' (fun a b => a.relevance > b.relevance ∨
            (|a.relevance - b.relevance| < 1 / 2 ^ 52 ∧ a.rating ≥ b.rating)) :=
  ⟨by with_unfolding_all rfl,
    FindTopDocuments_sorted_of_separated demo (fun q : ℚ => q) .seq "cat hat".toList
      { plus_words := ["cat".toList, "hat".toList], minus_words := [] } (by rfl)
      (fun _ _ _ => true)
      [{ id := 1, relevance := 1 / 2, rating := 3 }, { id := 2, relevance := 3 / 2, rating := 4 }]
      (by with_unfolding_all rfl) (by
        intro a ha b hb
        simp only [List.mem_cons, List.mem_singleton, List.not_mem_nil, or_false] at ha hb
        rcases ha with rfl | rfl <;> rcases hb with rfl | rfl
        · exact Or.inl rfl
        · exact Or.inr (by norm_num)
        · exact Or.inr (by norm_num)
        · exact Or.inl rfl)⟩

end SearchServer
